import Mathlib

/-!
# The family endpoint of the akeneo client (`src/api/family.go`)

A shallow embedding of `FamilyApi` (`GetAll`, `Get`, `Create`, `Upsert`,
`BatchUpsert`) together with the parts of the Go standard library the five
methods call: `url.Values.Add`, `json.Marshal` for `Family`,
`json.Decoder.Decode` and `bufio.Scanner` with the `ScanLines` split function.

Conventions of the embedding.

* A Go string whose bytes the program or `json.Marshal` looks at or joins to
  others (the strings of a `Family`, the code given to `Get`, the path of a
  request) is a `GoString`: any sequence of bytes, valid UTF-8 or not.
* Text that is only handed on or that comes from the server (option values,
  status lines, error texts, request and response bodies) is a Lean string, so
  the model covers bodies that are valid UTF-8.  What `json.Marshal` writes
  is valid UTF-8 whatever the strings it is given.  A response body is the
  text its reader yields up to end of file.
* A Go slice or map is an `Option`: `none` is the nil slice or map, `some []`
  the empty one.  A pointer result is an `Option` as well, `none` being nil.
* The `*Family` arguments are taken non-nil: the model receives the pointee.
* The transport (`client.DoRequest`) is a function from the request to either
  the text of the transport error or the response.  Every operation returns,
  next to its Go results, the list of requests it handed to the transport.
-/

namespace Akeneo

/-! ## Dynamic values, request options, query parameters -/

/-- The value an `interface{}` holds: nil, or a value of a dynamic type. -/
inductive Dyn where
  | nil
  | string (s : String)
  | int (n : Int)
  | bool (b : Bool)
  | other (typeName : String)
  deriving DecidableEq, Repr

/-- Modelled from the spec: `RequestOpts`, declared outside `family.go`, is the
mapping of option name to value.  The model is the index expression `opts[key]`
itself, which yields the nil interface for a key the map does not hold. -/
abbrev RequestOpts := String → Dyn

/-- The type assertion `x.(string)` in its two-result form. -/
def Dyn.assertString : Dyn → Option String
  | .string s => some s
  | _ => none

/-- The type `url.Values`, a `map[string][]string`, as an association list with
one entry per key. -/
abbrev Values := List (String × List String)

/-- The lookup `v[key]`: the values stored under `key`, if the key is present. -/
def Values.lookup (v : Values) (key : String) : Option (List String) :=
  match v with
  | [] => none
  | (k, vs) :: rest => if k = key then some vs else Values.lookup rest key

/-- The method `Values.Add`: `v[key] = append(v[key], value)`. -/
def Values.Add (v : Values) (key value : String) : Values :=
  match v with
  | [] => [(key, [value])]
  | (k, vs) :: rest =>
    if k = key then (k, vs ++ [value]) :: rest else (k, vs) :: Values.Add rest key value

/-! ## Strings as bytes (`unicode/utf8`) -/

/-- A Go string, byte by byte.  A byte is a natural number below 256; a
larger number is treated as the bytes `f5` to `ff` are, which occur in no
valid encoding. -/
abbrev GoString := List Nat

/-- The UTF-8 encoding of a rune (`utf8.AppendRune`).  The shifts and masks of
the Go code are written as divisions and remainders. -/
def encodeRune (r : Char) : GoString :=
  if r.toNat < 0x80 then [r.toNat]
  else if r.toNat < 0x800 then [0xC0 + r.toNat / 64, 0x80 + r.toNat % 64]
  else if r.toNat < 0x10000 then
    [0xE0 + r.toNat / 4096, 0x80 + r.toNat / 64 % 64, 0x80 + r.toNat % 64]
  else
    [0xF0 + r.toNat / 262144, 0x80 + r.toNat / 4096 % 64, 0x80 + r.toNat / 64 % 64,
      0x80 + r.toNat % 64]

/-- The bytes of a text, `[]byte(s)`. -/
def bytes (s : String) : GoString :=
  s.data.flatMap encodeRune

/-- What the table `first` of `unicode/utf8` says of a leading byte: the
length of the encoding it starts and the range its second byte must lie in
(`acceptRanges`). -/
structure Lead where
  size : Nat
  lo : Nat
  hi : Nat

/-- The table `first` for the bytes from `80` up: `none` for a byte that
starts no encoding (a continuation byte, `c0`, `c1`, `f5` and above). -/
def first (s0 : Nat) : Option Lead :=
  if 0xC2 ≤ s0 ∧ s0 ≤ 0xDF then some ⟨2, 0x80, 0xBF⟩
  else if s0 = 0xE0 then some ⟨3, 0xA0, 0xBF⟩
  else if s0 = 0xED then some ⟨3, 0x80, 0x9F⟩
  else if 0xE1 ≤ s0 ∧ s0 ≤ 0xEF then some ⟨3, 0x80, 0xBF⟩
  else if s0 = 0xF0 then some ⟨4, 0x90, 0xBF⟩
  else if 0xF1 ≤ s0 ∧ s0 ≤ 0xF3 then some ⟨4, 0x80, 0xBF⟩
  else if s0 = 0xF4 then some ⟨4, 0x80, 0x8F⟩
  else none

/-- The call `utf8.DecodeRuneInString(s)` on a string that is not empty: the
rune at the start of `s` and the number of bytes of its encoding, or `none`
where Go returns the pair of `RuneError` and width 1 because `s` starts with
no valid encoding.  The shifts and masks of the Go code are written as
products and remainders. -/
def decodeRune : GoString → Option (Char × Nat)
  | [] => none
  | s0 :: rest =>
    if s0 < 0x80 then some (Char.ofNat s0, 1)
    else
      match first s0 with
      | none => none
      | some x =>
        match rest with
        | [] => none
        | s1 :: rest1 =>
          if s1 < x.lo ∨ x.hi < s1 then none
          else if x.size ≤ 2 then some (Char.ofNat (s0 % 32 * 64 + s1 % 64), 2)
          else
            match rest1 with
            | [] => none
            | s2 :: rest2 =>
              if s2 < 0x80 ∨ 0xBF < s2 then none
              else if x.size ≤ 3 then
                some (Char.ofNat (s0 % 16 * 4096 + s1 % 64 * 64 + s2 % 64), 3)
              else
                match rest2 with
                | [] => none
                | s3 :: _ =>
                  if s3 < 0x80 ∨ 0xBF < s3 then none
                  else
                    some (Char.ofNat
                      (s0 % 8 * 262144 + s1 % 64 * 4096 + s2 % 64 * 64 + s3 % 64), 4)

/-- The loop that steps through a Go string rune by rune (`i += size`), `skip`
being the number of bytes still to pass over before the next rune starts.  A
valid encoding gives its rune and is passed over as a whole; a byte that
starts no valid encoding gives `none` and is passed over alone. -/
def runesFrom : Nat → GoString → List (Option Char)
  | _, [] => []
  | skip + 1, _ :: rest => runesFrom skip rest
  | 0, s0 :: rest =>
    match decodeRune (s0 :: rest) with
    | none => none :: runesFrom 0 rest
    | some (r, size) => some r :: runesFrom (size - 1) rest

/-- The runes of a Go string, with `none` for every byte that starts no valid
encoding. -/
def runes (s : GoString) : List (Option Char) :=
  runesFrom 0 s

/-! ## JSON documents

The scanner of `encoding/json` as a parser into syntax trees.  The parser
takes fuel; `readValue` gives it more fuel than the input has characters, and
every call that uses up fuel also moves on in the input.  The error texts are
those of `encoding/json` without the offending character and the offset. -/

/-- A JSON value.  A number keeps its literal text; an object keeps its members
in document order, repeated keys included. -/
inductive Json where
  | null
  | bool (b : Bool)
  | num (lit : String)
  | str (s : String)
  | arr (elems : List Json)
  | obj (members : List (String × Json))
  deriving Repr

/-- The white space of the JSON scanner. -/
def isSpace (c : Char) : Bool :=
  c = ' ' || c = '\t' || c = '\r' || c = '\n'

/-- Skip leading white space. -/
def skipSpace : List Char → List Char
  | [] => []
  | c :: cs => if isSpace c then skipSpace cs else c :: cs

/-- The decimal digits. -/
def isDigit (c : Char) : Bool :=
  decide ('0' ≤ c) && decide (c ≤ '9')

/-- Split off the longest run of leading digits. -/
def takeDigits : List Char → List Char × List Char
  | [] => ([], [])
  | c :: cs =>
    if isDigit c then (c :: (takeDigits cs).1, (takeDigits cs).2) else ([], c :: cs)

/-- The value of a hexadecimal digit. -/
def hexVal (c : Char) : Option Nat :=
  if isDigit c then some (c.toNat - 48)
  else if decide ('a' ≤ c) && decide (c ≤ 'f') then some (c.toNat - 87)
  else if decide ('A' ≤ c) && decide (c ≤ 'F') then some (c.toNat - 55)
  else none

/-- Four hexadecimal digits, as after a backslash and `u` (`getu4`). -/
def getu4 : List Char → Option (Nat × List Char)
  | a :: b :: c :: d :: rest =>
    match hexVal a, hexVal b, hexVal c, hexVal d with
    | some x, some y, some z, some w => some (((x * 16 + y) * 16 + z) * 16 + w, rest)
    | _, _, _, _ => none
  | _ => none

/-- The low half of a surrogate pair: a second `\uXXXX` escape in the range
`dc00` to `dfff`, combined with the high half `hi`. -/
def lowSurrogate (hi : Nat) : List Char → Option (Char × List Char)
  | '\\' :: 'u' :: rest =>
    match getu4 rest with
    | some (lo, rest2) =>
      if 0xd800 ≤ hi ∧ hi < 0xdc00 ∧ 0xdc00 ≤ lo ∧ lo < 0xe000 then
        some (Char.ofNat ((hi - 0xd800) * 1024 + (lo - 0xdc00) + 0x10000), rest2)
      else none
    | none => none
  | _ => none

/-- Decode one escape sequence; the input starts after the backslash. -/
def unescape : List Char → Option (Char × List Char)
  | [] => none
  | e :: rest =>
    if e = 'u' then
      match getu4 rest with
      | none => none
      | some (rr, rest1) =>
        if 0xd800 ≤ rr ∧ rr < 0xe000 then
          match lowSurrogate rr rest1 with
          | some r => some r
          | none => some (Char.ofNat 0xfffd, rest1)
        else some (Char.ofNat rr, rest1)
    else if e = '"' then some ('"', rest)
    else if e = '\\' then some ('\\', rest)
    else if e = '/' then some ('/', rest)
    else if e = 'b' then some (Char.ofNat 8, rest)
    else if e = 'f' then some (Char.ofNat 12, rest)
    else if e = 'n' then some ('\n', rest)
    else if e = 'r' then some ('\r', rest)
    else if e = 't' then some ('\t', rest)
    else none

/-- Scan a string literal; the input starts after the opening quote.  Returns
the decoded text and the input after the closing quote. -/
def scanString : Nat → List Char → List Char → Except String (String × List Char)
  | 0, _, _ => .error "unexpected EOF"
  | fuel + 1, acc, cs =>
    match cs with
    | [] => .error "unexpected EOF"
    | c :: rest =>
      if c = '"' then .ok (String.mk acc, rest)
      else if c = '\\' then
        match unescape rest with
        | none => .error "invalid character in string escape code"
        | some (ch, rest2) => scanString fuel (acc ++ [ch]) rest2
      else if c.toNat < 0x20 then .error "invalid character in string literal"
      else scanString fuel (acc ++ [c]) rest

/-- The exponent of a number literal, if the input starts with one. -/
def scanExponent (lit : List Char) (cs : List Char) : Except String (List Char × List Char) :=
  match cs with
  | e :: rest =>
    if e = 'e' ∨ e = 'E' then
      match rest with
      | s :: rest2 =>
        if s = '+' ∨ s = '-' then
          match rest2 with
          | d :: _ =>
            if isDigit d then .ok (lit ++ [e, s] ++ (takeDigits rest2).1, (takeDigits rest2).2)
            else .error "invalid character in exponent of numeric literal"
          | [] => .error "unexpected EOF"
        else if isDigit s then .ok (lit ++ [e] ++ (takeDigits rest).1, (takeDigits rest).2)
        else .error "invalid character in exponent of numeric literal"
      | [] => .error "unexpected EOF"
    else .ok (lit, cs)
  | [] => .ok (lit, cs)

/-- The fraction and exponent of a number literal whose integer part is `lit`. -/
def scanFraction (lit : List Char) (cs : List Char) : Except String (List Char × List Char) :=
  match cs with
  | '.' :: rest =>
    match rest with
    | d :: _ =>
      if isDigit d then scanExponent (lit ++ ['.'] ++ (takeDigits rest).1) (takeDigits rest).2
      else .error "invalid character after decimal point in numeric literal"
    | [] => .error "unexpected EOF"
  | _ => scanExponent lit cs

/-- The integer part of a number literal, then the rest of it; `sign` is the
minus sign already read, if any. -/
def scanInteger (sign : List Char) (cs : List Char) : Except String (List Char × List Char) :=
  match cs with
  | [] => .error "unexpected EOF"
  | c :: rest =>
    if c = '0' then scanFraction (sign ++ ['0']) rest
    else if isDigit c then scanFraction (sign ++ c :: (takeDigits rest).1) (takeDigits rest).2
    else .error "invalid character in numeric literal"

/-- Read the characters `lit` or fail. -/
def expectLiteral (lit : List Char) (cs : List Char) : Except String (List Char) :=
  match lit, cs with
  | [], cs => .ok cs
  | _ :: _, [] => .error "unexpected EOF"
  | l :: ls, c :: rest => if l = c then expectLiteral ls rest else .error "invalid character in literal"

/-- The nesting limit of the JSON scanner (`maxNestingDepth`). -/
def maxNestingDepth : Nat := 10000

/-- The rest of a literal name, whose first letter has been read, as the value
`v`. -/
def parseLiteral (lit : List Char) (v : Json) (rest : List Char) :
    Except String (Json × List Char) :=
  match expectLiteral lit rest with
  | .ok rest2 => .ok (v, rest2)
  | .error e => .error e

/-- A number literal after its sign, as a value. -/
def parseNumber (sign : List Char) (cs : List Char) : Except String (Json × List Char) :=
  match scanInteger sign cs with
  | .ok (lit, rest2) => .ok (.num (String.mk lit), rest2)
  | .error e => .error e

/-- A string literal after its opening quote, as a value. -/
def parseString (fuel : Nat) (rest : List Char) : Except String (Json × List Char) :=
  match scanString fuel [] rest with
  | .ok (s, rest2) => .ok (.str s, rest2)
  | .error e => .error e

mutual
/-- Read one JSON value from the start of the input and return it with what
follows it.  `depth` counts the arrays and objects already open. -/
def parseValue : Nat → Nat → List Char → Except String (Json × List Char)
  | 0, _, _ => .error "unexpected EOF"
  | fuel + 1, depth, cs =>
    match cs with
    | [] => .error "unexpected EOF"
    | c :: rest =>
      if c = 'n' then parseLiteral ['u', 'l', 'l'] .null rest
      else if c = 't' then parseLiteral ['r', 'u', 'e'] (.bool true) rest
      else if c = 'f' then parseLiteral ['a', 'l', 's', 'e'] (.bool false) rest
      else if c = '"' then parseString fuel rest
      else if c = '-' then parseNumber ['-'] rest
      else if isDigit c then parseNumber [] (c :: rest)
      else if c = '[' then
        if maxNestingDepth ≤ depth then .error "exceeded max depth"
        else
          match skipSpace rest with
          | [] => .error "unexpected EOF"
          | d :: rest2 =>
            if d = ']' then .ok (.arr [], rest2)
            else
              match parseValue fuel (depth + 1) (d :: rest2) with
              | .ok (v, rest3) => parseElems fuel (depth + 1) [v] rest3
              | .error e => .error e
      else if c = '\x7b' then
        if maxNestingDepth ≤ depth then .error "exceeded max depth"
        else
          match skipSpace rest with
          | [] => .error "unexpected EOF"
          | d :: rest2 =>
            if d = '\x7d' then .ok (.obj [], rest2)
            else parseMember fuel (depth + 1) [] (d :: rest2)
      else .error "invalid character looking for beginning of value"
/-- After an array element: a comma and the next element, or the closing
bracket. -/
def parseElems : Nat → Nat → List Json → List Char → Except String (Json × List Char)
  | 0, _, _, _ => .error "unexpected EOF"
  | fuel + 1, depth, acc, cs =>
    match skipSpace cs with
    | [] => .error "unexpected EOF"
    | c :: rest =>
      if c = ']' then .ok (.arr acc, rest)
      else if c = ',' then
        match parseValue fuel depth (skipSpace rest) with
        | .ok (v, rest2) => parseElems fuel depth (acc ++ [v]) rest2
        | .error e => .error e
      else .error "invalid character after array element"
/-- An object member (key, colon, value) and then a comma and the next member,
or the closing brace. -/
def parseMember : Nat → Nat → List (String × Json) → List Char → Except String (Json × List Char)
  | 0, _, _, _ => .error "unexpected EOF"
  | fuel + 1, depth, acc, cs =>
    match cs with
    | [] => .error "unexpected EOF"
    | q :: rest =>
      if q = '"' then
        match scanString fuel [] rest with
        | .error e => .error e
        | .ok (key, rest2) =>
          match skipSpace rest2 with
          | [] => .error "unexpected EOF"
          | c :: rest3 =>
            if c = ':' then
              match parseValue fuel depth (skipSpace rest3) with
              | .error e => .error e
              | .ok (v, rest4) =>
                match skipSpace rest4 with
                | [] => .error "unexpected EOF"
                | d :: rest5 =>
                  if d = '\x7d' then .ok (.obj (acc ++ [(key, v)]), rest5)
                  else if d = ',' then parseMember fuel depth (acc ++ [(key, v)]) (skipSpace rest5)
                  else .error "invalid character after object key:value pair"
            else .error "invalid character after object key"
      else .error "invalid character looking for beginning of object key string"
end

/-- The scanning half of `json.Decoder.Decode`: skip white space, read the next
JSON value of the stream and leave what follows it unread.  A stream that
holds nothing but white space ends with `EOF`. -/
def readValue (body : String) : Except String Json :=
  match skipSpace body.data with
  | [] => .error "EOF"
  | c :: cs =>
    match parseValue (cs.length + 2) 0 (c :: cs) with
    | .ok (v, _) => .ok v
    | .error e => .error e

/-- The typed half of `Decode(&p)` for a pointer `p` to a struct: the literal
`null` sets the pointer to nil, any other document is decoded into the struct
the pointer refers to (a fresh zero struct here, as at every call site). -/
def decodePtr {α : Type} (decodeStruct : Json → Except String α) (doc : Json) :
    Except String (Option α) :=
  match doc with
  | .null => .ok none
  | j =>
    match decodeStruct j with
    | .ok v => .ok (some v)
    | .error e => .error e

/-- The call `json.NewDecoder(r).Decode(&p)` on a stream holding `body`. -/
def Decode {α : Type} (decodeStruct : Json → Except String α) (body : String) :
    Except String (Option α) :=
  match readValue body with
  | .ok doc => decodePtr decodeStruct doc
  | .error e => .error e

/-! ## Encoding -/

/-- A lower-case hexadecimal digit. -/
def hexDigit (n : Nat) : Char :=
  if n < 10 then Char.ofNat (48 + n) else Char.ofNat (87 + n)

/-- The characters `json.Marshal` writes for one rune of a string: quote and
backslash are escaped, so are the control characters, the characters `<`,
`>`, `&` and the line separators U+2028 and U+2029; every other rune is
written as it is.  Backspace and form
feed are written `\b` and `\f` as Go 1.22 and later do; earlier versions
write `\u0008` and `\u000c`, which the decoder reads alike. -/
def escapeChar (c : Char) : List Char :=
  if c = '"' ∨ c = '\\' then ['\\', c]
  else if c = Char.ofNat 8 then ['\\', 'b']
  else if c = Char.ofNat 12 then ['\\', 'f']
  else if c = '\n' then ['\\', 'n']
  else if c = '\r' then ['\\', 'r']
  else if c = '\t' then ['\\', 't']
  else if c.toNat < 0x20 ∨ c = '<' ∨ c = '>' ∨ c = '&' then
    ['\\', 'u', '0', '0', hexDigit (c.toNat / 16), hexDigit (c.toNat % 16)]
  else if c.toNat = 0x2028 ∨ c.toNat = 0x2029 then
    ['\\', 'u', '2', '0', '2', hexDigit (c.toNat % 16)]
  else [c]

/-- The characters `json.Marshal` writes at one step through a string: the
escape `\ufffd` for a byte that starts no valid encoding, the characters of
`escapeChar` for a rune. -/
def escapeRune : Option Char → List Char
  | none => ['\\', 'u', 'f', 'f', 'f', 'd']
  | some c => escapeChar c

/-- The escaped characters of a string, without the quotes. -/
def escapeRunes : List (Option Char) → List Char
  | [] => []
  | r :: rs => escapeRune r ++ escapeRunes rs

/-- A string literal (`appendString`). -/
def quote (s : GoString) : List Char :=
  '"' :: (escapeRunes (runes s) ++ ['"'])

/-- What `json.Marshal` is about to write for a Go value of the kinds that
occur in a `Family`: `null` for a nil slice, a string, an array for a slice
that is not nil, an object for a struct or for a map that is not nil, with
its members in the order in which they are written.  Strings and keys are
the Go strings themselves; `render` escapes them. -/
inductive Doc where
  | null
  | str (s : GoString)
  | arr (elems : List Doc)
  | obj (members : List (GoString × Doc))

mutual
/-- The compact text `json.Marshal` writes. -/
def render : Doc → List Char
  | .obj ms => '\x7b' :: (renderMembers ms ++ ['\x7d'])
  | .arr es => '[' :: (renderElems es ++ [']'])
  | .str s => quote s
  | .null => "null".data
/-- Array elements, separated by commas. -/
def renderElems : List Doc → List Char
  | [] => []
  | e :: es => render e ++ renderMoreElems es
/-- The array elements after the first, each behind a comma. -/
def renderMoreElems : List Doc → List Char
  | [] => []
  | e :: es => ',' :: (render e ++ renderMoreElems es)
/-- Object members, separated by commas. -/
def renderMembers : List (GoString × Doc) → List Char
  | [] => []
  | (k, v) :: ms => quote k ++ ':' :: (render v ++ renderMoreMembers ms)
/-- The object members after the first, each behind a comma. -/
def renderMoreMembers : List (GoString × Doc) → List Char
  | [] => []
  | (k, v) :: ms => ',' :: (quote k ++ ':' :: (render v ++ renderMoreMembers ms))
end

/-! ## Go maps with string keys -/

/-- Put `v` under `k` in a list of entries kept in increasing key order.  Keys
are compared as Go compares strings, byte by byte. -/
def setEntry {V : Type} (k : GoString) (v : V) : List (GoString × V) → List (GoString × V)
  | [] => [(k, v)]
  | (k1, v1) :: rest =>
    if k < k1 then (k, v) :: (k1, v1) :: rest
    else if k = k1 then (k, v) :: rest
    else (k1, v1) :: setEntry k v rest

/-- A non-nil `map[string]V`: its entries in strictly increasing key order, the
order in which `json.Marshal` writes them.  Two maps are equal exactly when
they hold the same entries. -/
structure GoMap (V : Type) where
  entries : List (GoString × V)
  ordered : entries.Pairwise (fun a b => a.1 < b.1)

instance {V : Type} [DecidableEq V] : DecidableEq (GoMap V) := fun a b =>
  decidable_of_iff (a.entries = b.entries) (by cases a; cases b; simp)

/-- The empty map, `make(map[string]V)`. -/
def GoMap.empty {V : Type} : GoMap V := ⟨[], List.Pairwise.nil⟩

/-- The assignment `m[k] = v`. -/
def GoMap.set {V : Type} (m : GoMap V) (k : GoString) (v : V) : GoMap V :=
  ⟨setEntry k v m.entries, by
    have key : ∀ l : List (GoString × V), l.Pairwise (fun a b => a.1 < b.1) →
        (setEntry k v l).Pairwise (fun a b => a.1 < b.1) ∧
          ∀ p ∈ setEntry k v l, p.1 = k ∨ p ∈ l := by
      intro l
      induction l with
      | nil => intro _; simp [setEntry]
      | cons hd tl ih =>
        intro h
        obtain ⟨k1, v1⟩ := hd
        rw [List.pairwise_cons] at h
        obtain ⟨h1, h2⟩ := h
        obtain ⟨ih1, ih2⟩ := ih h2
        unfold setEntry
        by_cases hlt : k < k1
        · rw [if_pos hlt]
          refine ⟨?_, ?_⟩
          · rw [List.pairwise_cons]
            refine ⟨?_, List.pairwise_cons.mpr ⟨h1, h2⟩⟩
            intro p hp
            rcases List.mem_cons.mp hp with hp | hp
            · subst hp; exact hlt
            · exact lt_trans hlt (h1 p hp)
          · intro p hp
            rcases List.mem_cons.mp hp with hp | hp
            · left; subst hp; rfl
            · right; exact hp
        · rw [if_neg hlt]
          by_cases heq : k = k1
          · rw [if_pos heq]
            refine ⟨?_, ?_⟩
            · rw [List.pairwise_cons]
              refine ⟨?_, h2⟩
              intro p hp
              have := h1 p hp
              simpa [heq] using this
            · intro p hp
              rcases List.mem_cons.mp hp with hp | hp
              · left; subst hp; rfl
              · right; exact List.mem_cons_of_mem _ hp
          · rw [if_neg heq]
            refine ⟨?_, ?_⟩
            · rw [List.pairwise_cons]
              refine ⟨?_, ih1⟩
              intro p hp
              rcases ih2 p hp with hp | hp
              · rw [hp]
                exact lt_of_le_of_ne (not_lt.mp hlt) (fun hh => heq hh.symm)
              · exact h1 p hp
            · intro p hp
              rcases List.mem_cons.mp hp with hp | hp
              · right; subst hp; exact List.mem_cons_self _ _
              · rcases ih2 p hp with hp | hp
                · left; exact hp
                · right; exact List.mem_cons_of_mem _ hp
    exact (key _ m.ordered).1⟩

/-- The length `len(m)` of a possibly nil map. -/
def mapLen {V : Type} : Option (GoMap V) → Nat
  | none => 0
  | some m => m.entries.length

/-- The length `len(s)` of a possibly nil slice. -/
def sliceLen {α : Type} : Option (List α) → Nat
  | none => 0
  | some l => l.length

/-! ## The `Family` entity and its JSON form (`family.go`, lines 12 to 19) -/

/-- The struct `Family`. -/
structure Family where
  Code : GoString
  AttributeAsLabel : GoString
  AttributeAsImage : GoString
  Attributes : Option (List GoString)
  AttributeRequirements : Option (GoMap (Option (List GoString)))
  Labels : Option (GoMap GoString)
  deriving DecidableEq

/-- The zero value `Family{}`. -/
def Family.zero : Family :=
  ⟨[], [], [], none, none, none⟩

/-- The JSON form of a `[]string`: `null` for the nil slice, an array otherwise. -/
def sliceJson : Option (List GoString) → Doc
  | none => .null
  | some l => .arr (l.map Doc.str)

/-- The members an `omitempty` field contributes: none when the field is
empty, that is when its length is zero. -/
def omitempty (len : Nat) (name : String) (v : Doc) : List (GoString × Doc) :=
  if len = 0 then [] else [(bytes name, v)]

/-- The JSON object `json.Marshal` builds for a `Family`, following the struct
tags: `code` and `attribute_as_label` always, the other four under
`omitempty`, maps in the order of their keys as Go strings. -/
def Family.toJson (f : Family) : Doc :=
  .obj ([(bytes "code", .str f.Code), (bytes "attribute_as_label", .str f.AttributeAsLabel)]
    ++ omitempty f.AttributeAsImage.length "attribute_as_image" (.str f.AttributeAsImage)
    ++ omitempty (sliceLen f.Attributes) "attributes" (sliceJson f.Attributes)
    ++ omitempty (mapLen f.AttributeRequirements) "attribute_requirements"
        (.obj (((f.AttributeRequirements.map GoMap.entries).getD []).map
          (fun kv => (kv.1, sliceJson kv.2))))
    ++ omitempty (mapLen f.Labels) "labels"
        (.obj (((f.Labels.map GoMap.entries).getD []).map (fun kv => (kv.1, Doc.str kv.2)))))

/-- The call `json.Marshal(family)` for a non-nil `*Family`; it cannot fail.
The text is valid UTF-8 whatever the strings of the family are: a byte that
starts no valid encoding is written as the escape `\ufffd`. -/
def Marshal (f : Family) : String :=
  String.mk (render f.toJson)

/-- The simple case folding under which the decoder compares an object key
with a field name: ASCII letters, and the two other runes that fold to an
ASCII letter, U+017F to `s` and U+212A to `k`. -/
def foldRune (c : Char) : Char :=
  if 'A' ≤ c ∧ c ≤ 'Z' then Char.ofNat (c.toNat + 32)
  else if c.toNat = 0x17f then 's'
  else if c.toNat = 0x212a then 'k'
  else c

/-- Whether the object key `key` selects the field tagged `name` (lower case):
an exact match, or a match up to case. -/
def matchesField (key name : String) : Bool :=
  key = name || key.data.map foldRune = name.data

/-- Decode a document into a `string` that holds `cur`: the bytes of a string
are stored, `null` leaves the value as it is, anything else is a type error. -/
def decodeString (cur : GoString) : Json → Except String GoString
  | .str s => .ok (bytes s)
  | .null => .ok cur
  | .bool _ => .error "json: cannot unmarshal bool into Go value of type string"
  | .num _ => .error "json: cannot unmarshal number into Go value of type string"
  | .arr _ => .error "json: cannot unmarshal array into Go value of type string"
  | .obj _ => .error "json: cannot unmarshal object into Go value of type string"

/-- Decode the elements of an array into fresh `string` slots. -/
def decodeStrings : List Json → Except String (List GoString)
  | [] => .ok []
  | e :: es =>
    match decodeString [] e with
    | .error err => .error err
    | .ok s =>
      match decodeStrings es with
      | .error err => .error err
      | .ok ss => .ok (s :: ss)

/-- Decode a document into a `[]string`: `null` gives the nil slice, an array
gives a non-nil slice (empty for `[]`), anything else is a type error.  The
slots are fresh: a `null` element stays the empty string. -/
def decodeStringSlice : Json → Except String (Option (List GoString))
  | .null => .ok none
  | .arr es =>
    match decodeStrings es with
    | .ok ss => .ok (some ss)
    | .error err => .error err
  | .bool _ => .error "json: cannot unmarshal bool into Go value of type []string"
  | .num _ => .error "json: cannot unmarshal number into Go value of type []string"
  | .str _ => .error "json: cannot unmarshal string into Go value of type []string"
  | .obj _ => .error "json: cannot unmarshal object into Go value of type []string"

/-- Store the members of an object into a map, one assignment per member in
document order, under the bytes of its key, each element decoded into a fresh
zero value. -/
def decodeEntries {V : Type} (elem : Json → Except String V) :
    GoMap V → List (String × Json) → Except String (GoMap V)
  | m, [] => .ok m
  | m, (k, j) :: rest =>
    match elem j with
    | .error err => .error err
    | .ok v => decodeEntries elem (m.set (bytes k) v) rest

/-- Decode a document into a map field that holds `cur`: `null` gives the nil
map, an object is stored into the map already there (a new one if it is nil),
anything else is a type error. -/
def decodeMap {V : Type} (elem : Json → Except String V) (cur : Option (GoMap V)) :
    Json → Except String (Option (GoMap V))
  | .null => .ok none
  | .obj ms =>
    match decodeEntries elem (cur.getD GoMap.empty) ms with
    | .ok m => .ok (some m)
    | .error err => .error err
  | .bool _ => .error "json: cannot unmarshal bool into Go value of type map"
  | .num _ => .error "json: cannot unmarshal number into Go value of type map"
  | .str _ => .error "json: cannot unmarshal string into Go value of type map"
  | .arr _ => .error "json: cannot unmarshal array into Go value of type map"

/-- Store one object member into a `Family`: the key selects a field by its
tag, a key that selects none is skipped.  A key that occurs again stores
again: a string replaces the string, an object is stored into the map already
there.  An array that occurs again is decoded as the first time, into fresh
slots (Go decodes it into the slots of the slice already there, which shows
only when the later array holds `null` elements). -/
def Family.setField (f : Family) (key : String) (v : Json) : Except String Family :=
  if matchesField key "code" then
    match decodeString f.Code v with
    | .ok s => .ok { f with Code := s }
    | .error err => .error err
  else if matchesField key "attribute_as_label" then
    match decodeString f.AttributeAsLabel v with
    | .ok s => .ok { f with AttributeAsLabel := s }
    | .error err => .error err
  else if matchesField key "attribute_as_image" then
    match decodeString f.AttributeAsImage v with
    | .ok s => .ok { f with AttributeAsImage := s }
    | .error err => .error err
  else if matchesField key "attributes" then
    match decodeStringSlice v with
    | .ok l => .ok { f with Attributes := l }
    | .error err => .error err
  else if matchesField key "attribute_requirements" then
    match decodeMap decodeStringSlice f.AttributeRequirements v with
    | .ok m => .ok { f with AttributeRequirements := m }
    | .error err => .error err
  else if matchesField key "labels" then
    match decodeMap (decodeString []) f.Labels v with
    | .ok m => .ok { f with Labels := m }
    | .error err => .error err
  else .ok f

/-- Store the members of an object into a `Family`, in document order. -/
def Family.setFields : Family → List (String × Json) → Except String Family
  | f, [] => .ok f
  | f, (k, v) :: rest =>
    match f.setField k v with
    | .error err => .error err
    | .ok g => Family.setFields g rest

/-- Decode a document other than `null` into the zero `Family`: an object is
stored member by member, anything else is a type error. -/
def decodeFamily : Json → Except String Family
  | .obj ms => Family.setFields Family.zero ms
  | .null => .ok Family.zero
  | .bool _ => .error "json: cannot unmarshal bool into Go value of type akeneo.Family"
  | .num _ => .error "json: cannot unmarshal number into Go value of type akeneo.Family"
  | .str _ => .error "json: cannot unmarshal string into Go value of type akeneo.Family"
  | .arr _ => .error "json: cannot unmarshal array into Go value of type akeneo.Family"

/-! ## Line scanning (`bufio.Scanner` with `ScanLines`) -/

/-- The largest token a scanner with the default buffer delivers
(`bufio.MaxScanTokenSize`). -/
def maxScanTokenSize : Nat := 64 * 1024

/-- The number of bytes of a text in UTF-8. -/
def byteLen : List Char → Nat
  | [] => 0
  | c :: cs => c.utf8Size + byteLen cs

/-- Drop one trailing carriage return (`dropCR`). -/
def dropCR (line : List Char) : List Char :=
  if line.getLast? = some '\r' then line.dropLast else line

/-- The tokens `Scan` delivers for the rest of a body, `cur` being the part of
the current line already read.  A line ends at a newline or at the end of the
body; an empty last line is no token.  A line of `maxScanTokenSize` bytes or
more does not fit the buffer: `Scan` returns false there and the scan is
over. -/
def scanTokens : List Char → List Char → List String
  | cur, [] =>
    if cur = [] then []
    else if byteLen cur < maxScanTokenSize then [String.mk (dropCR cur)]
    else []
  | cur, c :: rest =>
    if c = '\n' then
      if byteLen cur < maxScanTokenSize then String.mk (dropCR cur) :: scanTokens [] rest
      else []
    else scanTokens (cur ++ [c]) rest

/-- The lines the loop `for scanner.Scan()` sees for a response body. -/
def scanLines (body : String) : List String :=
  scanTokens [] body.data

/-! ## The client and the five operations -/

/-- Modelled from the spec: `ApiError`, declared outside `family.go`, has an
optional numeric status code, an optional status text and a message; the
composite literals of `family.go` name the fields `Code`, `Status` and
`Message`, and a field a literal leaves out is zero. -/
structure ApiError where
  Code : Int := 0
  Status : String := ""
  Message : String := ""
  deriving DecidableEq, Repr

/-- The part of an HTTP response the operations read. -/
structure Response where
  StatusCode : Int
  Status : String
  Body : String
  deriving DecidableEq, Repr

/-- The arguments of one call of `client.DoRequest`; `H` is the type of the
headers.  A nil body is the empty text; the query parameters are a pointer,
`none` being nil. -/
structure Request (H : Type) where
  method : String
  uri : GoString
  headers : H
  body : String
  queryParams : Option Values
  deriving DecidableEq

/-- Modelled from the spec: the client collaborator, declared outside
`family.go`, exposes `getHeadersForRequest`, `getHeadersForBatchRequest` and
`DoRequest`, which returns a response or a transport failure (here the text
`err.Error()` of the failure). -/
structure Client (H : Type) where
  getHeadersForRequest : H
  getHeadersForBatchRequest : H
  DoRequest : Request H → Except String Response

/-- What a call leaves behind: the requests handed to the transport, in order,
and the values the Go method returns. -/
structure Call (H α : Type) where
  sent : List (Request H)
  ret : α

/-- The loop of lines 39 to 43: of the three keys, in this order, each one
whose option is a string is added with that string. -/
def queryParams (opts : RequestOpts) : Values :=
  ["page", "limit", "withCount"].foldl
    (fun q key =>
      match (opts key).assertString with
      | some value => q.Add key value
      | none => q)
    []

/-- The error of a failing status (lines 53 and 54 and their four copies):
the body is read to its end and becomes the message. -/
def statusError (response : Response) : ApiError :=
  { Code := response.StatusCode, Status := response.Status, Message := response.Body }

/-- The method `FamilyApi.GetAll`.  The type `FR` stands for
`FamiliesResponse`, which embeds types declared outside `family.go`;
`decodeFamiliesResponse` decodes a document other than `null` into it. -/
def GetAll {H FR : Type} (c : Client H) (decodeFamiliesResponse : Json → Except String FR)
    (opts : RequestOpts) : Call H (Option FR × Option ApiError) :=
  let headers := c.getHeadersForRequest
  let request : Request H := ⟨"GET", bytes "families", headers, "", some (queryParams opts)⟩
  match c.DoRequest request with
  | .error err => ⟨[request], (none, some { Message := err })⟩
  | .ok response =>
    if response.StatusCode ≥ 300 then ⟨[request], (none, some (statusError response))⟩
    else
      match Decode decodeFamiliesResponse response.Body with
      | .error err => ⟨[request], (none, some { Message := err })⟩
      | .ok resp => ⟨[request], (resp, none)⟩

/-- The method `FamilyApi.Get`. -/
def Get {H : Type} (c : Client H) (code : GoString) :
    Call H (Option Family × Option ApiError) :=
  let headers := c.getHeadersForRequest
  let uri := bytes "families/" ++ code
  let request : Request H := ⟨"GET", uri, headers, "", none⟩
  match c.DoRequest request with
  | .error err => ⟨[request], (none, some { Message := err })⟩
  | .ok response =>
    if response.StatusCode ≥ 300 then ⟨[request], (none, some (statusError response))⟩
    else
      match Decode decodeFamily response.Body with
      | .error err => ⟨[request], (none, some { Message := err })⟩
      | .ok family => ⟨[request], (family, none)⟩

/-- The method `FamilyApi.Create`. -/
def Create {H : Type} (c : Client H) (family : Family) : Call H (Option ApiError) :=
  let headers := c.getHeadersForRequest
  let body := Marshal family
  let request : Request H := ⟨"POST", bytes "families", headers, body, none⟩
  match c.DoRequest request with
  | .error err => ⟨[request], some { Message := err }⟩
  | .ok response =>
    if response.StatusCode ≥ 400 then ⟨[request], some (statusError response)⟩
    else ⟨[request], none⟩

/-- The method `FamilyApi.Upsert`. -/
def Upsert {H : Type} (c : Client H) (family : Family) : Call H (Option ApiError) :=
  let headers := c.getHeadersForRequest
  let uri := bytes "families/" ++ family.Code
  let body := Marshal family
  let request : Request H := ⟨"PATCH", uri, headers, body, none⟩
  match c.DoRequest request with
  | .error err => ⟨[request], some { Code := 0, Message := err }⟩
  | .ok response =>
    if response.StatusCode ≥ 300 then ⟨[request], some (statusError response)⟩
    else ⟨[request], none⟩

/-- The loop of lines 134 to 138: starting from the nil body, the JSON of each
entity and then a newline are appended, in the order of the slice. -/
def batchBody (families : List Family) : String :=
  families.foldl (fun body bodyItem => body ++ Marshal bodyItem ++ "\n") ""

/-- The built-in `append(s, x)` on a possibly nil slice. -/
def goAppend {α : Type} (s : Option (List α)) (x : α) : Option (List α) :=
  some (s.getD [] ++ [x])

/-- The loop of lines 155 to 163 over the scanned lines: each line is decoded
and appended to `apiResponse`; the first line that fails to decode ends the
loop with its error. -/
def decodeLines {B : Type} (decodeResponseBody : Json → Except String B) :
    Option (List (Option B)) → List String → Except String (Option (List (Option B)))
  | apiResponse, [] => .ok apiResponse
  | apiResponse, line :: rest =>
    match Decode decodeResponseBody line with
    | .error err => .error err
    | .ok responseLine => decodeLines decodeResponseBody (goAppend apiResponse responseLine) rest

/-- The method `FamilyApi.BatchUpsert`.  The type `B` stands for
`ResponseBody`, declared outside `family.go`; `decodeResponseBody` decodes a
document other than `null` into it.  The result is a slice of pointers. -/
def BatchUpsert {H B : Type} (c : Client H) (decodeResponseBody : Json → Except String B)
    (families : List Family) : Call H (Option (List (Option B)) × Option ApiError) :=
  let headers := c.getHeadersForBatchRequest
  let body := batchBody families
  let request : Request H := ⟨"PATCH", bytes "families", headers, body, none⟩
  match c.DoRequest request with
  | .error err => ⟨[request], (none, some { Message := err })⟩
  | .ok response =>
    if response.StatusCode ≥ 300 then ⟨[request], (none, some (statusError response))⟩
    else
      match decodeLines decodeResponseBody none (scanLines response.Body) with
      | .error err => ⟨[request], (none, some { Message := err })⟩
      | .ok apiResponse => ⟨[request], (apiResponse, none)⟩

/-! ## Vocabulary of the statements -/

/-- What the transport answered to the requests of a call, in order. -/
def Call.answers {H α : Type} (call : Call H α) (c : Client H) : List (Except String Response) :=
  call.sent.map c.DoRequest

/-- The options of the listing scenario: page 2, limit 10 and an unknown key. -/
def scenarioOpts : RequestOpts := fun key =>
  if key = "page" then .string "2"
  else if key = "limit" then .string "10"
  else if key = "bogus" then .string "x"
  else .nil

/-- A client whose transport answers every request with the same response. -/
def answering (response : Response) : Client Unit :=
  ⟨(), (), fun _ => .ok response⟩

/-- A client whose transport fails on every request with the same error. -/
def failing (err : String) : Client Unit :=
  ⟨(), (), fun _ => .error err⟩

/-- A successful response whose body is the JSON literal `null`. -/
def nullBody : Response :=
  ⟨200, "200 OK", "null"⟩

/-- A family with every field set. -/
def shoes : Family :=
  ⟨bytes "shoes", bytes "name", bytes "picture", some [bytes "name", bytes "size"],
    some ⟨[(bytes "ecommerce", some [bytes "name"]), (bytes "print", none)], by decide⟩,
    some ⟨[(bytes "en_US", bytes "Shoes"), (bytes "fr_FR", bytes "Chaussures")], by decide⟩⟩

/-- The lines of a text as the words of the specification have them: a line
ends at a newline or at the end of the text, an empty last line is no line,
and no line is too long to be one.  `cur` is the part of the current line
already read. -/
def splitLines : List Char → List Char → List (List Char)
  | cur, [] => if cur = [] then [] else [cur]
  | cur, c :: rest =>
    if c = '\n' then cur :: splitLines [] rest else splitLines (cur ++ [c]) rest

/-- The lines of a response body, each without its newline. -/
def rawLines (body : String) : List (List Char) :=
  splitLines [] body.data

/-- A stand-in for the decoder of `ResponseBody` in the scenarios: as the
decoder of any struct does, it accepts an object and rejects every other
document; the result line is kept as the members of the object. -/
def decodeObject : Json → Except String (List (String × Json))
  | .obj ms => .ok ms
  | _ => .error "json: cannot unmarshal into Go value of type akeneo.ResponseBody"

/-- A batch response of two lines, the first a success, the second carrying an
embedded error. -/
def twoLines : Response :=
  ⟨200, "200 OK",
    "\x7b\"line\":1,\"code\":\"shoes\",\"status_code\":204\x7d\n" ++
    "\x7b\"line\":2,\"code\":\"hats\",\"status_code\":422,\"message\":\"invalid\"\x7d\n"⟩

/-- A batch response of a single line. -/
def oneLine : Response :=
  ⟨200, "200 OK", "\x7b\"line\":1,\"code\":\"shoes\",\"status_code\":204\x7d\n"⟩

/-- A JSON document of 65536 bytes on one line: the empty object followed by
white space. -/
def longLine : String :=
  String.mk ('\x7b' :: '\x7d' :: List.replicate 65534 ' ')

/-- A batch response whose only line is `longLine`. -/
def longLineResponse : Response :=
  ⟨200, "200 OK", longLine⟩

/-- A line cut short after a colon: the start of an object, not a JSON
document. -/
def cutLine : String :=
  "\x7b\"line\":"

/-- A batch response whose second line is not JSON. -/
def brokenSecondLine : Response :=
  ⟨200, "200 OK", "\x7b\"line\":1,\"status_code\":204\x7d\n\x7b\"line\":\n"⟩

/-- The rune `utf8.RuneError`, U+FFFD. -/
def RuneError : Char := Char.ofNat 0xfffd

/-- The text of a Go string as a reader of valid UTF-8 sees it: its runes, with
U+FFFD for every byte that starts no valid encoding. -/
def text (s : GoString) : String :=
  String.mk ((runes s).map (fun r => r.getD RuneError))

/-- A Go string with every byte that starts no valid encoding replaced by the
three bytes of U+FFFD. -/
def replaceInvalid (s : GoString) : GoString :=
  bytes (text s)

/-- Whether a Go string is valid UTF-8 (`utf8.ValidString`): every step through
it finds a rune. -/
def ValidString (s : GoString) : Prop :=
  ∀ r ∈ runes s, r ≠ none

instance (s : GoString) : Decidable (ValidString s) := by
  unfold ValidString
  infer_instance

mutual
/-- The document a reader finds in the text `render` writes: strings and keys
with U+FFFD for every byte that starts no valid encoding. -/
def Doc.json : Doc → Json
  | .null => .null
  | .str s => .str (text s)
  | .arr es => .arr (jsonElems es)
  | .obj ms => .obj (jsonMembers ms)
/-- The documents of the elements of an array. -/
def jsonElems : List Doc → List Json
  | [] => []
  | e :: es => e.json :: jsonElems es
/-- The documents of the members of an object. -/
def jsonMembers : List (GoString × Doc) → List (String × Json)
  | [] => []
  | (k, v) :: ms => (text k, v.json) :: jsonMembers ms
end

/-- The parser reads `v` back from its text: with `d` arrays and objects open
and fuel beyond the length of the input, the text of `v` followed by anything
gives the document of `v` and leaves what follows.  The text starts with a
character that is neither white space nor a closing bracket. -/
def Parses (d : Nat) (v : Doc) : Prop :=
  (∃ c cs, render v = c :: cs ∧ isSpace c = false ∧ c ≠ ']') ∧
    ∀ fuel rest, (render v ++ rest).length < fuel →
      parseValue fuel d (render v ++ rest) = .ok (v.json, rest)

/-- What `omitempty` makes of a family on the wire and back: an empty
`attributes`, `attribute_requirements` or `labels` is left out of the
document, so it comes back nil; every other field comes back as it is. -/
def Family.omitEmpty (f : Family) : Family :=
  { f with
    Attributes := if sliceLen f.Attributes = 0 then none else f.Attributes
    AttributeRequirements :=
      if mapLen f.AttributeRequirements = 0 then none else f.AttributeRequirements
    Labels := if mapLen f.Labels = 0 then none else f.Labels }

/-- A successful response with the given body. -/
def okBody (body : String) : Response :=
  ⟨200, "200 OK", body⟩

/-- A family whose `attributes` is an empty slice that is not nil. -/
def emptyAttributes : Family :=
  ⟨bytes "shoes", bytes "name", [], some [], none, none⟩

/-- A family whose code is the single byte `ff`, which is not valid UTF-8. -/
def invalidCode : Family :=
  ⟨[0xff], bytes "name", [], none, none, none⟩

/-- The entries of a map stored one by one, in key order, into an empty map,
each key and each value rewritten on the way.  Entries whose rewritten keys
are equal end up as one entry, the last of them. -/
def GoMap.restore {V W : Type} (key : GoString → GoString) (val : V → W) (m : GoMap V) :
    GoMap W :=
  m.entries.foldl (fun acc kv => acc.set (key kv.1) (val kv.2)) GoMap.empty

/-- What the wire makes of a family: `omitempty` leaves an empty `attributes`,
`attribute_requirements` or `labels` out, so it comes back nil, and in every
string, map keys included, each byte that starts no valid encoding comes
back as U+FFFD. -/
def Family.wire (f : Family) : Family where
  Code := replaceInvalid f.Code
  AttributeAsLabel := replaceInvalid f.AttributeAsLabel
  AttributeAsImage := replaceInvalid f.AttributeAsImage
  Attributes := f.omitEmpty.Attributes.map (List.map replaceInvalid)
  AttributeRequirements :=
    f.omitEmpty.AttributeRequirements.map
      (GoMap.restore replaceInvalid (Option.map (List.map replaceInvalid)))
  Labels := f.omitEmpty.Labels.map (GoMap.restore replaceInvalid replaceInvalid)

/-- Whether every string of a family is valid UTF-8. -/
def Family.ValidUTF8 (f : Family) : Prop :=
  ValidString f.Code ∧ ValidString f.AttributeAsLabel ∧ ValidString f.AttributeAsImage ∧
    (∀ a ∈ f.Attributes.getD [], ValidString a) ∧
    (∀ kv ∈ (f.AttributeRequirements.map GoMap.entries).getD [],
      ValidString kv.1 ∧ ∀ a ∈ kv.2.getD [], ValidString a) ∧
    (∀ kv ∈ (f.Labels.map GoMap.entries).getD [], ValidString kv.1 ∧ ValidString kv.2)

instance (f : Family) : Decidable f.ValidUTF8 := by
  unfold Family.ValidUTF8
  infer_instance

/-! ## The request of each operation -/

theorem queryParams_lookup (opts : RequestOpts) (k : String) :
    (queryParams opts).lookup k =
      if k = "page" ∨ k = "limit" ∨ k = "withCount" then
        (opts k).assertString.map (fun s => [s])
      else none := by
  unfold queryParams
  simp only [List.foldl]
  by_cases h1 : k = "page"
  · subst h1
    cases a1 : (opts "page").assertString <;> cases a2 : (opts "limit").assertString <;>
      cases a3 : (opts "withCount").assertString <;>
      simp [Values.Add, Values.lookup]
  · by_cases h2 : k = "limit"
    · subst h2
      cases a1 : (opts "page").assertString <;> cases a2 : (opts "limit").assertString <;>
        cases a3 : (opts "withCount").assertString <;>
        simp [Values.Add, Values.lookup]
    · by_cases h3 : k = "withCount"
      · subst h3
        cases a1 : (opts "page").assertString <;> cases a2 : (opts "limit").assertString <;>
          cases a3 : (opts "withCount").assertString <;>
          simp [Values.Add, Values.lookup]
      · have e1 : ¬ "page" = k := fun h => h1 h.symm
        have e2 : ¬ "limit" = k := fun h => h2 h.symm
        have e3 : ¬ "withCount" = k := fun h => h3 h.symm
        cases a1 : (opts "page").assertString <;> cases a2 : (opts "limit").assertString <;>
          cases a3 : (opts "withCount").assertString <;>
          simp [Values.Add, Values.lookup, h1, h2, h3, e1, e2, e3]

theorem assertString_eq_some (d : Dyn) (s : String) :
    d.assertString = some s ↔ d = .string s := by
  cases d <;> simp [Dyn.assertString]

theorem GetAll_sent {H FR : Type} (c : Client H) (dec : Json → Except String FR)
    (opts : RequestOpts) :
    (GetAll c dec opts).sent =
      [⟨"GET", bytes "families", c.getHeadersForRequest, "", some (queryParams opts)⟩] := by
  unfold GetAll
  simp only []
  split
  · rfl
  · split
    · rfl
    · split <;> rfl

theorem Get_sent {H : Type} (c : Client H) (code : GoString) :
    (Get c code).sent = [⟨"GET", bytes "families/" ++ code, c.getHeadersForRequest, "", none⟩] := by
  unfold Get
  simp only []
  split
  · rfl
  · split
    · rfl
    · split <;> rfl

theorem Create_sent {H : Type} (c : Client H) (family : Family) :
    (Create c family).sent =
      [⟨"POST", bytes "families", c.getHeadersForRequest, Marshal family, none⟩] := by
  unfold Create
  simp only []
  split
  · rfl
  · split <;> rfl

theorem Upsert_sent {H : Type} (c : Client H) (family : Family) :
    (Upsert c family).sent =
      [⟨"PATCH", bytes "families/" ++ family.Code, c.getHeadersForRequest, Marshal family, none⟩] := by
  unfold Upsert
  simp only []
  split
  · rfl
  · split <;> rfl

theorem BatchUpsert_sent {H B : Type} (c : Client H) (dec : Json → Except String B)
    (families : List Family) :
    (BatchUpsert c dec families).sent =
      [⟨"PATCH", bytes "families", c.getHeadersForBatchRequest, batchBody families, none⟩] := by
  unfold BatchUpsert
  simp only []
  split
  · rfl
  · split
    · rfl
    · split <;> rfl

/-! The result of each operation, by the answer of the transport. -/

theorem GetAll_answer {H FR : Type} (c : Client H) (dec : Json → Except String FR)
    (opts : RequestOpts) (out : Except String Response) :
    (GetAll c dec opts).answers c = [out] →
    (GetAll c dec opts).ret =
      match out with
      | .error err => (none, some { Message := err })
      | .ok response =>
        if response.StatusCode ≥ 300 then (none, some (statusError response))
        else
          match Decode dec response.Body with
          | .error err => (none, some { Message := err })
          | .ok resp => (resp, none) := by
  intro h
  have h1 : c.DoRequest ⟨"GET", bytes "families", c.getHeadersForRequest, "",
      some (queryParams opts)⟩ = out := by
    simpa [Call.answers, GetAll_sent] using h
  unfold GetAll
  simp only [h1]
  cases out with
  | error err => rfl
  | ok response =>
    simp only []
    split
    · rfl
    · split <;> rfl

theorem Get_answer {H : Type} (c : Client H) (code : GoString) (out : Except String Response) :
    (Get c code).answers c = [out] →
    (Get c code).ret =
      match out with
      | .error err => (none, some { Message := err })
      | .ok response =>
        if response.StatusCode ≥ 300 then (none, some (statusError response))
        else
          match Decode decodeFamily response.Body with
          | .error err => (none, some { Message := err })
          | .ok family => (family, none) := by
  intro h
  have h1 : c.DoRequest ⟨"GET", bytes "families/" ++ code, c.getHeadersForRequest, "", none⟩ = out := by
    simpa [Call.answers, Get_sent] using h
  unfold Get
  simp only [h1]
  cases out with
  | error err => rfl
  | ok response =>
    simp only []
    split
    · rfl
    · split <;> rfl

theorem Create_answer {H : Type} (c : Client H) (family : Family)
    (out : Except String Response) :
    (Create c family).answers c = [out] →
    (Create c family).ret =
      match out with
      | .error err => some { Message := err }
      | .ok response =>
        if response.StatusCode ≥ 400 then some (statusError response) else none := by
  intro h
  have h1 : c.DoRequest ⟨"POST", bytes "families", c.getHeadersForRequest, Marshal family, none⟩
      = out := by
    simpa [Call.answers, Create_sent] using h
  unfold Create
  simp only [h1]
  cases out with
  | error err => rfl
  | ok response =>
    simp only []
    split <;> rfl

theorem Upsert_answer {H : Type} (c : Client H) (family : Family)
    (out : Except String Response) :
    (Upsert c family).answers c = [out] →
    (Upsert c family).ret =
      match out with
      | .error err => some { Message := err }
      | .ok response =>
        if response.StatusCode ≥ 300 then some (statusError response) else none := by
  intro h
  have h1 : c.DoRequest ⟨"PATCH", bytes "families/" ++ family.Code, c.getHeadersForRequest,
      Marshal family, none⟩ = out := by
    simpa [Call.answers, Upsert_sent] using h
  unfold Upsert
  simp only [h1]
  cases out with
  | error err => rfl
  | ok response =>
    simp only []
    split <;> rfl

theorem BatchUpsert_answer {H B : Type} (c : Client H) (dec : Json → Except String B)
    (families : List Family) (out : Except String Response) :
    (BatchUpsert c dec families).answers c = [out] →
    (BatchUpsert c dec families).ret =
      match out with
      | .error err => (none, some { Message := err })
      | .ok response =>
        if response.StatusCode ≥ 300 then (none, some (statusError response))
        else
          match decodeLines dec none (scanLines response.Body) with
          | .error err => (none, some { Message := err })
          | .ok apiResponse => (apiResponse, none) := by
  intro h
  have h1 : c.DoRequest ⟨"PATCH", bytes "families", c.getHeadersForBatchRequest,
      batchBody families, none⟩ = out := by
    simpa [Call.answers, BatchUpsert_sent] using h
  unfold BatchUpsert
  simp only [h1]
  cases out with
  | error err => rfl
  | ok response =>
    simp only []
    split
    · rfl
    · split <;> rfl

/-- Every call gets exactly one answer from the transport. -/
theorem answers_singleton {H α : Type} (call : Call H α) (c : Client H) (r : Request H)
    (h : call.sent = [r]) : call.answers c = [c.DoRequest r] := by
  simp [Call.answers, h]

/-! ## Query parameters, status thresholds, message-only failures, requests -/

/-- C1: the query parameters `GetAll` hands to the transport hold a key exactly
when the key is `page`, `limit` or `withCount` and the option under it is a
string; such a key carries that string as its only value; and `GetAll` returns
no error exactly when the transport answers with a status below 300 and a body
that decodes, whatever the options are. -/
theorem GetAll_query_parameters {H FR : Type} (c : Client H)
    (dec : Json → Except String FR) (opts : RequestOpts) :
    ∃ q : Values,
      (GetAll c dec opts).sent.map Request.queryParams = [some q] ∧
      (∀ k, (q.lookup k).isSome ↔
        (k = "page" ∨ k = "limit" ∨ k = "withCount") ∧ ∃ s, opts k = .string s) ∧
      (∀ k s, (k = "page" ∨ k = "limit" ∨ k = "withCount") → opts k = .string s →
        q.lookup k = some [s]) ∧
      ((GetAll c dec opts).ret.2 = none ↔
        ∃ resp v, (GetAll c dec opts).answers c = [.ok resp] ∧ resp.StatusCode < 300 ∧
          Decode dec resp.Body = .ok v) := by
  refine ⟨queryParams opts, by simp [GetAll_sent], ?_, ?_, ?_⟩
  · intro k
    rw [queryParams_lookup]
    by_cases hk : k = "page" ∨ k = "limit" ∨ k = "withCount"
    · simp only [hk, if_true, true_and]
      constructor
      · intro h
        cases ha : (opts k).assertString with
        | none => simp [ha] at h
        | some s => exact ⟨s, (assertString_eq_some _ _).mp ha⟩
      · rintro ⟨s, hs⟩
        simp [hs, Dyn.assertString]
    · simp [hk]
  · intro k s hk hs
    rw [queryParams_lookup]
    simp [hk, hs, Dyn.assertString]
  · have hans := answers_singleton (GetAll c dec opts) c _ (GetAll_sent c dec opts)
    rw [GetAll_answer c dec opts _ hans]
    constructor
    · intro h
      cases hout : c.DoRequest ⟨"GET", bytes "families", c.getHeadersForRequest, "",
          some (queryParams opts)⟩ with
      | error err => simp [hout] at h
      | ok resp =>
        rw [hout] at h
        simp only [] at h
        by_cases hs : resp.StatusCode ≥ 300
        · simp [hs] at h
        · simp only [hs, if_false] at h
          cases hd : Decode dec resp.Body with
          | error err => simp [hd] at h
          | ok v => exact ⟨resp, v, by rw [hans, hout], not_le.mp hs, hd⟩
    · rintro ⟨resp, v, h1, h2, h3⟩
      rw [hans] at h1
      have hout := (List.cons.inj h1).1
      rw [hout]
      have hs : ¬ resp.StatusCode ≥ 300 := not_le.mpr h2
      simp [hs, h3]

/-- The listing scenario: the options page 2, limit 10 and the unknown key
`bogus` give the query parameters page 2 and limit 10 and nothing else. -/
theorem GetAll_query_parameters_scenario :
    (GetAll (answering nullBody) decodeFamily scenarioOpts).sent.map Request.queryParams
        = [some [("page", ["2"]), ("limit", ["10"])]] ∧
      (queryParams scenarioOpts).lookup "page" = some ["2"] ∧
      ((queryParams scenarioOpts).lookup "bogus").isSome = false := by
  obtain ⟨q, hq, hiff, hval, _⟩ :=
    GetAll_query_parameters (answering nullBody) decodeFamily scenarioOpts
  have hq2 : q = queryParams scenarioOpts := by
    simpa [GetAll_sent] using hq.symm
  subst hq2
  refine ⟨by decide, hval "page" "2" (Or.inl rfl) rfl, ?_⟩
  cases hb : ((queryParams scenarioOpts).lookup "bogus").isSome with
  | false => rfl
  | true =>
    have := ((hiff "bogus").mp hb).1
    revert this
    decide

/-- C9: every operation hands exactly one request to the transport, whatever
the transport answers: `GetAll` a GET of `families` with the query parameters,
`Get` a GET of `families/` followed by the code, `Create` a POST of `families`,
`Upsert` a PATCH of `families/` followed by the code of the family, and
`BatchUpsert` a PATCH of `families`; the first four pass the headers of
`getHeadersForRequest`, `BatchUpsert` alone those of
`getHeadersForBatchRequest`. -/
theorem one_request_per_operation {H FR B : Type} (c : Client H)
    (decFR : Json → Except String FR) (decB : Json → Except String B) (opts : RequestOpts)
    (code : GoString) (family : Family) (families : List Family) :
    (GetAll c decFR opts).sent =
        [⟨"GET", bytes "families", c.getHeadersForRequest, "", some (queryParams opts)⟩] ∧
      (Get c code).sent =
        [⟨"GET", bytes "families/" ++ code, c.getHeadersForRequest, "", none⟩] ∧
      (Create c family).sent =
        [⟨"POST", bytes "families", c.getHeadersForRequest, Marshal family, none⟩] ∧
      (Upsert c family).sent =
        [⟨"PATCH", bytes "families/" ++ family.Code, c.getHeadersForRequest, Marshal family,
          none⟩] ∧
      (BatchUpsert c decB families).sent =
        [⟨"PATCH", bytes "families", c.getHeadersForBatchRequest, batchBody families, none⟩] :=
  ⟨GetAll_sent c decFR opts, Get_sent c code, Create_sent c family, Upsert_sent c family,
    BatchUpsert_sent c decB families⟩

/-- C10, at the failing input: a response with status 200 whose body is the
JSON literal `null` makes `Get` and `GetAll` return neither a result nor an
error, because `Decode(&family)` and `Decode(&resp)` receive the address of a
pointer and `null` sets that pointer to nil. -/
theorem null_body_gives_nil_nil {FR : Type} (dec : Json → Except String FR) (code : GoString)
    (opts : RequestOpts) :
    (Get (answering nullBody) code).ret = (none, none) ∧
      (GetAll (answering nullBody) dec opts).ret = (none, none) := by
  constructor
  · rw [Get_answer (answering nullBody) code (.ok nullBody) (by simp [Call.answers, Get_sent, answering])]
    rfl
  · rw [GetAll_answer (answering nullBody) dec opts (.ok nullBody)
      (by simp [Call.answers, GetAll_sent, answering])]
    rfl

/-! ## The scanner and the loop over the lines -/

theorem scanTokens_eq_splitLines (cs : List Char) :
    ∀ cur : List Char, (∀ l ∈ splitLines cur cs, byteLen l < maxScanTokenSize) →
      scanTokens cur cs = (splitLines cur cs).map (fun l => String.mk (dropCR l)) := by
  induction cs with
  | nil =>
    intro cur h
    unfold scanTokens splitLines
    by_cases hc : cur = []
    · simp [hc]
    · have hl : byteLen cur < maxScanTokenSize := h cur (by simp [splitLines, hc])
      simp [hc, hl]
  | cons c rest ih =>
    intro cur h
    unfold scanTokens splitLines
    by_cases hc : c = '\n'
    · have hl : byteLen cur < maxScanTokenSize := h cur (by simp [splitLines, hc])
      have hrest : ∀ l ∈ splitLines [] rest, byteLen l < maxScanTokenSize := by
        intro l hl2
        exact h l (by simp [splitLines, hc, hl2])
      simp [hc, hl, ih [] hrest]
    · have hrest : ∀ l ∈ splitLines (cur ++ [c]) rest, byteLen l < maxScanTokenSize := by
        intro l hl2
        exact h l (by simpa [splitLines, hc] using hl2)
      simp [hc, ih (cur ++ [c]) hrest]

theorem byteLen_append (a b : List Char) : byteLen (a ++ b) = byteLen a + byteLen b := by
  induction a with
  | nil => simp [byteLen]
  | cons c cs ih => simp [byteLen, ih, Nat.add_assoc]

theorem byteLen_replicate_space (n : Nat) : byteLen (List.replicate n ' ') = n := by
  induction n with
  | zero => rfl
  | succ n ih =>
    rw [List.replicate_succ, byteLen, ih]
    have : (' ' : Char).utf8Size = 1 := by decide
    omega

/-- A line that does not fit the buffer ends the scan: no token, no error. -/
theorem scanTokens_too_long (cs : List Char) :
    ∀ cur : List Char, '\n' ∉ cs → maxScanTokenSize ≤ byteLen (cur ++ cs) →
      scanTokens cur cs = [] := by
  induction cs with
  | nil =>
    intro cur _ h
    unfold scanTokens
    rw [List.append_nil] at h
    have h2 : ¬ byteLen cur < maxScanTokenSize := Nat.not_lt.mpr h
    by_cases hc : cur = []
    · simp [hc]
    · simp [hc, h2]
  | cons c rest ih =>
    intro cur hn h
    unfold scanTokens
    have hc : c ≠ '\n' := fun hh => hn (by simp [hh])
    have hr : '\n' ∉ rest := fun hh => hn (List.mem_cons_of_mem _ hh)
    rw [if_neg hc]
    apply ih (cur ++ [c]) hr
    simpa using h

/-- The loop over the lines succeeds only with the decodings of all lines,
appended in order. -/
theorem decodeLines_ok {B : Type} (dec : Json → Except String B) (lines : List String) :
    ∀ (acc r : Option (List (Option B))), decodeLines dec acc lines = .ok r →
      ∃ vs, List.Forall₂ (fun line v => Decode dec line = .ok v) lines vs ∧
        r = vs.foldl goAppend acc := by
  induction lines with
  | nil =>
    intro acc r h
    simp only [decodeLines, Except.ok.injEq] at h
    exact ⟨[], List.Forall₂.nil, by simp [h]⟩
  | cons line rest ih =>
    intro acc r h
    unfold decodeLines at h
    cases hd : Decode dec line with
    | error err => simp [hd] at h
    | ok v =>
      simp only [hd] at h
      obtain ⟨vs, hvs, hr⟩ := ih _ _ h
      exact ⟨v :: vs, List.Forall₂.cons hd hvs, by simp [hr]⟩

/-- When every line decodes, the loop returns the decodings. -/
theorem decodeLines_all {B : Type} (dec : Json → Except String B) (lines : List String) :
    ∀ (acc : Option (List (Option B))) (vs : List (Option B)),
      List.Forall₂ (fun line v => Decode dec line = .ok v) lines vs →
      decodeLines dec acc lines = .ok (vs.foldl goAppend acc) := by
  induction lines with
  | nil =>
    intro acc vs h
    cases h
    simp [decodeLines]
  | cons line rest ih =>
    intro acc vs h
    cases h with
    | cons h1 h2 =>
      unfold decodeLines
      simp only [h1]
      rw [ih _ _ h2]
      simp

/-- Appending to a slice, nil or not, appends to its elements. -/
theorem foldl_goAppend {α : Type} (vs : List α) :
    ∀ acc : Option (List α), (vs.foldl goAppend acc).getD [] = acc.getD [] ++ vs ∧
      sliceLen (vs.foldl goAppend acc) = sliceLen acc + vs.length := by
  induction vs with
  | nil => intro acc; simp
  | cons v vs ih =>
    intro acc
    obtain ⟨h1, h2⟩ := ih (goAppend acc v)
    simp only [List.foldl_cons, h1, h2]
    cases acc <;> simp [goAppend, sliceLen] <;> omega

/-- When a line fails to decode, the loop returns an error: that of the first
such line. -/
theorem decodeLines_error {B : Type} (dec : Json → Except String B) (lines : List String) :
    ∀ (acc : Option (List (Option B))),
      (∃ line ∈ lines, ∃ err, Decode dec line = .error err) →
      ∃ msg, decodeLines dec acc lines = .error msg := by
  induction lines with
  | nil =>
    intro acc h
    obtain ⟨line, hl, _⟩ := h
    simp at hl
  | cons line rest ih =>
    intro acc h
    unfold decodeLines
    cases hd : Decode dec line with
    | error err => exact ⟨err, rfl⟩
    | ok v =>
      simp only []
      apply ih
      obtain ⟨l2, hl2, err, herr⟩ := h
      rcases List.mem_cons.mp hl2 with hl2 | hl2
      · subst hl2
        rw [hd] at herr
        cases herr
      · exact ⟨l2, hl2, err, herr⟩

theorem forall₂_length_eq {α β : Type} {R : α → β → Prop} {l : List α} {m : List β}
    (h : List.Forall₂ R l m) : l.length = m.length := by
  induction h with
  | nil => rfl
  | cons _ _ ih => simp [ih]

/-- A text without a newline is one line. -/
theorem splitLines_no_newline (cs : List Char) :
    ∀ cur : List Char, '\n' ∉ cs → cur ++ cs ≠ [] → splitLines cur cs = [cur ++ cs] := by
  induction cs with
  | nil =>
    intro cur _ h
    rw [List.append_nil] at h
    simp [splitLines, h]
  | cons c rest ih =>
    intro cur hn _
    have hc : c ≠ '\n' := fun hh => hn (by simp [hh])
    have hr : '\n' ∉ rest := fun hh => hn (List.mem_cons_of_mem _ hh)
    unfold splitLines
    rw [if_neg hc, ih (cur ++ [c]) hr (by simp)]
    simp

/-- The decoder reads the empty object and leaves what follows it unread. -/
theorem readValue_empty_object (rest : List Char) :
    readValue (String.mk ('\x7b' :: '\x7d' :: rest)) = .ok (.obj []) := by
  have h : isDigit '\x7b' = false := by decide
  simp [readValue, skipSpace, isSpace, parseValue, maxNestingDepth, h]

theorem longLine_no_newline : '\n' ∉ '\x7b' :: '\x7d' :: List.replicate 65534 ' ' := by
  intro h
  rcases List.mem_cons.mp h with h | h
  · exact absurd h (by decide)
  · rcases List.mem_cons.mp h with h | h
    · exact absurd h (by decide)
    · exact absurd (List.eq_of_mem_replicate h) (by decide)

theorem longLine_byteLen :
    byteLen ('\x7b' :: '\x7d' :: List.replicate 65534 ' ') = 65536 := by
  rw [byteLen, byteLen, byteLen_replicate_space]
  have h1 : ('\x7b' : Char).utf8Size = 1 := by decide
  have h2 : ('\x7d' : Char).utf8Size = 1 := by decide
  rw [h1, h2]

theorem longLine_scan : scanLines longLine = [] := by
  apply scanTokens_too_long _ [] longLine_no_newline
  rw [List.nil_append, longLine_byteLen]
  decide

theorem longLine_raw : rawLines longLine = [longLine.data] :=
  splitLines_no_newline _ [] longLine_no_newline (List.cons_ne_nil _ _)

/-- Decoding a body is decoding the first document read from it. -/
theorem Decode_eq {α : Type} (dec : Json → Except String α) (body : String) (doc : Json)
    (h : readValue body = .ok doc) : Decode dec body = decodePtr dec doc := by
  unfold Decode
  rw [h]

theorem longLine_decodes : Decode decodeObject longLine = .ok (some []) :=
  (Decode_eq _ _ _ (readValue_empty_object _)).trans rfl

/-- A first line that does not fit the buffer ends the scan, whatever follows
it. -/
theorem scanTokens_first_too_long (l : List Char) :
    ∀ (cur rest : List Char), '\n' ∉ l → maxScanTokenSize ≤ byteLen (cur ++ l) →
      scanTokens cur (l ++ '\n' :: rest) = [] := by
  induction l with
  | nil =>
    intro cur rest _ h
    rw [List.append_nil] at h
    have h2 : ¬ byteLen cur < maxScanTokenSize := Nat.not_lt.mpr h
    simp [scanTokens, h2]
  | cons c l ih =>
    intro cur rest hn h
    have hc : c ≠ '\n' := fun hh => hn (by simp [hh])
    have hl : '\n' ∉ l := fun hh => hn (List.mem_cons_of_mem _ hh)
    rw [List.cons_append, scanTokens, if_neg hc]
    apply ih (cur ++ [c]) rest hl
    simpa using h

theorem longLine_then_scan (rest : String) : scanLines (longLine ++ "\n" ++ rest) = [] := by
  have h : (longLine ++ "\n" ++ rest).data
      = ('\x7b' :: '\x7d' :: List.replicate 65534 ' ') ++ '\n' :: rest.data := by
    rw [String.data_append, String.data_append]
    show ('\x7b' :: '\x7d' :: List.replicate 65534 ' ') ++ ['\n'] ++ rest.data = _
    rw [List.append_assoc]
    rfl
  unfold scanLines
  rw [h]
  apply scanTokens_first_too_long _ [] _ longLine_no_newline
  rw [List.nil_append, longLine_byteLen]
  decide

/-! ## Failures without a status, and the lines of a batch response -/

/-- Every error of `GetAll` comes without a result and is either message-only
or the error of a status of 300 or more. -/
theorem GetAll_error_shape {H FR : Type} (c : Client H) (dec : Json → Except String FR)
    (opts : RequestOpts) (e : ApiError) (h : (GetAll c dec opts).ret.2 = some e) :
    (GetAll c dec opts).ret.1 = none ∧
      ((e.Code = 0 ∧ e.Status = "") ∨
        ∃ resp, (GetAll c dec opts).answers c = [.ok resp] ∧ 300 ≤ resp.StatusCode ∧
          e = ⟨resp.StatusCode, resp.Status, resp.Body⟩) := by
  have hans := answers_singleton (GetAll c dec opts) c _ (GetAll_sent c dec opts)
  rw [GetAll_answer c dec opts _ hans] at h ⊢
  rw [hans]
  cases hout : c.DoRequest ⟨"GET", bytes "families", c.getHeadersForRequest, "",
      some (queryParams opts)⟩ with
  | error err =>
    rw [hout] at h
    simp only [Option.some.injEq] at h
    subst h
    exact ⟨rfl, Or.inl ⟨rfl, rfl⟩⟩
  | ok resp =>
    rw [hout] at h
    simp only [] at h ⊢
    by_cases hs : resp.StatusCode ≥ 300
    · simp only [hs, if_true, Option.some.injEq] at h ⊢
      subst h
      exact ⟨trivial, Or.inr ⟨resp, rfl, hs, rfl⟩⟩
    · simp only [hs, if_false] at h ⊢
      cases hd : Decode dec resp.Body with
      | error err =>
        rw [hd] at h
        simp only [Option.some.injEq] at h
        subst h
        exact ⟨rfl, Or.inl ⟨rfl, rfl⟩⟩
      | ok v =>
        rw [hd] at h
        simp at h

/-- Every error of `Get` comes without a result and is either message-only or
the error of a status of 300 or more. -/
theorem Get_error_shape {H : Type} (c : Client H) (code : GoString) (e : ApiError)
    (h : (Get c code).ret.2 = some e) :
    (Get c code).ret.1 = none ∧
      ((e.Code = 0 ∧ e.Status = "") ∨
        ∃ resp, (Get c code).answers c = [.ok resp] ∧ 300 ≤ resp.StatusCode ∧
          e = ⟨resp.StatusCode, resp.Status, resp.Body⟩) := by
  have hans := answers_singleton (Get c code) c _ (Get_sent c code)
  rw [Get_answer c code _ hans] at h ⊢
  rw [hans]
  cases hout : c.DoRequest ⟨"GET", bytes "families/" ++ code, c.getHeadersForRequest, "", none⟩ with
  | error err =>
    rw [hout] at h
    simp only [Option.some.injEq] at h
    subst h
    exact ⟨rfl, Or.inl ⟨rfl, rfl⟩⟩
  | ok resp =>
    rw [hout] at h
    simp only [] at h ⊢
    by_cases hs : resp.StatusCode ≥ 300
    · simp only [hs, if_true, Option.some.injEq] at h ⊢
      subst h
      exact ⟨trivial, Or.inr ⟨resp, rfl, hs, rfl⟩⟩
    · simp only [hs, if_false] at h ⊢
      cases hd : Decode decodeFamily resp.Body with
      | error err =>
        rw [hd] at h
        simp only [Option.some.injEq] at h
        subst h
        exact ⟨rfl, Or.inl ⟨rfl, rfl⟩⟩
      | ok v =>
        rw [hd] at h
        simp at h

/-- Every error of `BatchUpsert` comes without a result and is either
message-only or the error of a status of 300 or more. -/
theorem BatchUpsert_error_shape {H B : Type} (c : Client H) (dec : Json → Except String B)
    (families : List Family) (e : ApiError)
    (h : (BatchUpsert c dec families).ret.2 = some e) :
    (BatchUpsert c dec families).ret.1 = none ∧
      ((e.Code = 0 ∧ e.Status = "") ∨
        ∃ resp, (BatchUpsert c dec families).answers c = [.ok resp] ∧
          300 ≤ resp.StatusCode ∧ e = ⟨resp.StatusCode, resp.Status, resp.Body⟩) := by
  have hans := answers_singleton (BatchUpsert c dec families) c _
    (BatchUpsert_sent c dec families)
  rw [BatchUpsert_answer c dec families _ hans] at h ⊢
  rw [hans]
  cases hout : c.DoRequest ⟨"PATCH", bytes "families", c.getHeadersForBatchRequest,
      batchBody families, none⟩ with
  | error err =>
    rw [hout] at h
    simp only [Option.some.injEq] at h
    subst h
    exact ⟨rfl, Or.inl ⟨rfl, rfl⟩⟩
  | ok resp =>
    rw [hout] at h
    simp only [] at h ⊢
    by_cases hs : resp.StatusCode ≥ 300
    · simp only [hs, if_true, Option.some.injEq] at h ⊢
      subst h
      exact ⟨trivial, Or.inr ⟨resp, rfl, hs, rfl⟩⟩
    · simp only [hs, if_false] at h ⊢
      cases hd : decodeLines dec none (scanLines resp.Body) with
      | error err =>
        rw [hd] at h
        simp only [Option.some.injEq] at h
        subst h
        exact ⟨rfl, Or.inl ⟨rfl, rfl⟩⟩
      | ok v =>
        rw [hd] at h
        simp at h

/-- Every error of `Create` is either message-only or the error of a status of
400 or more; every error of `Upsert` is either message-only or the error of a
status of 300 or more. -/
theorem Create_Upsert_error_shape {H : Type} (c : Client H) (family : Family) (e : ApiError) :
    ((Create c family).ret = some e →
        (e.Code = 0 ∧ e.Status = "") ∨
          ∃ resp, (Create c family).answers c = [.ok resp] ∧ 400 ≤ resp.StatusCode ∧
            e = ⟨resp.StatusCode, resp.Status, resp.Body⟩) ∧
      ((Upsert c family).ret = some e →
        (e.Code = 0 ∧ e.Status = "") ∨
          ∃ resp, (Upsert c family).answers c = [.ok resp] ∧ 300 ≤ resp.StatusCode ∧
            e = ⟨resp.StatusCode, resp.Status, resp.Body⟩) := by
  constructor
  · intro h
    have hans := answers_singleton (Create c family) c _ (Create_sent c family)
    rw [Create_answer c family _ hans] at h
    rw [hans]
    cases hout : c.DoRequest ⟨"POST", bytes "families", c.getHeadersForRequest, Marshal family,
        none⟩ with
    | error err =>
      rw [hout] at h
      simp only [Option.some.injEq] at h
      subst h
      exact Or.inl ⟨rfl, rfl⟩
    | ok resp =>
      rw [hout] at h
      simp only [] at h
      by_cases hs : resp.StatusCode ≥ 400
      · simp only [hs, if_true, Option.some.injEq] at h
        subst h
        exact Or.inr ⟨resp, rfl, hs, rfl⟩
      · simp [hs] at h
  · intro h
    have hans := answers_singleton (Upsert c family) c _ (Upsert_sent c family)
    rw [Upsert_answer c family _ hans] at h
    rw [hans]
    cases hout : c.DoRequest ⟨"PATCH", bytes "families/" ++ family.Code, c.getHeadersForRequest,
        Marshal family, none⟩ with
    | error err =>
      rw [hout] at h
      simp only [Option.some.injEq] at h
      subst h
      exact Or.inl ⟨rfl, rfl⟩
    | ok resp =>
      rw [hout] at h
      simp only [] at h
      by_cases hs : resp.StatusCode ≥ 300
      · simp only [hs, if_true, Option.some.injEq] at h
        subst h
        exact Or.inr ⟨resp, rfl, hs, rfl⟩
      · simp [hs] at h

/-- The part of C8 the code keeps: a failure that is not a status failure and
that the code sees gives a message-only `ApiError`.  When the transport fails with the text `err`, each of the five
operations returns no result and an `ApiError` with `Code` 0, empty `Status`
and `Message` equal to `err`.  When the transport answers with a status below
300 and the body fails to decode with the text `err` (for `BatchUpsert`: the
loop over the scanned lines fails with `err`, as it does when one of these
lines fails to decode), `GetAll`, `Get` and `BatchUpsert` return no result and
an `ApiError` with `Code` 0, empty `Status` and `Message` equal to `err`.  And
every `ApiError` an operation returns is either of this message-only kind or
the error of a failing status. -/
theorem message_only_failure {H FR B : Type} (c : Client H)
    (decFR : Json → Except String FR) (decB : Json → Except String B) (opts : RequestOpts)
    (code : GoString) (family : Family) (families : List Family) (err : String) :
    (((GetAll c decFR opts).answers c = [.error err] →
          (GetAll c decFR opts).ret = (none, some ⟨0, "", err⟩)) ∧
        ((Get c code).answers c = [.error err] →
          (Get c code).ret = (none, some ⟨0, "", err⟩)) ∧
        ((Create c family).answers c = [.error err] →
          (Create c family).ret = some ⟨0, "", err⟩) ∧
        ((Upsert c family).answers c = [.error err] →
          (Upsert c family).ret = some ⟨0, "", err⟩) ∧
        ((BatchUpsert c decB families).answers c = [.error err] →
          (BatchUpsert c decB families).ret = (none, some ⟨0, "", err⟩))) ∧
      (∀ resp : Response, resp.StatusCode < 300 →
        ((GetAll c decFR opts).answers c = [.ok resp] → Decode decFR resp.Body = .error err →
          (GetAll c decFR opts).ret = (none, some ⟨0, "", err⟩)) ∧
        ((Get c code).answers c = [.ok resp] → Decode decodeFamily resp.Body = .error err →
          (Get c code).ret = (none, some ⟨0, "", err⟩)) ∧
        ((BatchUpsert c decB families).answers c = [.ok resp] →
          decodeLines decB none (scanLines resp.Body) = .error err →
          (BatchUpsert c decB families).ret = (none, some ⟨0, "", err⟩)) ∧
        ((BatchUpsert c decB families).answers c = [.ok resp] →
          (∃ line ∈ scanLines resp.Body, ∃ e, Decode decB line = .error e) →
          ∃ msg, (BatchUpsert c decB families).ret = (none, some ⟨0, "", msg⟩))) ∧
      ∀ e : ApiError,
        ((GetAll c decFR opts).ret.2 = some e → (GetAll c decFR opts).ret.1 = none ∧
          ((e.Code = 0 ∧ e.Status = "") ∨
            ∃ resp, (GetAll c decFR opts).answers c = [.ok resp] ∧ 300 ≤ resp.StatusCode ∧
              e = ⟨resp.StatusCode, resp.Status, resp.Body⟩)) ∧
        ((Get c code).ret.2 = some e → (Get c code).ret.1 = none ∧
          ((e.Code = 0 ∧ e.Status = "") ∨
            ∃ resp, (Get c code).answers c = [.ok resp] ∧ 300 ≤ resp.StatusCode ∧
              e = ⟨resp.StatusCode, resp.Status, resp.Body⟩)) ∧
        ((Create c family).ret = some e →
          (e.Code = 0 ∧ e.Status = "") ∨
            ∃ resp, (Create c family).answers c = [.ok resp] ∧ 400 ≤ resp.StatusCode ∧
              e = ⟨resp.StatusCode, resp.Status, resp.Body⟩) ∧
        ((Upsert c family).ret = some e →
          (e.Code = 0 ∧ e.Status = "") ∨
            ∃ resp, (Upsert c family).answers c = [.ok resp] ∧ 300 ≤ resp.StatusCode ∧
              e = ⟨resp.StatusCode, resp.Status, resp.Body⟩) ∧
        ((BatchUpsert c decB families).ret.2 = some e →
          (BatchUpsert c decB families).ret.1 = none ∧
          ((e.Code = 0 ∧ e.Status = "") ∨
            ∃ resp, (BatchUpsert c decB families).answers c = [.ok resp] ∧
              300 ≤ resp.StatusCode ∧ e = ⟨resp.StatusCode, resp.Status, resp.Body⟩)) := by
  refine ⟨⟨?_, ?_, ?_, ?_, ?_⟩, ?_, ?_⟩
  · intro h; rw [GetAll_answer c decFR opts _ h]
  · intro h; rw [Get_answer c code _ h]
  · intro h; rw [Create_answer c family _ h]
  · intro h; rw [Upsert_answer c family _ h]
  · intro h; rw [BatchUpsert_answer c decB families _ h]
  · intro resp hstatus
    have hs : ¬ resp.StatusCode ≥ 300 := not_le.mpr hstatus
    refine ⟨?_, ?_, ?_, ?_⟩
    · intro h hd
      rw [GetAll_answer c decFR opts _ h]
      simp [hs, hd]
    · intro h hd
      rw [Get_answer c code _ h]
      simp [hs, hd]
    · intro h hd
      rw [BatchUpsert_answer c decB families _ h]
      simp [hs, hd]
    · intro h hd
      obtain ⟨msg, hmsg⟩ := decodeLines_error decB (scanLines resp.Body) none hd
      refine ⟨msg, ?_⟩
      rw [BatchUpsert_answer c decB families _ h]
      simp [hs, hmsg]
  · intro e
    exact ⟨GetAll_error_shape c decFR opts e, Get_error_shape c code e,
      (Create_Upsert_error_shape c family e).1, (Create_Upsert_error_shape c family e).2,
      BatchUpsert_error_shape c decB families e⟩

/-- Two such failures: a refused connection under `Get`, and a batch response
whose second line is cut short. -/
theorem message_only_failure_scenario :
    (Get (failing "connection refused") (bytes "shoes")).ret
        = (none, some ⟨0, "", "connection refused"⟩) ∧
      ∃ msg, (BatchUpsert (answering brokenSecondLine) decodeObject [shoes]).ret
        = (none, some ⟨0, "", msg⟩) :=
  ⟨(message_only_failure (failing "connection refused") decodeFamily decodeObject
      scenarioOpts (bytes "shoes") shoes [] "connection refused").1.2.1 rfl,
    ((message_only_failure (answering brokenSecondLine) decodeFamily decodeObject
      scenarioOpts (bytes "shoes") shoes [shoes] "").2.1 brokenSecondLine (by decide)).2.2.2 rfl
      ⟨"\x7b\"line\":", by decide, "unexpected EOF", rfl⟩⟩

/-- C5 as stated fails: a batch of two entities answered with a single line
gives one result line and no error. -/
theorem result_count_is_not_batch_size :
    (BatchUpsert (answering oneLine) decodeObject [shoes, shoes]).ret.2 = none ∧
      sliceLen (BatchUpsert (answering oneLine) decodeObject [shoes, shoes]).ret.1 = 1 ∧
      [shoes, shoes].length = 2 := by
  decide

/-- C5, amended: when `BatchUpsert` returns no error on a response whose lines
are each shorter than the scanner's token limit, the result has exactly one
element per line of the response body, in the order of the body, the element
at each position being the decoding of the line at that position.  Its length
is the number of lines of the response: it is the number of submitted
entities exactly when the server answers with that many lines. -/
theorem result_lines_follow_response {H B : Type} (c : Client H)
    (dec : Json → Except String B) (families : List Family) (resp : Response)
    (hans : (BatchUpsert c dec families).answers c = [.ok resp])
    (hok : (BatchUpsert c dec families).ret.2 = none)
    (hshort : ∀ l ∈ rawLines resp.Body, byteLen l < maxScanTokenSize) :
    sliceLen (BatchUpsert c dec families).ret.1 = (rawLines resp.Body).length ∧
      List.Forall₂ (fun l v => Decode dec (String.mk (dropCR l)) = .ok v)
        (rawLines resp.Body) ((BatchUpsert c dec families).ret.1.getD []) ∧
      (sliceLen (BatchUpsert c dec families).ret.1 = families.length ↔
        (rawLines resp.Body).length = families.length) := by
  have key : sliceLen (BatchUpsert c dec families).ret.1 = (rawLines resp.Body).length ∧
      List.Forall₂ (fun l v => Decode dec (String.mk (dropCR l)) = .ok v)
        (rawLines resp.Body) ((BatchUpsert c dec families).ret.1.getD []) := by
    rw [BatchUpsert_answer c dec families _ hans] at hok ⊢
    simp only [] at hok ⊢
    by_cases hs : resp.StatusCode ≥ 300
    · simp [hs] at hok
    · simp only [hs, if_false] at hok ⊢
      cases hd : decodeLines dec none (scanLines resp.Body) with
      | error e => simp [hd] at hok
      | ok r =>
        simp only []
        obtain ⟨vs, hvs, hr⟩ := decodeLines_ok dec _ _ _ hd
        rw [scanLines, scanTokens_eq_splitLines _ _ hshort, List.forall₂_map_left_iff] at hvs
        obtain ⟨h1, h2⟩ := foldl_goAppend vs (none : Option (List (Option B)))
        rw [hr, h1, h2]
        refine ⟨?_, ?_⟩
        · simp [sliceLen, rawLines, forall₂_length_eq hvs]
        · simpa [rawLines] using hvs
  exact ⟨key.1, key.2, by rw [key.1]⟩

/-- The amended C5 on the batch of two entities answered with one line. -/
theorem result_lines_follow_response_scenario :
    sliceLen (BatchUpsert (answering oneLine) decodeObject [shoes, shoes]).ret.1
        = (rawLines oneLine.Body).length ∧
      List.Forall₂ (fun l v => Decode decodeObject (String.mk (dropCR l)) = .ok v)
        (rawLines oneLine.Body)
        ((BatchUpsert (answering oneLine) decodeObject [shoes, shoes]).ret.1.getD []) ∧
      (sliceLen (BatchUpsert (answering oneLine) decodeObject [shoes, shoes]).ret.1
          = [shoes, shoes].length ↔
        (rawLines oneLine.Body).length = [shoes, shoes].length) :=
  result_lines_follow_response (answering oneLine) decodeObject [shoes, shoes] oneLine rfl
    (by decide) (by decide)

/-- C4, at the failing input: a response with status 200 whose body is one
line of 65536 bytes.  The line is a well-formed JSON document and decodes by
itself, but it does not fit the scanner's buffer: `Scan` returns false, the
error of the scanner is never read, and `BatchUpsert` returns no result line
and no error.  The same happens when further lines follow the long one,
malformed lines included: none of them is reached. -/
theorem long_line_is_dropped_silently {B : Type} (dec : Json → Except String B)
    (families : List Family) :
    rawLines longLine = [longLine.data] ∧
      readValue longLine = .ok (.obj []) ∧
      Decode decodeObject longLine = .ok (some []) ∧
      (BatchUpsert (answering longLineResponse) dec families).ret = (none, none) ∧
      ∀ rest : String,
        (BatchUpsert (answering (okBody (longLine ++ "\n" ++ rest))) dec families).ret
          = (none, none) := by
  refine ⟨longLine_raw, readValue_empty_object _, longLine_decodes, ?_, ?_⟩
  · rw [BatchUpsert_answer (answering longLineResponse) dec families (.ok longLineResponse)
      (by simp [Call.answers, BatchUpsert_sent, answering])]
    have hs : ¬ longLineResponse.StatusCode ≥ 300 := by decide
    simp only [hs, if_false]
    have : scanLines longLineResponse.Body = [] := longLine_scan
    rw [this]
    rfl
  · intro rest
    rw [BatchUpsert_answer (answering (okBody (longLine ++ "\n" ++ rest))) dec families
      (.ok (okBody (longLine ++ "\n" ++ rest)))
      (by simp [Call.answers, BatchUpsert_sent, answering])]
    have hs : ¬ (okBody (longLine ++ "\n" ++ rest)).StatusCode ≥ 300 := by
      show ¬ (200 : Int) ≥ 300
      decide
    simp only [hs, if_false]
    have : scanLines (okBody (longLine ++ "\n" ++ rest)).Body = [] := longLine_then_scan rest
    rw [this]
    rfl

/-- On a response with a status below 300 whose lines are each shorter than
the scanner's token limit, the loop is all or nothing: when every line decodes,
`BatchUpsert` returns the decodings in order and no error; when some line
fails to decode, it returns an `ApiError` and no result line, not even those
decoded before. -/
theorem lines_all_or_nothing {H B : Type} (c : Client H) (dec : Json → Except String B)
    (families : List Family) (resp : Response)
    (hans : (BatchUpsert c dec families).answers c = [.ok resp])
    (hstatus : resp.StatusCode < 300)
    (hshort : ∀ l ∈ rawLines resp.Body, byteLen l < maxScanTokenSize) :
    (∀ vs, List.Forall₂ (fun l v => Decode dec (String.mk (dropCR l)) = .ok v)
          (rawLines resp.Body) vs →
        (BatchUpsert c dec families).ret = (vs.foldl goAppend none, none)) ∧
      ((∃ l ∈ rawLines resp.Body, ∃ e, Decode dec (String.mk (dropCR l)) = .error e) →
        ∃ msg, (BatchUpsert c dec families).ret = (none, some ⟨0, "", msg⟩)) := by
  have hs : ¬ resp.StatusCode ≥ 300 := not_le.mpr hstatus
  have hlines : scanLines resp.Body
      = (rawLines resp.Body).map (fun l => String.mk (dropCR l)) :=
    scanTokens_eq_splitLines _ _ hshort
  rw [BatchUpsert_answer c dec families _ hans]
  simp only [hs, if_false]
  constructor
  · intro vs hvs
    have h2 : List.Forall₂ (fun line v => Decode dec line = .ok v) (scanLines resp.Body) vs := by
      rw [hlines, List.forall₂_map_left_iff]
      exact hvs
    rw [decodeLines_all dec _ none vs h2]
  · rintro ⟨l, hl, e, he⟩
    obtain ⟨msg, hmsg⟩ := decodeLines_error dec (scanLines resp.Body) none
      ⟨String.mk (dropCR l), by rw [hlines]; exact List.mem_map_of_mem _ hl, e, he⟩
    exact ⟨msg, by rw [hmsg]⟩

/-- The batch scenario: a response of two lines, one a success and one with an
embedded error, gives two result lines and no error. -/
theorem two_lines_two_results :
    (BatchUpsert (answering twoLines) decodeObject [shoes, shoes]).ret.2 = none ∧
      sliceLen (BatchUpsert (answering twoLines) decodeObject [shoes, shoes]).ret.1 = 2 := by
  decide

/-! ## Valid UTF-8 survives the encoder and the decoder -/

theorem toNat_ofNat (n : Nat) (h : n < 0xd800 ∨ (0xdfff < n ∧ n < 0x110000)) :
    (Char.ofNat n).toNat = n := by
  have hv : n.isValidChar := h
  unfold Char.ofNat
  rw [dif_pos hv]
  rfl

theorem first_some (s0 : Nat) (x : Lead) (h : first s0 = some x) :
    (x = ⟨2, 0x80, 0xBF⟩ ∧ 0xC2 ≤ s0 ∧ s0 ≤ 0xDF) ∨
      (x = ⟨3, 0xA0, 0xBF⟩ ∧ s0 = 0xE0) ∨
      (x = ⟨3, 0x80, 0x9F⟩ ∧ s0 = 0xED) ∨
      (x = ⟨3, 0x80, 0xBF⟩ ∧ 0xE1 ≤ s0 ∧ s0 ≤ 0xEF ∧ s0 ≠ 0xED) ∨
      (x = ⟨4, 0x90, 0xBF⟩ ∧ s0 = 0xF0) ∨
      (x = ⟨4, 0x80, 0xBF⟩ ∧ 0xF1 ≤ s0 ∧ s0 ≤ 0xF3) ∨
      (x = ⟨4, 0x80, 0x8F⟩ ∧ s0 = 0xF4) := by
  unfold first at h
  split_ifs at h with h1 h2 h3 h4 h5 h6 h7 <;> cases h
  · exact Or.inl ⟨rfl, h1⟩
  · exact Or.inr (Or.inl ⟨rfl, h2⟩)
  · exact Or.inr (Or.inr (Or.inl ⟨rfl, h3⟩))
  · exact Or.inr (Or.inr (Or.inr (Or.inl ⟨rfl, h4.1, h4.2, h3⟩)))
  · exact Or.inr (Or.inr (Or.inr (Or.inr (Or.inl ⟨rfl, h5⟩))))
  · exact Or.inr (Or.inr (Or.inr (Or.inr (Or.inr (Or.inl ⟨rfl, h6⟩)))))
  · exact Or.inr (Or.inr (Or.inr (Or.inr (Or.inr (Or.inr ⟨rfl, h7⟩)))))

/-- One byte below `80` is its own encoding. -/
theorem encodeRune_ascii (s0 : Nat) (h : s0 < 0x80) : encodeRune (Char.ofNat s0) = [s0] := by
  have e := toNat_ofNat s0 (by omega)
  unfold encodeRune
  rw [e, if_pos h]

/-- A rune read from two bytes is written as these two bytes. -/
theorem encodeRune_two (s0 s1 : Nat) (h0 : 0xC2 ≤ s0 ∧ s0 ≤ 0xDF) (h1 : 0x80 ≤ s1 ∧ s1 ≤ 0xBF) :
    encodeRune (Char.ofNat (s0 % 32 * 64 + s1 % 64)) = [s0, s1] := by
  have e := toNat_ofNat (s0 % 32 * 64 + s1 % 64) (by omega)
  unfold encodeRune
  rw [e, if_neg (by omega), if_pos (by omega)]
  congr 1
  · omega
  · congr 1
    omega

/-- A rune read from three bytes is written as these three bytes. -/
theorem encodeRune_three (s0 s1 s2 : Nat) (lo hi : Nat)
    (h0 : (lo = 0xA0 ∧ hi = 0xBF ∧ s0 = 0xE0) ∨ (lo = 0x80 ∧ hi = 0x9F ∧ s0 = 0xED) ∨
      (lo = 0x80 ∧ hi = 0xBF ∧ 0xE1 ≤ s0 ∧ s0 ≤ 0xEF ∧ s0 ≠ 0xED))
    (h1 : lo ≤ s1 ∧ s1 ≤ hi) (h2 : 0x80 ≤ s2 ∧ s2 ≤ 0xBF) :
    encodeRune (Char.ofNat (s0 % 16 * 4096 + s1 % 64 * 64 + s2 % 64)) = [s0, s1, s2] := by
  have e := toNat_ofNat (s0 % 16 * 4096 + s1 % 64 * 64 + s2 % 64) (by omega)
  unfold encodeRune
  rw [e, if_neg (by omega), if_neg (by omega), if_pos (by omega)]
  congr 1
  · omega
  · congr 1
    · omega
    · congr 1
      omega

/-- A rune read from four bytes is written as these four bytes. -/
theorem encodeRune_four (s0 s1 s2 s3 : Nat) (lo hi : Nat)
    (h0 : (lo = 0x90 ∧ hi = 0xBF ∧ s0 = 0xF0) ∨ (lo = 0x80 ∧ hi = 0xBF ∧ 0xF1 ≤ s0 ∧ s0 ≤ 0xF3) ∨
      (lo = 0x80 ∧ hi = 0x8F ∧ s0 = 0xF4))
    (h1 : lo ≤ s1 ∧ s1 ≤ hi) (h2 : 0x80 ≤ s2 ∧ s2 ≤ 0xBF) (h3 : 0x80 ≤ s3 ∧ s3 ≤ 0xBF) :
    encodeRune (Char.ofNat (s0 % 8 * 262144 + s1 % 64 * 4096 + s2 % 64 * 64 + s3 % 64))
      = [s0, s1, s2, s3] := by
  have e := toNat_ofNat (s0 % 8 * 262144 + s1 % 64 * 4096 + s2 % 64 * 64 + s3 % 64) (by omega)
  unfold encodeRune
  rw [e, if_neg (by omega), if_neg (by omega), if_neg (by omega)]
  congr 1
  · omega
  · congr 1
    · omega
    · congr 1
      · omega
      · congr 1
        omega

/-- A rune found at the start of a Go string is found from its encoding: the
string starts with the bytes `utf8.AppendRune` writes for the rune, and the
width is their number. -/
theorem decodeRune_some (s : GoString) (c : Char) (size : Nat)
    (h : decodeRune s = some (c, size)) :
    ∃ b pre tail, s = (b :: pre) ++ tail ∧ encodeRune c = b :: pre ∧ size = pre.length + 1 := by
  cases s with
  | nil => simp [decodeRune] at h
  | cons s0 rest =>
    unfold decodeRune at h
    by_cases ha : s0 < 0x80
    · simp only [ha, if_true, Option.some.injEq, Prod.mk.injEq] at h
      obtain ⟨rfl, rfl⟩ := h
      exact ⟨s0, [], rest, rfl, encodeRune_ascii s0 ha, rfl⟩
    · simp only [ha, if_false] at h
      cases hf : first s0 with
      | none => simp [hf] at h
      | some x =>
        have hx := first_some s0 x hf
        simp only [hf] at h
        cases rest with
        | nil => simp at h
        | cons s1 rest1 =>
          simp only [] at h
          by_cases h1 : s1 < x.lo ∨ x.hi < s1
          · simp [h1] at h
          · simp only [h1, if_false] at h
            by_cases hs2 : x.size ≤ 2
            · simp only [hs2, if_true, Option.some.injEq, Prod.mk.injEq] at h
              obtain ⟨rfl, rfl⟩ := h
              refine ⟨s0, [s1], rest1, rfl, ?_, rfl⟩
              rcases hx with ⟨rfl, h⟩ | ⟨rfl, _⟩ | ⟨rfl, _⟩ | ⟨rfl, _⟩ | ⟨rfl, _⟩ | ⟨rfl, _⟩ |
                ⟨rfl, _⟩ <;> simp at hs2
              simp only [not_or, not_lt] at h1
              exact encodeRune_two s0 s1 h h1
            · simp only [hs2, if_false] at h
              cases rest1 with
              | nil => simp at h
              | cons s2 rest2 =>
                simp only [] at h
                by_cases h2 : s2 < 0x80 ∨ 0xBF < s2
                · simp [h2] at h
                · simp only [h2, if_false] at h
                  by_cases hs3 : x.size ≤ 3
                  · simp only [hs3, if_true, Option.some.injEq, Prod.mk.injEq] at h
                    obtain ⟨rfl, rfl⟩ := h
                    refine ⟨s0, [s1, s2], rest2, rfl, ?_, rfl⟩
                    simp only [not_or, not_lt] at h1 h2
                    apply encodeRune_three s0 s1 s2 x.lo x.hi _ h1 h2
                    rcases hx with ⟨rfl, h⟩ | ⟨rfl, h⟩ | ⟨rfl, h⟩ | ⟨rfl, h⟩ | ⟨rfl, _⟩ |
                      ⟨rfl, _⟩ | ⟨rfl, _⟩ <;> simp at hs2 hs3 <;> simp [h]
                  · simp only [hs3, if_false] at h
                    cases rest2 with
                    | nil => simp at h
                    | cons s3 rest3 =>
                      simp only [] at h
                      by_cases h3 : s3 < 0x80 ∨ 0xBF < s3
                      · simp [h3] at h
                      · simp only [h3, if_false, Option.some.injEq, Prod.mk.injEq] at h
                        obtain ⟨rfl, rfl⟩ := h
                        refine ⟨s0, [s1, s2, s3], rest3, rfl, ?_, rfl⟩
                        simp only [not_or, not_lt] at h1 h2 h3
                        apply encodeRune_four s0 s1 s2 s3 x.lo x.hi _ h1 h2 h3
                        rcases hx with ⟨rfl, h⟩ | ⟨rfl, h⟩ | ⟨rfl, h⟩ | ⟨rfl, h⟩ | ⟨rfl, h⟩ |
                          ⟨rfl, h⟩ | ⟨rfl, h⟩ <;> simp at hs2 hs3 <;> simp [h]

/-- The loop passes over the bytes it has been told to skip. -/
theorem runesFrom_skip (pre tail : GoString) :
    runesFrom pre.length (pre ++ tail) = runesFrom 0 tail := by
  induction pre with
  | nil => rfl
  | cons b pre ih => simpa [runesFrom] using ih

/-- One step through a Go string: either the first byte starts no valid
encoding and is passed over alone, or the string starts with the encoding of
a rune, which is passed over as a whole. -/
theorem runes_step (s0 : Nat) (rest : GoString) :
    runes (s0 :: rest) = none :: runes rest ∨
      ∃ c pre tail, s0 :: rest = pre ++ tail ∧ runes (s0 :: rest) = some c :: runes tail ∧
        encodeRune c = pre ∧ tail.length ≤ rest.length := by
  cases hd : decodeRune (s0 :: rest) with
  | none =>
    left
    simp [runes, runesFrom, hd]
  | some r =>
    obtain ⟨c, size⟩ := r
    right
    obtain ⟨b, pre, tail, hs, henc, hsize⟩ := decodeRune_some _ _ _ hd
    have hb : s0 = b ∧ rest = pre ++ tail := by simpa using hs
    refine ⟨c, b :: pre, tail, hs, ?_, henc, ?_⟩
    · simp only [runes, runesFrom, hd, hsize, Nat.add_sub_cancel]
      rw [hb.2, runesFrom_skip]
    · rw [hb.2]
      simp

/-- The runes of a valid Go string, written in UTF-8, are the string. -/
theorem flatMap_encodeRune_runes (n : Nat) :
    ∀ s : GoString, s.length ≤ n → ValidString s →
      ((runes s).map (fun r => r.getD RuneError)).flatMap encodeRune = s := by
  induction n with
  | zero =>
    intro s hs _
    have : s = [] := List.length_eq_zero.mp (Nat.le_zero.mp hs)
    subst this
    rfl
  | succ n ih =>
    intro s hs hv
    cases s with
    | nil => rfl
    | cons s0 rest =>
      rcases runes_step s0 rest with h | ⟨c, pre, tail, hsplit, hr, henc, hlen⟩
      · exact absurd rfl (hv none (by rw [h]; exact List.mem_cons_self _ _))
      · have hvt : ValidString tail := by
          intro r hr2
          exact hv r (by rw [hr]; exact List.mem_cons_of_mem _ hr2)
        have hl : tail.length ≤ n := by
          simp only [List.length_cons] at hs
          omega
        rw [hr, hsplit]
        simp only [List.map_cons, List.flatMap_cons, Option.getD_some, henc, ih tail hl hvt]

/-- A valid Go string has no byte to replace. -/
theorem replaceInvalid_of_valid (s : GoString) (h : ValidString s) : replaceInvalid s = s :=
  flatMap_encodeRune_runes s.length s (le_refl _) h

/-! ## Reading back what `json.Marshal` writes -/

theorem hexVal_hexDigit : ∀ k, k < 16 → hexVal (hexDigit k) = some k := by
  decide

theorem scanString_step (fuel : Nat) (acc : List Char) (c : Char) (rest : List Char)
    (h1 : c ≠ '"') (h2 : c ≠ '\\') (h3 : ¬ c.toNat < 0x20) :
    scanString (fuel + 1) acc (c :: rest) = scanString fuel (acc ++ [c]) rest := by
  simp [scanString, h1, h2, h3]

theorem scanString_escape (fuel : Nat) (acc : List Char) (esc : List Char) (c : Char)
    (rest : List Char) (h : unescape esc = some (c, rest)) :
    scanString (fuel + 1) acc ('\\' :: esc) = scanString fuel (acc ++ [c]) rest := by
  have h1 : ('\\' : Char) ≠ '"' := by decide
  simp [scanString, h1, h]

theorem getu4_low (n : Nat) (hn : n < 256) (rest : List Char) :
    getu4 ('0' :: '0' :: hexDigit (n / 16) :: hexDigit (n % 16) :: rest) = some (n, rest) := by
  have h0 : hexVal '0' = some 0 := by decide
  have ha : hexVal (hexDigit (n / 16)) = some (n / 16) := hexVal_hexDigit _ (by omega)
  have hb : hexVal (hexDigit (n % 16)) = some (n % 16) := hexVal_hexDigit _ (by omega)
  simp only [getu4, h0, ha, hb]
  congr 2
  omega

theorem getu4_separator (n : Nat) (hn : n < 16) (rest : List Char) :
    getu4 ('2' :: '0' :: '2' :: hexDigit n :: rest) = some (0x2020 + n, rest) := by
  have h0 : hexVal '0' = some 0 := by decide
  have h2 : hexVal '2' = some 2 := by decide
  have hb : hexVal (hexDigit n) = some n := hexVal_hexDigit _ hn
  simp only [getu4, h0, h2, hb]

theorem unescape_u (rest : List Char) :
    unescape ('u' :: rest) =
      match getu4 rest with
      | none => none
      | some (rr, rest1) =>
        if 0xd800 ≤ rr ∧ rr < 0xe000 then
          match lowSurrogate rr rest1 with
          | some r => some r
          | none => some (Char.ofNat 0xfffd, rest1)
        else some (Char.ofNat rr, rest1) := by
  simp [unescape]

/-- One character, escaped by the encoder, is read back by the scanner. -/
theorem scanString_escapeChar (c : Char) (fuel : Nat) (acc rest : List Char) :
    ∃ k, escapeChar c ++ rest = k ∧ k.length ≥ rest.length + 1 ∧
      scanString (fuel + 1) acc (escapeChar c ++ rest) = scanString fuel (acc ++ [c]) rest := by
  refine ⟨_, rfl, ?_, ?_⟩
  · unfold escapeChar
    split_ifs <;> simp
  · unfold escapeChar
    split_ifs with h1 h2 h3 h4 h5 h6 h7 h8
    · rcases h1 with h1 | h1
      · subst h1
        exact scanString_escape _ _ _ _ _ (by simp [unescape])
      · subst h1
        exact scanString_escape _ _ _ _ _ (by simp [unescape])
    · subst h2; exact scanString_escape _ _ _ _ _ (by simp [unescape])
    · subst h3; exact scanString_escape _ _ _ _ _ (by simp [unescape])
    · subst h4; exact scanString_escape _ _ _ _ _ (by simp [unescape])
    · subst h5; exact scanString_escape _ _ _ _ _ (by simp [unescape])
    · subst h6; exact scanString_escape _ _ _ _ _ (by simp [unescape])
    · have hn : c.toNat < 64 := by
        rcases h7 with h | h | h | h
        · omega
        · subst h; decide
        · subst h; decide
        · subst h; decide
      show scanString (fuel + 1) acc ('\\' :: 'u' :: '0' :: '0' :: hexDigit (c.toNat / 16) ::
        hexDigit (c.toNat % 16) :: rest) = _
      apply scanString_escape
      have hc : Char.ofNat c.toNat = c := Char.ofNat_toNat c
      have hs : ¬ (0xd800 ≤ c.toNat ∧ c.toNat < 0xe000) := by omega
      rw [unescape_u, getu4_low c.toNat (by omega)]
      simp [hs, hc]
    · have hn : c.toNat % 16 < 16 := by omega
      show scanString (fuel + 1) acc ('\\' :: 'u' :: '2' :: '0' :: '2' ::
        hexDigit (c.toNat % 16) :: rest) = _
      apply scanString_escape
      have hc : Char.ofNat c.toNat = c := Char.ofNat_toNat c
      have hv : 0x2020 + c.toNat % 16 = c.toNat := by omega
      have hs : ¬ (0xd800 ≤ c.toNat ∧ c.toNat < 0xe000) := by omega
      rw [unescape_u, getu4_separator _ hn, hv]
      simp [hs, hc]
    · push_neg at h1 h7
      exact scanString_step _ _ _ _ h1.1 h1.2 (by omega)

/-- What the encoder writes at one step through a string is read by the
scanner as the rune of that step, U+FFFD where the step found no rune. -/
theorem scanString_escapeRune (r : Option Char) (fuel : Nat) (acc rest : List Char) :
    ∃ k, escapeRune r ++ rest = k ∧ k.length ≥ rest.length + 1 ∧
      scanString (fuel + 1) acc (escapeRune r ++ rest)
        = scanString fuel (acc ++ [r.getD RuneError]) rest := by
  cases r with
  | some c => exact scanString_escapeChar c fuel acc rest
  | none =>
    refine ⟨_, rfl, by simp [escapeRune], ?_⟩
    show scanString (fuel + 1) acc ('\\' :: 'u' :: 'f' :: 'f' :: 'f' :: 'd' :: rest) = _
    apply scanString_escape
    have hg : getu4 ('f' :: 'f' :: 'f' :: 'd' :: rest) = some (0xfffd, rest) := by
      have hf : hexVal 'f' = some 15 := by decide
      have hd : hexVal 'd' = some 13 := by decide
      simp only [getu4, hf, hd]
    rw [unescape_u, hg]
    rfl

/-- A string, escaped by the encoder, is read back by the scanner. -/
theorem scanString_escapeRunes (rs : List (Option Char)) :
    ∀ (fuel : Nat) (acc rest : List Char), (escapeRunes rs ++ '"' :: rest).length < fuel →
      scanString fuel acc (escapeRunes rs ++ '"' :: rest)
        = .ok (String.mk (acc ++ rs.map (fun r => r.getD RuneError)), rest) := by
  induction rs with
  | nil =>
    intro fuel acc rest h
    cases fuel with
    | zero => simp at h
    | succ f => simp [escapeRunes, scanString]
  | cons c cs ih =>
    intro fuel acc rest h
    cases fuel with
    | zero => simp at h
    | succ f =>
      obtain ⟨k, hk, hlen, hstep⟩ := scanString_escapeRune c f acc (escapeRunes cs ++ '"' :: rest)
      have e : escapeRunes (c :: cs) ++ '"' :: rest
          = escapeRune c ++ (escapeRunes cs ++ '"' :: rest) := by
        simp [escapeRunes]
      rw [e, hstep, ih f (acc ++ [c.getD RuneError]) rest]
      · simp
      · rw [e, hk] at h
        omega

/-- The scanner reads a string literal of the encoder as the text of the
string. -/
theorem scanString_quote (s : GoString) (fuel : Nat) (rest : List Char)
    (h : (escapeRunes (runes s) ++ '"' :: rest).length < fuel) :
    scanString fuel [] (escapeRunes (runes s) ++ '"' :: rest) = .ok (text s, rest) := by
  rw [scanString_escapeRunes (runes s) fuel [] rest h]
  rfl

theorem skipSpace_cons (c : Char) (cs : List Char) (h : isSpace c = false) :
    skipSpace (c :: cs) = c :: cs := by
  simp [skipSpace, h]

theorem parseValue_quote (fuel d : Nat) (rest : List Char) :
    parseValue (fuel + 1) d ('"' :: rest) =
      match scanString fuel [] rest with
      | .ok (s, rest2) => .ok (.str s, rest2)
      | .error e => .error e := by
  simp [parseValue, parseString]

theorem parseValue_null (fuel d : Nat) (rest : List Char) :
    parseValue (fuel + 1) d ('n' :: 'u' :: 'l' :: 'l' :: rest) = .ok (.null, rest) := by
  simp [parseValue, parseLiteral, expectLiteral]

theorem parseValue_bracket (fuel d : Nat) (rest : List Char) (hd : d < maxNestingDepth) :
    parseValue (fuel + 1) d ('[' :: rest) =
      match skipSpace rest with
      | [] => .error "unexpected EOF"
      | c :: rest2 =>
        if c = ']' then .ok (.arr [], rest2)
        else
          match parseValue fuel (d + 1) (c :: rest2) with
          | .ok (v, rest3) => parseElems fuel (d + 1) [v] rest3
          | .error e => .error e := by
  have h1 : isDigit '[' = false := by decide
  have h2 : ¬ maxNestingDepth ≤ d := Nat.not_le.mpr hd
  simp [parseValue, h1, h2]

theorem parseValue_brace (fuel d : Nat) (rest : List Char) (hd : d < maxNestingDepth) :
    parseValue (fuel + 1) d ('\x7b' :: rest) =
      match skipSpace rest with
      | [] => .error "unexpected EOF"
      | c :: rest2 =>
        if c = '\x7d' then .ok (.obj [], rest2)
        else parseMember fuel (d + 1) [] (c :: rest2) := by
  have h1 : isDigit '\x7b' = false := by decide
  have h2 : ¬ maxNestingDepth ≤ d := Nat.not_le.mpr hd
  simp [parseValue, h1, h2]

/-- The parser reads a string back. -/
theorem parses_str (d : Nat) (s : GoString) : Parses d (.str s) := by
  refine ⟨⟨'"', escapeRunes (runes s) ++ ['"'], rfl, by decide, by decide⟩, ?_⟩
  intro fuel rest h
  cases fuel with
  | zero => simp at h
  | succ f =>
    have e : render (.str s) ++ rest = '"' :: (escapeRunes (runes s) ++ '"' :: rest) := by
      simp [render, quote]
    rw [e] at h ⊢
    rw [parseValue_quote, scanString_quote s f rest (by simpa using h)]
    rfl

/-- The parser reads `null` back. -/
theorem parses_null (d : Nat) : Parses d .null := by
  refine ⟨⟨'n', ['u', 'l', 'l'], rfl, by decide, by decide⟩, ?_⟩
  intro fuel rest h
  cases fuel with
  | zero => simp at h
  | succ f => exact parseValue_null f d rest

/-- After an array element the parser reads the remaining elements back. -/
theorem parseElems_more (d : Nat) (es : List Doc) :
    ∀ (acc : List Json) (fuel : Nat) (rest : List Char), (∀ e ∈ es, Parses d e) →
      (renderMoreElems es ++ ']' :: rest).length < fuel →
      parseElems fuel d acc (renderMoreElems es ++ ']' :: rest)
        = .ok (.arr (acc ++ jsonElems es), rest) := by
  induction es with
  | nil =>
    intro acc fuel rest _ h
    cases fuel with
    | zero => simp at h
    | succ f => simp [renderMoreElems, parseElems, skipSpace, isSpace, jsonElems]
  | cons e es ih =>
    intro acc fuel rest hes h
    cases fuel with
    | zero => simp at h
    | succ f =>
      obtain ⟨⟨c, cs, hc, hsp, _⟩, hparse⟩ := hes e (List.mem_cons_self _ _)
      have e1 : renderMoreElems (e :: es) ++ ']' :: rest
          = ',' :: (render e ++ (renderMoreElems es ++ ']' :: rest)) := by
        simp [renderMoreElems]
      rw [e1] at h ⊢
      have hlen : (render e ++ (renderMoreElems es ++ ']' :: rest)).length < f := by
        simp only [List.length_cons] at h
        omega
      have hskip : skipSpace (render e ++ (renderMoreElems es ++ ']' :: rest))
          = render e ++ (renderMoreElems es ++ ']' :: rest) := by
        rw [hc, List.cons_append]
        exact skipSpace_cons _ _ hsp
      have hcomma : isSpace ',' = false := by decide
      unfold parseElems
      rw [skipSpace_cons _ _ hcomma]
      simp only [show (',' : Char) ≠ ']' by decide, if_false, if_true]
      rw [hskip, hparse f _ hlen]
      simp only []
      rw [ih (acc ++ [e.json]) f rest (fun x hx => hes x (List.mem_cons_of_mem _ hx))]
      · simp [jsonElems]
      · simp only [List.length_append] at hlen ⊢
        omega

/-- The parser reads an array back when it reads its elements back. -/
theorem parses_arr (d : Nat) (es : List Doc) (hd : d < maxNestingDepth)
    (hes : ∀ e ∈ es, Parses (d + 1) e) : Parses d (.arr es) := by
  refine ⟨⟨'[', renderElems es ++ [']'], rfl, by decide, by decide⟩, ?_⟩
  intro fuel rest h
  cases fuel with
  | zero => simp at h
  | succ f =>
    cases es with
    | nil =>
      have e1 : render (.arr []) ++ rest = '[' :: ']' :: rest := by
        simp [render, renderElems]
      rw [e1, parseValue_bracket _ _ _ hd]
      simp [skipSpace, isSpace, Doc.json, jsonElems]
    | cons e es =>
      obtain ⟨⟨c, cs, hc, hsp, hne⟩, hparse⟩ := hes e (List.mem_cons_self _ _)
      have e1 : render (.arr (e :: es)) ++ rest
          = '[' :: (render e ++ (renderMoreElems es ++ ']' :: rest)) := by
        simp [render, renderElems]
      rw [e1] at h ⊢
      have hlen : (render e ++ (renderMoreElems es ++ ']' :: rest)).length < f := by
        simp only [List.length_cons] at h
        omega
      rw [parseValue_bracket _ _ _ hd]
      have hskip : skipSpace (render e ++ (renderMoreElems es ++ ']' :: rest))
          = c :: (cs ++ (renderMoreElems es ++ ']' :: rest)) := by
        rw [hc, List.cons_append]
        exact skipSpace_cons _ _ hsp
      rw [hskip]
      simp only [hne, if_false]
      have hback : c :: (cs ++ (renderMoreElems es ++ ']' :: rest))
          = render e ++ (renderMoreElems es ++ ']' :: rest) := by
        rw [hc, List.cons_append]
      rw [hback, hparse f _ hlen]
      simp only []
      rw [parseElems_more (d + 1) es [e.json] f rest
        (fun x hx => hes x (List.mem_cons_of_mem _ hx))]
      · simp [Doc.json, jsonElems]
      · simp only [List.length_append] at hlen ⊢
        omega

theorem parseMember_quote (fuel d : Nat) (acc : List (String × Json)) (rest : List Char) :
    parseMember (fuel + 1) d acc ('"' :: rest) =
      match scanString fuel [] rest with
      | .error e => .error e
      | .ok (key, rest2) =>
        match skipSpace rest2 with
        | [] => .error "unexpected EOF"
        | c :: rest3 =>
          if c = ':' then
            match parseValue fuel d (skipSpace rest3) with
            | .error e => .error e
            | .ok (v, rest4) =>
              match skipSpace rest4 with
              | [] => .error "unexpected EOF"
              | d2 :: rest5 =>
                if d2 = '\x7d' then .ok (.obj (acc ++ [(key, v)]), rest5)
                else if d2 = ',' then
                  parseMember fuel d (acc ++ [(key, v)]) (skipSpace rest5)
                else .error "invalid character after object key:value pair"
          else .error "invalid character after object key" := by
  simp [parseMember]

/-- The parser reads an object member and the members after it back. -/
theorem parseMember_more (d : Nat) (ms : List (GoString × Doc)) :
    ∀ (k : GoString) (v : Doc) (acc : List (String × Json)) (fuel : Nat) (rest : List Char),
      Parses d v → (∀ kv ∈ ms, Parses d kv.2) →
      (quote k ++ ':' :: (render v ++ (renderMoreMembers ms ++ '\x7d' :: rest))).length < fuel →
      parseMember fuel d acc
          (quote k ++ ':' :: (render v ++ (renderMoreMembers ms ++ '\x7d' :: rest)))
        = .ok (.obj (acc ++ (text k, v.json) :: jsonMembers ms), rest) := by
  induction ms with
  | nil =>
    intro k v acc fuel rest hv _ h
    cases fuel with
    | zero => simp at h
    | succ f =>
      obtain ⟨⟨c, cs, hc, hsp, _⟩, hparse⟩ := hv
      have e1 : quote k ++ ':' :: (render v ++ (renderMoreMembers [] ++ '\x7d' :: rest))
          = '"' :: (escapeRunes (runes k) ++ '"' :: ':' :: (render v ++ '\x7d' :: rest)) := by
        simp [quote, renderMoreMembers]
      rw [e1] at h ⊢
      simp only [List.length_cons, List.length_append] at h
      rw [parseMember_quote, scanString_escapeRunes (runes k) f [] _
        (by simp only [List.length_cons, List.length_append]; omega)]
      simp only [List.nil_append]
      rw [skipSpace_cons _ _ (by decide : isSpace ':' = false)]
      simp only [if_true]
      have hskip : skipSpace (render v ++ '\x7d' :: rest) = render v ++ '\x7d' :: rest := by
        rw [hc, List.cons_append]
        exact skipSpace_cons _ _ hsp
      rw [hskip, hparse f _ (by simp only [List.length_cons, List.length_append]; omega)]
      simp only []
      rw [skipSpace_cons _ _ (by decide : isSpace '\x7d' = false)]
      simp [jsonMembers]
      rfl
  | cons m ms ih =>
    intro k v acc fuel rest hv hms h
    cases fuel with
    | zero => simp at h
    | succ f =>
      obtain ⟨k2, v2⟩ := m
      obtain ⟨⟨c, cs, hc, hsp, _⟩, hparse⟩ := hv
      have e1 : quote k ++ ':' :: (render v ++ (renderMoreMembers ((k2, v2) :: ms)
            ++ '\x7d' :: rest))
          = '"' :: (escapeRunes (runes k) ++ '"' :: ':' :: (render v ++ ',' ::
              (quote k2 ++ ':' :: (render v2 ++ (renderMoreMembers ms ++ '\x7d' :: rest))))) := by
        simp [quote, renderMoreMembers]
      rw [e1] at h ⊢
      simp only [List.length_cons, List.length_append] at h
      rw [parseMember_quote, scanString_escapeRunes (runes k) f [] _
        (by simp only [List.length_cons, List.length_append]; omega)]
      simp only [List.nil_append]
      rw [skipSpace_cons _ _ (by decide : isSpace ':' = false)]
      simp only [if_true]
      have hskip : ∀ tail, skipSpace (render v ++ tail) = render v ++ tail := by
        intro tail
        rw [hc, List.cons_append]
        exact skipSpace_cons _ _ hsp
      rw [hskip, hparse f _ (by simp only [List.length_cons, List.length_append]; omega)]
      simp only []
      rw [skipSpace_cons _ _ (by decide : isSpace ',' = false)]
      simp only [show (',' : Char) ≠ '\x7d' by decide, if_false, if_true]
      have hq : skipSpace (quote k2 ++ ':' :: (render v2 ++ (renderMoreMembers ms
            ++ '\x7d' :: rest)))
          = quote k2 ++ ':' :: (render v2 ++ (renderMoreMembers ms ++ '\x7d' :: rest)) := by
        unfold quote
        rw [List.cons_append]
        exact skipSpace_cons _ _ (by decide)
      rw [hq]
      show parseMember f d (acc ++ [(text k, v.json)]) _ = _
      rw [ih k2 v2 (acc ++ [(text k, v.json)]) f rest (hms (k2, v2) (List.mem_cons_self _ _))
        (fun kv hkv => hms kv (List.mem_cons_of_mem _ hkv))]
      · simp [jsonMembers]
      · simp only [List.length_cons, List.length_append]
        omega

/-- The parser reads an object back when it reads the values of its members
back. -/
theorem parses_obj (d : Nat) (ms : List (GoString × Doc)) (hd : d < maxNestingDepth)
    (hms : ∀ kv ∈ ms, Parses (d + 1) kv.2) : Parses d (.obj ms) := by
  refine ⟨⟨'\x7b', renderMembers ms ++ ['\x7d'], rfl, by decide, by decide⟩, ?_⟩
  intro fuel rest h
  cases fuel with
  | zero => simp at h
  | succ f =>
    cases ms with
    | nil =>
      have e1 : render (.obj []) ++ rest = '\x7b' :: '\x7d' :: rest := by
        simp [render, renderMembers]
      rw [e1, parseValue_brace _ _ _ hd]
      simp [skipSpace, isSpace, Doc.json, jsonMembers]
    | cons m ms =>
      obtain ⟨k, v⟩ := m
      have e1 : render (.obj ((k, v) :: ms)) ++ rest
          = '\x7b' :: (quote k ++ ':' :: (render v ++ (renderMoreMembers ms
              ++ '\x7d' :: rest))) := by
        simp [render, renderMembers]
      rw [e1] at h ⊢
      rw [parseValue_brace _ _ _ hd]
      have hq : skipSpace (quote k ++ ':' :: (render v ++ (renderMoreMembers ms
            ++ '\x7d' :: rest)))
          = '"' :: (escapeRunes (runes k) ++ ['"'] ++ ':' :: (render v ++ (renderMoreMembers ms
              ++ '\x7d' :: rest))) := by
        unfold quote
        rw [List.cons_append]
        exact skipSpace_cons _ _ (by decide)
      rw [hq]
      simp only [show ('"' : Char) ≠ '\x7d' by decide, if_false]
      have hback : '"' :: (escapeRunes (runes k) ++ ['"'] ++ ':' :: (render v
            ++ (renderMoreMembers ms ++ '\x7d' :: rest)))
          = quote k ++ ':' :: (render v ++ (renderMoreMembers ms ++ '\x7d' :: rest)) := by
        simp [quote]
      rw [hback, parseMember_more (d + 1) ms k v [] f rest
        (hms (k, v) (List.mem_cons_self _ _))
        (fun kv hkv => hms kv (List.mem_cons_of_mem _ hkv))]
      · simp [Doc.json, jsonMembers]
      · simp only [List.length_cons] at h
        omega

/-- A document the parser reads back is what `readValue` finds in its text. -/
theorem readValue_render (v : Doc) (h : Parses 0 v) :
    readValue (String.mk (render v)) = .ok v.json := by
  obtain ⟨⟨c, cs, hc, hsp, _⟩, hparse⟩ := h
  unfold readValue
  simp only [hc, skipSpace_cons _ _ hsp]
  have := hparse (cs.length + 2) [] (by simp [hc])
  rw [List.append_nil, hc] at this
  rw [this]

/-! ## The fuel of the parser is enough

Every call of the parser that uses up fuel is made on a shorter input, so that
fuel beyond the length of the input is never used up: the result does not
depend on how much more there is. -/

theorem skipSpace_length (cs : List Char) : (skipSpace cs).length ≤ cs.length := by
  induction cs with
  | nil => simp [skipSpace]
  | cons c cs ih =>
    unfold skipSpace
    split_ifs
    · exact Nat.le_succ_of_le ih
    · exact Nat.le_refl _

theorem takeDigits_length (cs : List Char) : (takeDigits cs).2.length ≤ cs.length := by
  induction cs with
  | nil => simp [takeDigits]
  | cons c cs ih =>
    unfold takeDigits
    split_ifs
    · exact Nat.le_succ_of_le ih
    · exact Nat.le_refl _

theorem expectLiteral_length (lit : List Char) :
    ∀ (cs rest : List Char), expectLiteral lit cs = .ok rest → rest.length ≤ cs.length := by
  induction lit with
  | nil =>
    intro cs rest h
    simp only [expectLiteral, Except.ok.injEq] at h
    rw [h]
  | cons l ls ih =>
    intro cs rest h
    cases cs with
    | nil => simp [expectLiteral] at h
    | cons c cs =>
      simp only [expectLiteral] at h
      split_ifs at h
      exact Nat.le_succ_of_le (ih cs rest h)

theorem scanExponent_length (lit cs out rest : List Char)
    (h : scanExponent lit cs = .ok (out, rest)) : rest.length ≤ cs.length := by
  unfold scanExponent at h
  split at h
  · split_ifs at h
    · split at h
      · split_ifs at h
        · split at h
          · split_ifs at h
            simp only [Except.ok.injEq, Prod.mk.injEq] at h
            rw [← h.2]
            exact Nat.le_trans (takeDigits_length _) (by simp only [List.length_cons]; omega)
          · simp at h
        · simp only [Except.ok.injEq, Prod.mk.injEq] at h
          rw [← h.2]
          exact Nat.le_trans (takeDigits_length _) (by simp only [List.length_cons]; omega)
      · simp at h
    · simp only [Except.ok.injEq, Prod.mk.injEq] at h
      rw [← h.2]
  · simp only [Except.ok.injEq, Prod.mk.injEq] at h
    rw [← h.2]

theorem scanFraction_length (lit cs out rest : List Char)
    (h : scanFraction lit cs = .ok (out, rest)) : rest.length ≤ cs.length := by
  unfold scanFraction at h
  split at h
  · split at h
    · split_ifs at h
      exact Nat.le_trans (scanExponent_length _ _ _ _ h)
        (Nat.le_trans (takeDigits_length _) (by simp only [List.length_cons]; omega))
    · simp at h
  · exact scanExponent_length _ _ _ _ h

theorem scanInteger_length (sign cs out rest : List Char)
    (h : scanInteger sign cs = .ok (out, rest)) : rest.length < cs.length := by
  unfold scanInteger at h
  split at h
  · simp at h
  · split_ifs at h
    · exact Nat.lt_of_le_of_lt (scanFraction_length _ _ _ _ h)
        (by simp only [List.length_cons]; omega)
    · exact Nat.lt_of_le_of_lt (scanFraction_length _ _ _ _ h)
        (Nat.lt_of_le_of_lt (takeDigits_length _) (by simp only [List.length_cons]; omega))

theorem getu4_length (cs : List Char) (n : Nat) (rest : List Char)
    (h : getu4 cs = some (n, rest)) : rest.length + 4 = cs.length := by
  unfold getu4 at h
  split at h
  · split at h
    · simp only [Option.some.injEq, Prod.mk.injEq] at h
      rw [← h.2]
      simp
    · simp at h
  · simp at h

theorem lowSurrogate_length (hi : Nat) (cs : List Char) (c : Char) (rest : List Char)
    (h : lowSurrogate hi cs = some (c, rest)) : rest.length < cs.length := by
  unfold lowSurrogate at h
  split at h
  · rename_i r
    split at h
    · rename_i lo r2 hg
      split_ifs at h
      simp only [Option.some.injEq, Prod.mk.injEq] at h
      have := getu4_length _ _ _ hg
      rw [← h.2]
      simp only [List.length_cons]
      omega
    · simp at h
  · simp at h

theorem unescape_length (cs : List Char) (c : Char) (rest : List Char)
    (h : unescape cs = some (c, rest)) : rest.length < cs.length := by
  unfold unescape at h
  split at h
  · simp at h
  · rename_i e r
    split_ifs at h
    · split at h
      · simp at h
      · rename_i rr r1 hg
        have hlen := getu4_length _ _ _ hg
        split_ifs at h
        · split at h
          · rename_i p hp
            simp only [Option.some.injEq] at h
            subst h
            have := lowSurrogate_length _ _ _ _ hp
            simp only [List.length_cons]
            omega
          · simp only [Option.some.injEq, Prod.mk.injEq] at h
            rw [← h.2]
            simp only [List.length_cons]
            omega
        · simp only [Option.some.injEq, Prod.mk.injEq] at h
          rw [← h.2]
          simp only [List.length_cons]
          omega
    all_goals
      simp only [Option.some.injEq, Prod.mk.injEq] at h
      rw [← h.2]
      simp

theorem scanString_length (fuel : Nat) :
    ∀ (acc cs : List Char) (s : String) (rest : List Char),
      scanString fuel acc cs = .ok (s, rest) → rest.length < cs.length := by
  induction fuel with
  | zero => intro acc cs s rest h; simp [scanString] at h
  | succ f ih =>
    intro acc cs s rest h
    unfold scanString at h
    split at h
    · simp at h
    · split_ifs at h
      · simp only [Except.ok.injEq, Prod.mk.injEq] at h
        rw [← h.2]
        simp
      · split at h
        · simp at h
        · rename_i hu
          have h1 := unescape_length _ _ _ hu
          have h2 := ih _ _ _ _ h
          simp only [List.length_cons]
          omega
      · have h2 := ih _ _ _ _ h
        simp only [List.length_cons]
        omega

theorem scanString_enough (fuel : Nat) :
    ∀ (fuel2 : Nat) (acc cs : List Char), cs.length < fuel → cs.length < fuel2 →
      scanString fuel acc cs = scanString fuel2 acc cs := by
  induction fuel with
  | zero => intro fuel2 acc cs h; simp at h
  | succ f ih =>
    intro fuel2 acc cs h h2
    cases fuel2 with
    | zero => simp at h2
    | succ f2 =>
      unfold scanString
      split
      · rfl
      · simp only [List.length_cons] at h h2
        split_ifs
        · rfl
        · split
          · rfl
          · rename_i hu
            have h1 := unescape_length _ _ _ hu
            exact ih f2 _ _ (by omega) (by omega)
        · rfl
        · exact ih f2 _ _ (by omega) (by omega)

theorem parseLiteral_length (lit : List Char) (w : Json) (cs : List Char) (v : Json)
    (rest : List Char) (h : parseLiteral lit w cs = .ok (v, rest)) :
    rest.length ≤ cs.length := by
  unfold parseLiteral at h
  cases hl : expectLiteral lit cs with
  | error e => rw [hl] at h; cases h
  | ok r =>
    rw [hl] at h
    simp only [Except.ok.injEq, Prod.mk.injEq] at h
    rw [← h.2]
    exact expectLiteral_length _ _ _ hl

theorem parseNumber_length (sign cs : List Char) (v : Json) (rest : List Char)
    (h : parseNumber sign cs = .ok (v, rest)) : rest.length < cs.length := by
  unfold parseNumber at h
  cases hl : scanInteger sign cs with
  | error e => rw [hl] at h; cases h
  | ok p =>
    obtain ⟨lit, r⟩ := p
    rw [hl] at h
    simp only [Except.ok.injEq, Prod.mk.injEq] at h
    rw [← h.2]
    exact scanInteger_length _ _ _ _ hl

theorem parseString_length (fuel : Nat) (cs : List Char) (v : Json) (rest : List Char)
    (h : parseString fuel cs = .ok (v, rest)) : rest.length < cs.length := by
  unfold parseString at h
  cases hl : scanString fuel [] cs with
  | error e => rw [hl] at h; cases h
  | ok p =>
    obtain ⟨s, r⟩ := p
    rw [hl] at h
    simp only [Except.ok.injEq, Prod.mk.injEq] at h
    rw [← h.2]
    exact scanString_length _ _ _ _ _ hl

theorem parseString_enough (fuel fuel2 : Nat) (cs : List Char) (h : cs.length < fuel)
    (h2 : cs.length < fuel2) : parseString fuel cs = parseString fuel2 cs := by
  unfold parseString
  rw [scanString_enough fuel fuel2 [] cs h h2]

theorem parseValue_succ (fuel d : Nat) (c : Char) (rest : List Char) :
    parseValue (fuel + 1) d (c :: rest) =
      if c = 'n' then parseLiteral ['u', 'l', 'l'] .null rest
      else if c = 't' then parseLiteral ['r', 'u', 'e'] (.bool true) rest
      else if c = 'f' then parseLiteral ['a', 'l', 's', 'e'] (.bool false) rest
      else if c = '"' then parseString fuel rest
      else if c = '-' then parseNumber ['-'] rest
      else if isDigit c then parseNumber [] (c :: rest)
      else if c = '[' then
        if maxNestingDepth ≤ d then .error "exceeded max depth"
        else
          match skipSpace rest with
          | [] => .error "unexpected EOF"
          | x :: rest2 =>
            if x = ']' then .ok (.arr [], rest2)
            else
              match parseValue fuel (d + 1) (x :: rest2) with
              | .ok (v, rest3) => parseElems fuel (d + 1) [v] rest3
              | .error e => .error e
      else if c = '\x7b' then
        if maxNestingDepth ≤ d then .error "exceeded max depth"
        else
          match skipSpace rest with
          | [] => .error "unexpected EOF"
          | x :: rest2 =>
            if x = '\x7d' then .ok (.obj [], rest2)
            else parseMember fuel (d + 1) [] (x :: rest2)
      else .error "invalid character looking for beginning of value" := by
  rw [parseValue]

theorem parseElems_succ (fuel d : Nat) (acc : List Json) (cs : List Char) :
    parseElems (fuel + 1) d acc cs =
      match skipSpace cs with
      | [] => .error "unexpected EOF"
      | c :: rest =>
        if c = ']' then .ok (.arr acc, rest)
        else if c = ',' then
          match parseValue fuel d (skipSpace rest) with
          | .ok (v, rest2) => parseElems fuel d (acc ++ [v]) rest2
          | .error e => .error e
        else .error "invalid character after array element" := by
  rw [parseElems]

/-- What the parser leaves is shorter than what it was given. -/
theorem parse_length (fuel : Nat) :
    (∀ d cs v rest, parseValue fuel d cs = .ok (v, rest) → rest.length < cs.length) ∧
      (∀ d acc cs v rest, parseElems fuel d acc cs = .ok (v, rest) → rest.length < cs.length) ∧
      (∀ d acc cs v rest, parseMember fuel d acc cs = .ok (v, rest) →
        rest.length < cs.length) := by
  induction fuel with
  | zero =>
    refine ⟨?_, ?_, ?_⟩
    · intro d cs v rest h; rw [parseValue] at h; cases h
    · intro d acc cs v rest h; rw [parseElems] at h; cases h
    · intro d acc cs v rest h; rw [parseMember] at h; cases h
  | succ f ih =>
    obtain ⟨ihv, ihe, ihm⟩ := ih
    refine ⟨?_, ?_, ?_⟩
    · intro d cs v rest h
      cases cs with
      | nil => rw [parseValue] at h; cases h
      | cons c rs =>
        rw [parseValue_succ] at h
        simp only [List.length_cons]
        by_cases h1 : c = 'n'
        · rw [if_pos h1] at h
          exact Nat.lt_succ_of_le (parseLiteral_length _ _ _ _ _ h)
        rw [if_neg h1] at h
        by_cases h2 : c = 't'
        · rw [if_pos h2] at h
          exact Nat.lt_succ_of_le (parseLiteral_length _ _ _ _ _ h)
        rw [if_neg h2] at h
        by_cases h3 : c = 'f'
        · rw [if_pos h3] at h
          exact Nat.lt_succ_of_le (parseLiteral_length _ _ _ _ _ h)
        rw [if_neg h3] at h
        by_cases h4 : c = '"'
        · rw [if_pos h4] at h
          exact Nat.lt_succ_of_lt (parseString_length _ _ _ _ h)
        rw [if_neg h4] at h
        by_cases h5 : c = '-'
        · rw [if_pos h5] at h
          exact Nat.lt_succ_of_lt (parseNumber_length _ _ _ _ h)
        rw [if_neg h5] at h
        by_cases h6 : isDigit c = true
        · rw [if_pos h6] at h
          have := parseNumber_length _ _ _ _ h
          simpa using this
        rw [if_neg h6] at h
        by_cases h7 : c = '['
        · rw [if_pos h7] at h
          by_cases hd : maxNestingDepth ≤ d
          · rw [if_pos hd] at h; cases h
          rw [if_neg hd] at h
          have hs := skipSpace_length rs
          cases hsk : skipSpace rs with
          | nil => rw [hsk] at h; cases h
          | cons x r2 =>
            rw [hsk] at h hs
            simp only [List.length_cons] at hs
            simp only [] at h
            by_cases hx : x = ']'
            · rw [if_pos hx] at h
              simp only [Except.ok.injEq, Prod.mk.injEq] at h
              rw [← h.2]
              omega
            rw [if_neg hx] at h
            cases hv : parseValue f (d + 1) (x :: r2) with
            | error e => rw [hv] at h; cases h
            | ok p =>
              obtain ⟨v1, r3⟩ := p
              rw [hv] at h
              simp only [] at h
              have a1 := ihv _ _ _ _ hv
              have a2 := ihe _ _ _ _ _ h
              simp only [List.length_cons] at a1
              omega
        rw [if_neg h7] at h
        by_cases h8 : c = '\x7b'
        · rw [if_pos h8] at h
          by_cases hd : maxNestingDepth ≤ d
          · rw [if_pos hd] at h; cases h
          rw [if_neg hd] at h
          have hs := skipSpace_length rs
          cases hsk : skipSpace rs with
          | nil => rw [hsk] at h; cases h
          | cons x r2 =>
            rw [hsk] at h hs
            simp only [List.length_cons] at hs
            simp only [] at h
            by_cases hx : x = '\x7d'
            · rw [if_pos hx] at h
              simp only [Except.ok.injEq, Prod.mk.injEq] at h
              rw [← h.2]
              omega
            rw [if_neg hx] at h
            have a2 := ihm _ _ _ _ _ h
            simp only [List.length_cons] at a2
            omega
        rw [if_neg h8] at h
        cases h
    · intro d acc cs v rest h
      rw [parseElems_succ] at h
      have hs := skipSpace_length cs
      cases hsk : skipSpace cs with
      | nil => rw [hsk] at h; cases h
      | cons c r =>
        rw [hsk] at h hs
        simp only [List.length_cons] at hs
        simp only [] at h
        by_cases h1 : c = ']'
        · rw [if_pos h1] at h
          simp only [Except.ok.injEq, Prod.mk.injEq] at h
          rw [← h.2]
          omega
        rw [if_neg h1] at h
        by_cases h2 : c = ','
        · rw [if_pos h2] at h
          cases hv : parseValue f d (skipSpace r) with
          | error e => rw [hv] at h; cases h
          | ok p =>
            obtain ⟨v1, r3⟩ := p
            rw [hv] at h
            simp only [] at h
            have a1 := ihv _ _ _ _ hv
            have a2 := ihe _ _ _ _ _ h
            have a3 := skipSpace_length r
            omega
        rw [if_neg h2] at h
        cases h
    · intro d acc cs v rest h
      cases cs with
      | nil => rw [parseMember] at h; cases h
      | cons q rs =>
        rw [parseMember] at h
        simp only [List.length_cons]
        by_cases h1 : q = '"'
        · rw [if_pos h1] at h
          cases hss : scanString f [] rs with
          | error e => rw [hss] at h; cases h
          | ok p =>
            obtain ⟨key, r2⟩ := p
            rw [hss] at h
            simp only [] at h
            have a1 := scanString_length _ _ _ _ _ hss
            have hs := skipSpace_length r2
            cases hsk : skipSpace r2 with
            | nil => rw [hsk] at h; cases h
            | cons c r3 =>
              rw [hsk] at h hs
              simp only [List.length_cons] at hs
              simp only [] at h
              by_cases h2 : c = ':'
              · rw [if_pos h2] at h
                cases hv : parseValue f d (skipSpace r3) with
                | error e => rw [hv] at h; cases h
                | ok p2 =>
                  obtain ⟨v1, r4⟩ := p2
                  rw [hv] at h
                  simp only [] at h
                  have a2 := ihv _ _ _ _ hv
                  have a3 := skipSpace_length r3
                  have hs2 := skipSpace_length r4
                  cases hsk2 : skipSpace r4 with
                  | nil => rw [hsk2] at h; cases h
                  | cons x r5 =>
                    rw [hsk2] at h hs2
                    simp only [List.length_cons] at hs2
                    simp only [] at h
                    by_cases h3 : x = '\x7d'
                    · rw [if_pos h3] at h
                      simp only [Except.ok.injEq, Prod.mk.injEq] at h
                      rw [← h.2]
                      omega
                    rw [if_neg h3] at h
                    by_cases h4 : x = ','
                    · rw [if_pos h4] at h
                      have a4 := ihm _ _ _ _ _ h
                      have a5 := skipSpace_length r5
                      omega
                    rw [if_neg h4] at h
                    cases h
              rw [if_neg h2] at h
              cases h
        rw [if_neg h1] at h
        cases h

/-- With fuel beyond the length of the input, the parser gives the same result
whatever the fuel is. -/
theorem parse_enough (fuel : Nat) :
    (∀ fuel2 d cs, cs.length < fuel → cs.length < fuel2 →
        parseValue fuel d cs = parseValue fuel2 d cs) ∧
      (∀ fuel2 d acc cs, cs.length < fuel → cs.length < fuel2 →
        parseElems fuel d acc cs = parseElems fuel2 d acc cs) ∧
      (∀ fuel2 d acc cs, cs.length < fuel → cs.length < fuel2 →
        parseMember fuel d acc cs = parseMember fuel2 d acc cs) := by
  induction fuel with
  | zero =>
    refine ⟨?_, ?_, ?_⟩
    · intro fuel2 d cs h; exact absurd h (Nat.not_lt_zero _)
    · intro fuel2 d acc cs h; exact absurd h (Nat.not_lt_zero _)
    · intro fuel2 d acc cs h; exact absurd h (Nat.not_lt_zero _)
  | succ f ih =>
    obtain ⟨ihv, ihe, ihm⟩ := ih
    refine ⟨?_, ?_, ?_⟩
    · intro fuel2 d cs hf hf2
      cases fuel2 with
      | zero => exact absurd hf2 (Nat.not_lt_zero _)
      | succ f2 =>
        cases cs with
        | nil => rw [parseValue, parseValue]
        | cons c rs =>
          simp only [List.length_cons] at hf hf2
          rw [parseValue_succ, parseValue_succ]
          by_cases h1 : c = 'n'
          · simp only [if_pos h1]
          simp only [if_neg h1]
          by_cases h2 : c = 't'
          · simp only [if_pos h2]
          simp only [if_neg h2]
          by_cases h3 : c = 'f'
          · simp only [if_pos h3]
          simp only [if_neg h3]
          by_cases h4 : c = '"'
          · simp only [if_pos h4]
            exact parseString_enough _ _ _ (by omega) (by omega)
          simp only [if_neg h4]
          by_cases h5 : c = '-'
          · simp only [if_pos h5]
          simp only [if_neg h5]
          by_cases h6 : isDigit c = true
          · simp only [if_pos h6]
          simp only [if_neg h6]
          have hs := skipSpace_length rs
          by_cases h7 : c = '['
          · simp only [if_pos h7]
            by_cases hd : maxNestingDepth ≤ d
            · simp only [if_pos hd]
            simp only [if_neg hd]
            cases hsk : skipSpace rs with
            | nil => rfl
            | cons x r2 =>
              rw [hsk] at hs
              simp only [List.length_cons] at hs
              simp only []
              by_cases hx : x = ']'
              · simp only [if_pos hx]
              simp only [if_neg hx]
              rw [ihv f2 (d + 1) (x :: r2) (by simp only [List.length_cons]; omega)
                (by simp only [List.length_cons]; omega)]
              cases hv : parseValue f2 (d + 1) (x :: r2) with
              | error e => rfl
              | ok p =>
                obtain ⟨v1, r3⟩ := p
                simp only []
                have a1 := (parse_length f2).1 _ _ _ _ hv
                simp only [List.length_cons] at a1
                exact ihe f2 _ _ _ (by omega) (by omega)
          simp only [if_neg h7]
          by_cases h8 : c = '\x7b'
          · simp only [if_pos h8]
            by_cases hd : maxNestingDepth ≤ d
            · simp only [if_pos hd]
            simp only [if_neg hd]
            cases hsk : skipSpace rs with
            | nil => rfl
            | cons x r2 =>
              rw [hsk] at hs
              simp only [List.length_cons] at hs
              simp only []
              by_cases hx : x = '\x7d'
              · simp only [if_pos hx]
              simp only [if_neg hx]
              exact ihm f2 _ _ _ (by simp only [List.length_cons]; omega)
                (by simp only [List.length_cons]; omega)
          simp only [if_neg h8]
    · intro fuel2 d acc cs hf hf2
      cases fuel2 with
      | zero => exact absurd hf2 (Nat.not_lt_zero _)
      | succ f2 =>
        rw [parseElems_succ, parseElems_succ]
        have hs := skipSpace_length cs
        cases hsk : skipSpace cs with
        | nil => rfl
        | cons c r =>
          rw [hsk] at hs
          simp only [List.length_cons] at hs
          simp only []
          by_cases h1 : c = ']'
          · simp only [if_pos h1]
          simp only [if_neg h1]
          by_cases h2 : c = ','
          · simp only [if_pos h2]
            have a3 := skipSpace_length r
            rw [ihv f2 d (skipSpace r) (by omega) (by omega)]
            cases hv : parseValue f2 d (skipSpace r) with
            | error e => rfl
            | ok p =>
              obtain ⟨v1, r3⟩ := p
              simp only []
              have a1 := (parse_length f2).1 _ _ _ _ hv
              exact ihe f2 _ _ _ (by omega) (by omega)
          simp only [if_neg h2]
    · intro fuel2 d acc cs hf hf2
      cases fuel2 with
      | zero => exact absurd hf2 (Nat.not_lt_zero _)
      | succ f2 =>
        cases cs with
        | nil => rw [parseMember, parseMember]
        | cons q rs =>
          simp only [List.length_cons] at hf hf2
          rw [parseMember, parseMember]
          by_cases h1 : q = '"'
          · simp only [if_pos h1]
            rw [scanString_enough f f2 [] rs (by omega) (by omega)]
            cases hss : scanString f2 [] rs with
            | error e => rfl
            | ok p =>
              obtain ⟨key, r2⟩ := p
              simp only []
              have a1 := scanString_length _ _ _ _ _ hss
              have hs := skipSpace_length r2
              cases hsk : skipSpace r2 with
              | nil => rfl
              | cons c r3 =>
                rw [hsk] at hs
                simp only [List.length_cons] at hs
                simp only []
                by_cases h2 : c = ':'
                · simp only [if_pos h2]
                  have a3 := skipSpace_length r3
                  rw [ihv f2 d (skipSpace r3) (by omega) (by omega)]
                  cases hv : parseValue f2 d (skipSpace r3) with
                  | error e => rfl
                  | ok p2 =>
                    obtain ⟨v1, r4⟩ := p2
                    simp only []
                    have a2 := (parse_length f2).1 _ _ _ _ hv
                    have hs2 := skipSpace_length r4
                    cases hsk2 : skipSpace r4 with
                    | nil => rfl
                    | cons x r5 =>
                      rw [hsk2] at hs2
                      simp only [List.length_cons] at hs2
                      simp only []
                      by_cases h3 : x = '\x7d'
                      · simp only [if_pos h3]
                      simp only [if_neg h3]
                      by_cases h4 : x = ','
                      · simp only [if_pos h4]
                        have a5 := skipSpace_length r5
                        exact ihm f2 _ _ _ (by omega) (by omega)
                      simp only [if_neg h4]
                simp only [if_neg h2]
          simp only [if_neg h1]

/-- The fuel `readValue` gives the parser is enough: any fuel beyond the
length of the body gives the result of `readValue`. -/
theorem readValue_fuel (body : String) (fuel : Nat) (h : body.data.length < fuel) :
    readValue body =
      match skipSpace body.data with
      | [] => .error "EOF"
      | c :: cs =>
        match parseValue fuel 0 (c :: cs) with
        | .ok (v, _) => .ok v
        | .error e => .error e := by
  unfold readValue
  have hs := skipSpace_length body.data
  cases hsk : skipSpace body.data with
  | nil => rfl
  | cons c cs =>
    rw [hsk] at hs
    simp only [List.length_cons] at hs
    simp only []
    rw [(parse_enough (cs.length + 2)).1 fuel 0 (c :: cs)
      (by simp only [List.length_cons]; omega) (by simp only [List.length_cons]; omega)]

/-! ## The JSON form of a family, written and read back -/

theorem parses_sliceJson (d : Nat) (hd : d < maxNestingDepth) (l : Option (List GoString)) :
    Parses d (sliceJson l) := by
  cases l with
  | none => exact parses_null d
  | some l =>
    apply parses_arr d _ hd
    intro e he
    obtain ⟨s, _, rfl⟩ := List.mem_map.mp he
    exact parses_str _ s

/-- The parser reads the JSON form of a family back. -/
theorem parses_toJson (f : Family) : Parses 0 f.toJson := by
  have h1 : (1 : Nat) < maxNestingDepth := by decide
  have h0 : (0 : Nat) < maxNestingDepth := by decide
  apply parses_obj 0 _ h0
  intro kv hkv
  simp only [List.mem_append, List.mem_cons, List.mem_singleton, omitempty] at hkv
  rcases hkv with (((((hkv | hkv | hkv) | hkv) | hkv) | hkv) | hkv)
  · subst hkv; exact parses_str _ _
  · subst hkv; exact parses_str _ _
  · simp at hkv
  · split_ifs at hkv
    · simp at hkv
    · simp only [List.mem_singleton] at hkv
      subst hkv; exact parses_str _ _
  · split_ifs at hkv
    · simp at hkv
    · simp only [List.mem_singleton] at hkv
      subst hkv; exact parses_sliceJson _ h1 _
  · split_ifs at hkv
    · simp at hkv
    · simp only [List.mem_singleton] at hkv
      subst hkv
      apply parses_obj 1 _ h1
      intro kv2 hkv2
      obtain ⟨e, _, rfl⟩ := List.mem_map.mp hkv2
      exact parses_sliceJson _ (by decide) _
  · split_ifs at hkv
    · simp at hkv
    · simp only [List.mem_singleton] at hkv
      subst hkv
      apply parses_obj 1 _ h1
      intro kv2 hkv2
      obtain ⟨e, _, rfl⟩ := List.mem_map.mp hkv2
      exact parses_str _ _

/-- The text `json.Marshal` writes for a family holds the JSON form of the
family, and nothing after it. -/
theorem readValue_Marshal (f : Family) : readValue (Marshal f) = .ok f.toJson.json :=
  readValue_render _ (parses_toJson f)

theorem jsonMembers_append (a b : List (GoString × Doc)) :
    jsonMembers (a ++ b) = jsonMembers a ++ jsonMembers b := by
  induction a with
  | nil => rfl
  | cons kv a ih =>
    obtain ⟨k, v⟩ := kv
    simp [jsonMembers, ih]

theorem jsonMembers_map {V : Type} (toJ : V → Doc) (l : List (GoString × V)) :
    jsonMembers (l.map (fun kv => (kv.1, toJ kv.2)))
      = l.map (fun kv => (text kv.1, (toJ kv.2).json)) := by
  induction l with
  | nil => rfl
  | cons kv l ih => simp [jsonMembers, ih]

theorem decodeStrings_str (l : List GoString) :
    decodeStrings (jsonElems (l.map Doc.str)) = .ok (l.map replaceInvalid) := by
  induction l with
  | nil => rfl
  | cons s l ih => simp [jsonElems, Doc.json, decodeStrings, decodeString, ih, replaceInvalid]

theorem decodeStringSlice_sliceJson (v : Option (List GoString)) :
    decodeStringSlice (sliceJson v).json = .ok (v.map (List.map replaceInvalid)) := by
  cases v with
  | none => rfl
  | some l => simp [sliceJson, Doc.json, decodeStringSlice, decodeStrings_str]

theorem GoMap.ext_entries {V : Type} (a b : GoMap V) (h : a.entries = b.entries) : a = b := by
  cases a; cases b; simp at h; simp [h]

/-- A key above all keys of a map is stored at the end. -/
theorem setEntry_last {V : Type} (k : GoString) (v : V) (l : List (GoString × V))
    (h : ∀ p ∈ l, p.1 < k) : setEntry k v l = l ++ [(k, v)] := by
  induction l with
  | nil => rfl
  | cons hd tl ih =>
    obtain ⟨k1, v1⟩ := hd
    have h1 : k1 < k := h (k1, v1) (List.mem_cons_self _ _)
    have h2 : ¬ k < k1 := fun hh => lt_asymm h1 hh
    have h3 : k ≠ k1 := fun hh => lt_irrefl k (hh ▸ h1)
    unfold setEntry
    rw [if_neg h2, if_neg h3, ih (fun p hp => h p (List.mem_cons_of_mem _ hp))]
    rfl

/-- The members of an object written for a map are stored one by one, each
under the bytes of its key as the decoder reads it. -/
theorem decodeEntries_members {V W : Type} (elem : Json → Except String W) (toJ : V → Doc)
    (val : V → W) (helem : ∀ v, elem (toJ v).json = .ok (val v)) (post : List (GoString × V)) :
    ∀ (m : GoMap W),
      decodeEntries elem m (jsonMembers (post.map (fun kv => (kv.1, toJ kv.2))))
        = .ok (post.foldl (fun acc kv => acc.set (replaceInvalid kv.1) (val kv.2)) m) := by
  induction post with
  | nil => intro m; rfl
  | cons kv post ih =>
    intro m
    obtain ⟨k, v⟩ := kv
    simp only [List.map_cons, jsonMembers, decodeEntries, helem, List.foldl_cons]
    exact ih _

/-- A non-nil map, written as an object and read into a nil map field, comes
back as its entries stored one by one. -/
theorem decodeMap_members {V W : Type} (elem : Json → Except String W) (toJ : V → Doc)
    (val : V → W) (helem : ∀ v, elem (toJ v).json = .ok (val v)) (m : GoMap V) :
    decodeMap elem none (Doc.obj (m.entries.map (fun kv => (kv.1, toJ kv.2)))).json
      = .ok (some (m.restore replaceInvalid val)) := by
  simp only [Doc.json, decodeMap, Option.getD_none,
    decodeEntries_members elem toJ val helem m.entries GoMap.empty]
  rfl

/-- Entries stored one by one in key order, unchanged, rebuild the map. -/
theorem foldl_set_entries {V : Type} (key : GoString → GoString) (val : V → V)
    (post : List (GoString × V)) :
    ∀ (m : GoMap V), (m.entries ++ post).Pairwise (fun a b => a.1 < b.1) →
      (∀ kv ∈ post, key kv.1 = kv.1 ∧ val kv.2 = kv.2) →
      (post.foldl (fun acc kv => acc.set (key kv.1) (val kv.2)) m).entries
        = m.entries ++ post := by
  induction post with
  | nil => intro m _ _; simp
  | cons kv post ih =>
    intro m hm hid
    obtain ⟨k, v⟩ := kv
    obtain ⟨hk, hv⟩ := hid (k, v) (List.mem_cons_self _ _)
    simp only at hk hv
    have hlast : ∀ p ∈ m.entries, p.1 < k := by
      intro p hp
      exact (List.pairwise_append.mp hm).2.2 p hp (k, v) (List.mem_cons_self _ _)
    have hset : (m.set k v).entries = m.entries ++ [(k, v)] := setEntry_last k v _ hlast
    rw [List.foldl_cons, hk, hv, ih (m.set k v) (by rw [hset]; simpa using hm)
      (fun kv hkv => hid kv (List.mem_cons_of_mem _ hkv)), hset]
    simp

/-- A map whose keys and values the rewriting leaves alone rebuilds to itself. -/
theorem restore_eq_self {V : Type} (key : GoString → GoString) (val : V → V) (m : GoMap V)
    (hid : ∀ kv ∈ m.entries, key kv.1 = kv.1 ∧ val kv.2 = kv.2) : m.restore key val = m := by
  apply GoMap.ext_entries
  have := foldl_set_entries key val m.entries GoMap.empty
    (by simpa [GoMap.empty] using m.ordered) hid
  simpa [GoMap.restore, GoMap.empty] using this

theorem setFields_append (a b : List (String × Json)) :
    ∀ f : Family, Family.setFields f (a ++ b) =
      match Family.setFields f a with
      | .ok g => Family.setFields g b
      | .error err => .error err := by
  induction a with
  | nil => intro f; rfl
  | cons kv a ih =>
    intro f
    obtain ⟨k, v⟩ := kv
    simp only [List.cons_append, Family.setFields]
    cases h : f.setField k v with
    | error err => rfl
    | ok g => exact ih g

theorem setField_code (g : Family) (s : String) :
    g.setField "code" (.str s) = .ok { g with Code := bytes s } := by
  have h : matchesField "code" "code" = true := by decide
  simp [Family.setField, h, decodeString]

theorem setField_label (g : Family) (s : String) :
    g.setField "attribute_as_label" (.str s) = .ok { g with AttributeAsLabel := bytes s } := by
  have h1 : matchesField "attribute_as_label" "code" = false := by decide
  have h2 : matchesField "attribute_as_label" "attribute_as_label" = true := by decide
  simp [Family.setField, h1, h2, decodeString]

theorem setField_image (g : Family) (s : String) :
    g.setField "attribute_as_image" (.str s) = .ok { g with AttributeAsImage := bytes s } := by
  have h1 : matchesField "attribute_as_image" "code" = false := by decide
  have h2 : matchesField "attribute_as_image" "attribute_as_label" = false := by decide
  have h3 : matchesField "attribute_as_image" "attribute_as_image" = true := by decide
  simp [Family.setField, h1, h2, h3, decodeString]

theorem setField_attributes (g : Family) (v : Option (List GoString)) :
    g.setField "attributes" (sliceJson v).json
      = .ok { g with Attributes := v.map (List.map replaceInvalid) } := by
  have h1 : matchesField "attributes" "code" = false := by decide
  have h2 : matchesField "attributes" "attribute_as_label" = false := by decide
  have h3 : matchesField "attributes" "attribute_as_image" = false := by decide
  have h4 : matchesField "attributes" "attributes" = true := by decide
  simp [Family.setField, h1, h2, h3, h4, decodeStringSlice_sliceJson]

theorem setField_requirements (g : Family) (m : GoMap (Option (List GoString)))
    (hg : g.AttributeRequirements = none) :
    g.setField "attribute_requirements"
        (Doc.obj (m.entries.map (fun kv => (kv.1, sliceJson kv.2)))).json
      = .ok { g with AttributeRequirements := (some
          (m.restore replaceInvalid (Option.map (List.map replaceInvalid)))) } := by
  have h1 : matchesField "attribute_requirements" "code" = false := by decide
  have h2 : matchesField "attribute_requirements" "attribute_as_label" = false := by decide
  have h3 : matchesField "attribute_requirements" "attribute_as_image" = false := by decide
  have h4 : matchesField "attribute_requirements" "attributes" = false := by decide
  have h5 : matchesField "attribute_requirements" "attribute_requirements" = true := by decide
  simp [Family.setField, h1, h2, h3, h4, h5, hg,
    decodeMap_members decodeStringSlice sliceJson (Option.map (List.map replaceInvalid))
      decodeStringSlice_sliceJson m]

theorem setField_labels (g : Family) (m : GoMap GoString) (hg : g.Labels = none) :
    g.setField "labels" (Doc.obj (m.entries.map (fun kv => (kv.1, Doc.str kv.2)))).json
      = .ok { g with Labels := some (m.restore replaceInvalid replaceInvalid) } := by
  have h1 : matchesField "labels" "code" = false := by decide
  have h2 : matchesField "labels" "attribute_as_label" = false := by decide
  have h3 : matchesField "labels" "attribute_as_image" = false := by decide
  have h4 : matchesField "labels" "attributes" = false := by decide
  have h5 : matchesField "labels" "attribute_requirements" = false := by decide
  have h6 : matchesField "labels" "labels" = true := by decide
  simp [Family.setField, h1, h2, h3, h4, h5, h6, hg,
    decodeMap_members (decodeString []) Doc.str replaceInvalid (fun _ => rfl) m]

/-- The members of one field of a family, as the decoder reads them. -/
theorem jsonMembers_omitempty (len : Nat) (name : String) (v : Doc)
    (hname : text (bytes name) = name) :
    jsonMembers (omitempty len name v) = if len = 0 then [] else [(name, v.json)] := by
  unfold omitempty
  split_ifs <;> simp [jsonMembers, hname]

/-- The JSON form of a family, decoded into the zero family, gives what the
wire makes of the family. -/
theorem decodeFamily_toJson (f : Family) : decodeFamily f.toJson.json = .ok f.wire := by
  obtain ⟨code, label, image, attrs, reqs, labels⟩ := f
  have n1 : text (bytes "code") = "code" := by decide
  have n2 : text (bytes "attribute_as_label") = "attribute_as_label" := by decide
  have n3 : text (bytes "attribute_as_image") = "attribute_as_image" := by decide
  have n4 : text (bytes "attributes") = "attributes" := by decide
  have n5 : text (bytes "attribute_requirements") = "attribute_requirements" := by decide
  have n6 : text (bytes "labels") = "labels" := by decide
  have e0 : jsonMembers [(bytes "code", .str code), (bytes "attribute_as_label", .str label)]
      = [("code", .str (text code)), ("attribute_as_label", .str (text label))] := by
    simp only [jsonMembers, Doc.json, n1, n2]
  simp only [Family.toJson, Doc.json, decodeFamily, jsonMembers_append,
    jsonMembers_omitempty _ _ _ n3, jsonMembers_omitempty _ _ _ n4,
    jsonMembers_omitempty _ _ _ n5, jsonMembers_omitempty _ _ _ n6, e0]
  rw [setFields_append, setFields_append, setFields_append, setFields_append]
  have s0 : Family.setFields Family.zero
      [("code", .str (text code)), ("attribute_as_label", .str (text label))]
      = .ok ⟨replaceInvalid code, replaceInvalid label, [], none, none, none⟩ := by
    simp [Family.setFields, setField_code, setField_label, Family.zero, replaceInvalid]
  have s1 : Family.setFields ⟨replaceInvalid code, replaceInvalid label, [], none, none, none⟩
      (if image.length = 0 then [] else [("attribute_as_image", .str (text image))])
      = .ok ⟨replaceInvalid code, replaceInvalid label, replaceInvalid image,
          none, none, none⟩ := by
    split_ifs with h
    · have : image = [] := List.length_eq_zero.mp h
      subst this
      rfl
    · simp [Family.setFields, setField_image, replaceInvalid]
  have s2 : ∀ c l i, Family.setFields ⟨c, l, i, none, none, none⟩
      (if sliceLen attrs = 0 then [] else [("attributes", (sliceJson attrs).json)])
      = .ok ⟨c, l, i,
          (if sliceLen attrs = 0 then none else attrs).map (List.map replaceInvalid),
          none, none⟩ := by
    intro c l i
    split_ifs with h
    · simp [Family.setFields]
    · simp [Family.setFields, setField_attributes]
  have s3 : ∀ c l i a, Family.setFields ⟨c, l, i, a, none, none⟩
      (if mapLen reqs = 0 then [] else [("attribute_requirements",
        (Doc.obj (((reqs.map GoMap.entries).getD []).map
          (fun kv => (kv.1, sliceJson kv.2)))).json)])
      = .ok ⟨c, l, i, a,
          (if mapLen reqs = 0 then none else reqs).map
            (GoMap.restore replaceInvalid (Option.map (List.map replaceInvalid))), none⟩ := by
    intro c l i a
    split_ifs with h
    · simp [Family.setFields]
    · cases reqs with
      | none => simp [mapLen] at h
      | some m => simp [Family.setFields, setField_requirements]
  have s4 : ∀ c l i a r, Family.setFields ⟨c, l, i, a, r, none⟩
      (if mapLen labels = 0 then [] else [("labels",
        (Doc.obj (((labels.map GoMap.entries).getD []).map
          (fun kv => (kv.1, Doc.str kv.2)))).json)])
      = .ok ⟨c, l, i, a, r,
          (if mapLen labels = 0 then none else labels).map
            (GoMap.restore replaceInvalid replaceInvalid)⟩ := by
    intro c l i a r
    split_ifs with h
    · simp [Family.setFields]
    · cases labels with
      | none => simp [mapLen] at h
      | some m => simp [Family.setFields, setField_labels]
  simp only [Doc.json] at s3 s4
  rw [s0]
  simp only []
  rw [s1]
  simp only []
  rw [s2]
  simp only []
  rw [s3]
  simp only []
  rw [s4]
  rfl

theorem decodePtr_obj {α : Type} (dec : Json → Except String α) (ms : List (String × Json)) :
    decodePtr dec (.obj ms) =
      match dec (.obj ms) with
      | .ok v => .ok (some v)
      | .error e => .error e := by
  simp [decodePtr]

/-- The text `json.Marshal` writes for a family, decoded as `Get` decodes a
response body, gives what the wire makes of the family. -/
theorem Decode_Marshal (f : Family) :
    Decode decodeFamily (Marshal f) = .ok (some f.wire) := by
  rw [Decode_eq _ _ _ (readValue_Marshal f)]
  have h := decodeFamily_toJson f
  unfold Family.toJson at h ⊢
  simp only [Doc.json] at h ⊢
  rw [decodePtr_obj, h]

/-- The wire leaves the strings of a family alone when they are valid UTF-8:
what it makes of the family is then what `omitempty` makes of it. -/
theorem wire_of_valid (f : Family) (h : f.ValidUTF8) : f.wire = f.omitEmpty := by
  obtain ⟨code, label, image, attrs, reqs, labels⟩ := f
  obtain ⟨h1, h2, h3, h4, h5, h6⟩ := h
  simp only at h1 h2 h3 h4 h5 h6
  have hlist : ∀ l : List GoString, (∀ a ∈ l, ValidString a) → l.map replaceInvalid = l := by
    intro l hl
    induction l with
    | nil => rfl
    | cons a l ih =>
      simp only [List.map_cons]
      rw [replaceInvalid_of_valid a (hl a (List.mem_cons_self _ _)),
        ih (fun x hx => hl x (List.mem_cons_of_mem _ hx))]
  have hslice : ∀ v : Option (List GoString), (∀ a ∈ v.getD [], ValidString a) →
      v.map (List.map replaceInvalid) = v := by
    intro v hv
    cases v with
    | none => rfl
    | some l => simp only [Option.map_some', hlist l hv]
  have e4 : (Family.omitEmpty ⟨code, label, image, attrs, reqs, labels⟩).Attributes.map
      (List.map replaceInvalid)
      = (Family.omitEmpty ⟨code, label, image, attrs, reqs, labels⟩).Attributes := by
    apply hslice
    simp only [Family.omitEmpty]
    split_ifs
    · simp
    · exact h4
  have e5 : (Family.omitEmpty ⟨code, label, image, attrs, reqs, labels⟩).AttributeRequirements.map
      (GoMap.restore replaceInvalid (Option.map (List.map replaceInvalid)))
      = (Family.omitEmpty ⟨code, label, image, attrs, reqs, labels⟩).AttributeRequirements := by
    simp only [Family.omitEmpty]
    split_ifs
    · rfl
    · cases reqs with
      | none => rfl
      | some m =>
        simp only [Option.map_some']
        rw [restore_eq_self]
        intro kv hkv
        have := h5 kv (by simpa using hkv)
        exact ⟨replaceInvalid_of_valid _ this.1, hslice _ this.2⟩
  have e6 : (Family.omitEmpty ⟨code, label, image, attrs, reqs, labels⟩).Labels.map
      (GoMap.restore replaceInvalid replaceInvalid)
      = (Family.omitEmpty ⟨code, label, image, attrs, reqs, labels⟩).Labels := by
    simp only [Family.omitEmpty]
    split_ifs
    · rfl
    · cases labels with
      | none => rfl
      | some m =>
        simp only [Option.map_some']
        rw [restore_eq_self]
        intro kv hkv
        have := h6 kv (by simpa using hkv)
        exact ⟨replaceInvalid_of_valid _ this.1, replaceInvalid_of_valid _ this.2⟩
  unfold Family.wire
  rw [e4, e5, e6]
  simp only [replaceInvalid_of_valid _ h1, replaceInvalid_of_valid _ h2,
    replaceInvalid_of_valid _ h3]
  rfl

/-! ## The batch body and the round trip -/

theorem hexDigit_ne_newline : ∀ k, k < 16 → hexDigit k ≠ '\n' := by
  decide

theorem newline_not_in_escapeChar (c : Char) : '\n' ∉ escapeChar c := by
  unfold escapeChar
  split_ifs with h1 h2 h3 h4 h5 h6 h7 h8
  · rcases h1 with h1 | h1 <;> subst h1 <;> decide
  · decide
  · decide
  · decide
  · decide
  · decide
  · have hn : c.toNat < 64 := by
      rcases h7 with h | h | h | h
      · omega
      · subst h; decide
      · subst h; decide
      · subst h; decide
    have ha := hexDigit_ne_newline (c.toNat / 16) (by omega)
    have hb := hexDigit_ne_newline (c.toNat % 16) (by omega)
    simp only [List.mem_cons, List.mem_singleton, List.not_mem_nil, or_false, not_or]
    exact ⟨by decide, by decide, by decide, by decide, fun h => ha h.symm, fun h => hb h.symm⟩
  · have hb := hexDigit_ne_newline (c.toNat % 16) (by omega)
    simp only [List.mem_cons, List.mem_singleton, List.not_mem_nil, or_false, not_or]
    exact ⟨by decide, by decide, by decide, by decide, by decide, fun h => hb h.symm⟩
  · simp only [List.mem_singleton]
    exact fun h => h4 h.symm

theorem newline_not_in_quote (s : GoString) : '\n' ∉ quote s := by
  have h : ∀ rs : List (Option Char), '\n' ∉ escapeRunes rs := by
    intro rs
    induction rs with
    | nil => simp [escapeRunes]
    | cons r rs ih =>
      simp only [escapeRunes, List.mem_append, not_or]
      refine ⟨?_, ih⟩
      cases r with
      | none => decide
      | some c => exact newline_not_in_escapeChar c
  unfold quote
  simp only [List.mem_cons, List.mem_append, List.mem_singleton, List.not_mem_nil, or_false,
    not_or]
  exact ⟨by decide, h _, by decide⟩

theorem newline_not_in_arr (es : List Doc) (h : ∀ e ∈ es, '\n' ∉ render e) :
    '\n' ∉ render (.arr es) := by
  have hmore : ∀ l : List Doc, (∀ e ∈ l, '\n' ∉ render e) → '\n' ∉ renderMoreElems l := by
    intro l
    induction l with
    | nil => intro _; simp [renderMoreElems]
    | cons e l ih =>
      intro hl
      simp only [renderMoreElems, List.mem_cons, List.mem_append, not_or]
      exact ⟨by decide, hl e (List.mem_cons_self _ _),
        ih (fun x hx => hl x (List.mem_cons_of_mem _ hx))⟩
  cases es with
  | nil => simp [render, renderElems]
  | cons e es =>
    simp only [render, renderElems, List.mem_cons, List.mem_append, List.mem_singleton,
      List.not_mem_nil, or_false, not_or]
    exact ⟨by decide, ⟨h e (List.mem_cons_self _ _),
      hmore es (fun x hx => h x (List.mem_cons_of_mem _ hx))⟩, by decide⟩

theorem newline_not_in_obj (ms : List (GoString × Doc)) (h : ∀ kv ∈ ms, '\n' ∉ render kv.2) :
    '\n' ∉ render (.obj ms) := by
  have hmore : ∀ l : List (GoString × Doc), (∀ kv ∈ l, '\n' ∉ render kv.2) →
      '\n' ∉ renderMoreMembers l := by
    intro l
    induction l with
    | nil => intro _; simp [renderMoreMembers]
    | cons kv l ih =>
      intro hl
      obtain ⟨k, v⟩ := kv
      simp only [renderMoreMembers, List.mem_cons, List.mem_append, not_or]
      exact ⟨by decide, newline_not_in_quote k, by decide, hl (k, v) (List.mem_cons_self _ _),
        ih (fun x hx => hl x (List.mem_cons_of_mem _ hx))⟩
  cases ms with
  | nil => simp [render, renderMembers]
  | cons kv ms =>
    obtain ⟨k, v⟩ := kv
    simp only [render, renderMembers, List.mem_cons, List.mem_append, List.mem_singleton,
      List.not_mem_nil, or_false, not_or]
    exact ⟨by decide, ⟨newline_not_in_quote k, by decide, h (k, v) (List.mem_cons_self _ _),
      hmore ms (fun x hx => h x (List.mem_cons_of_mem _ hx))⟩, by decide⟩

theorem newline_not_in_sliceJson (l : Option (List GoString)) :
    '\n' ∉ render (sliceJson l) := by
  cases l with
  | none => simp [sliceJson, render]
  | some l =>
    apply newline_not_in_arr
    intro e he
    obtain ⟨s, _, rfl⟩ := List.mem_map.mp he
    exact newline_not_in_quote s

/-- The text `json.Marshal` writes for a family holds no newline. -/
theorem newline_not_in_Marshal (f : Family) : '\n' ∉ (Marshal f).data := by
  show '\n' ∉ render f.toJson
  apply newline_not_in_obj
  intro kv hkv
  simp only [List.mem_append, List.mem_cons, List.mem_singleton, omitempty] at hkv
  rcases hkv with (((((hkv | hkv | hkv) | hkv) | hkv) | hkv) | hkv)
  · subst hkv; exact newline_not_in_quote _
  · subst hkv; exact newline_not_in_quote _
  · simp at hkv
  · split_ifs at hkv
    · simp at hkv
    · simp only [List.mem_singleton] at hkv
      subst hkv; exact newline_not_in_quote _
  · split_ifs at hkv
    · simp at hkv
    · simp only [List.mem_singleton] at hkv
      subst hkv; exact newline_not_in_sliceJson _
  · split_ifs at hkv
    · simp at hkv
    · simp only [List.mem_singleton] at hkv
      subst hkv
      apply newline_not_in_obj
      intro kv2 hkv2
      obtain ⟨e, _, rfl⟩ := List.mem_map.mp hkv2
      exact newline_not_in_sliceJson _
  · split_ifs at hkv
    · simp at hkv
    · simp only [List.mem_singleton] at hkv
      subst hkv
      apply newline_not_in_obj
      intro kv2 hkv2
      obtain ⟨e, _, rfl⟩ := List.mem_map.mp hkv2
      exact newline_not_in_quote _

/-- The body of a batch, character by character: the lines of the entities in
order, each with its newline. -/
theorem batchBody_data (families : List Family) :
    (batchBody families).data
      = (families.map (fun f => (Marshal f).data ++ ['\n'])).flatten := by
  have h : ∀ (fs : List Family) (acc : String),
      (fs.foldl (fun body bodyItem => body ++ Marshal bodyItem ++ "\n") acc).data
        = acc.data ++ (fs.map (fun f => (Marshal f).data ++ ['\n'])).flatten := by
    intro fs
    induction fs with
    | nil => intro acc; simp
    | cons f fs ih =>
      intro acc
      rw [List.foldl_cons, ih]
      simp [String.data_append]
  have := h families ""
  simpa [batchBody] using this

/-- A line without a newline, followed by a newline, is split off as a line. -/
theorem splitLines_line (l : List Char) :
    ∀ (cur rest : List Char), '\n' ∉ l →
      splitLines cur (l ++ '\n' :: rest) = (cur ++ l) :: splitLines [] rest := by
  induction l with
  | nil => intro cur rest _; simp [splitLines]
  | cons c l ih =>
    intro cur rest h
    have hc : c ≠ '\n' := fun hh => h (by simp [hh])
    have hl : '\n' ∉ l := fun hh => h (List.mem_cons_of_mem _ hh)
    rw [List.cons_append, splitLines, if_neg hc, ih _ _ hl]
    simp

theorem lines_of_flatten (families : List Family) :
    splitLines [] (families.map (fun f => (Marshal f).data ++ ['\n'])).flatten
        = families.map (fun f => (Marshal f).data) ∧
      (families.map (fun f => (Marshal f).data ++ ['\n'])).flatten.count '\n'
        = families.length := by
  induction families with
  | nil => simp [splitLines]
  | cons f fs ih =>
    obtain ⟨ih1, ih2⟩ := ih
    have hn := newline_not_in_Marshal f
    constructor
    · simp only [List.map_cons, List.flatten_cons, List.append_assoc, List.singleton_append]
      rw [splitLines_line _ _ _ hn, ih1]
      simp
    · simp only [List.map_cons, List.flatten_cons, List.count_append, ih2,
        List.count_eq_zero.mpr hn]
      simp
      omega

/-- C6: the request body of `BatchUpsert` is the concatenation, in submission
order, of the JSON of each entity followed by one newline.  It holds exactly
as many newlines as there are entities; its lines are the JSON texts of the
entities, in order; each such text holds no newline, is a single JSON object
with nothing after it, and decodes to the entity as the wire leaves it (up to
`omitempty` when the strings of the entity are valid UTF-8); the body does not
open with a bracket; and the empty batch gives the empty body. -/
theorem batch_body_is_ndjson {H B : Type} (c : Client H) (dec : Json → Except String B)
    (families : List Family) :
    (BatchUpsert c dec families).sent.map Request.body = [batchBody families] ∧
      (batchBody families).data
        = (families.map (fun f => (Marshal f).data ++ ['\n'])).flatten ∧
      (batchBody families).data.count '\n' = families.length ∧
      rawLines (batchBody families) = families.map (fun f => (Marshal f).data) ∧
      (∀ f ∈ families, '\n' ∉ (Marshal f).data ∧
        (∃ ms, parseValue ((Marshal f).data.length + 1) 0 (Marshal f).data = .ok (.obj ms, [])) ∧
        Decode decodeFamily (Marshal f) = .ok (some f.wire) ∧
        (f.ValidUTF8 → Decode decodeFamily (Marshal f) = .ok (some f.omitEmpty))) ∧
      (batchBody families).data.head? ≠ some '[' ∧
      batchBody [] = "" := by
  refine ⟨by simp [BatchUpsert_sent], batchBody_data families, ?_, ?_, ?_, ?_, rfl⟩
  · rw [batchBody_data]
    exact (lines_of_flatten families).2
  · rw [rawLines, batchBody_data]
    exact (lines_of_flatten families).1
  · intro f _
    obtain ⟨ms, hms⟩ : ∃ ms, f.toJson = .obj ms := ⟨_, rfl⟩
    refine ⟨newline_not_in_Marshal f, ⟨jsonMembers ms, ?_⟩, Decode_Marshal f,
      fun hv => by rw [Decode_Marshal, wire_of_valid f hv]⟩
    have h := (parses_toJson f).2 ((Marshal f).data.length + 1) []
      (by simp [Marshal])
    rw [List.append_nil] at h
    have hj : f.toJson.json = .obj (jsonMembers ms) := by rw [hms]; rfl
    rw [← hj, ← h]
    rfl
  · rw [batchBody_data]
    cases families with
    | nil => simp
    | cons f fs =>
      simp [Marshal, Family.toJson, render]

/-- The JSON that `Create` and `Upsert` send for a family. -/
theorem sent_bodies {H : Type} (c : Client H) (f : Family) :
    (Create c f).sent.map Request.body = [Marshal f] ∧
      (Upsert c f).sent.map Request.body = [Marshal f] := by
  simp [Create_sent, Upsert_sent]

/-- The entries of a map rebuilt through the wire: the entries of the map
stored one by one, in key order, each under its rewritten key. -/
theorem restore_entries {V W : Type} (key : GoString → GoString) (val : V → W) (m : GoMap V) :
    (m.restore key val).entries
      = m.entries.foldl (fun acc kv => setEntry (key kv.1) (val kv.2) acc) [] := by
  have h : ∀ (post : List (GoString × V)) (acc : GoMap W),
      (post.foldl (fun acc kv => acc.set (key kv.1) (val kv.2)) acc).entries
        = post.foldl (fun acc kv => setEntry (key kv.1) (val kv.2) acc) acc.entries := by
    intro post
    induction post with
    | nil => intro acc; rfl
    | cons kv post ih =>
      intro acc
      rw [List.foldl_cons, List.foldl_cons, ih]
      rfl
  exact h m.entries GoMap.empty

/-- C7 as stated fails: for a family whose `attributes` is empty but not nil,
the document `Create` sends, answered back to `Get`, yields a family whose
`attributes` is nil, which is not the family sent. -/
theorem round_trip_loses_empty_slice :
    (Create (answering nullBody) emptyAttributes).sent.map Request.body
        = [Marshal emptyAttributes] ∧
      (Get (answering (okBody (Marshal emptyAttributes))) (bytes "shoes")).ret
        = (some { emptyAttributes with Attributes := none }, none) ∧
      ({ emptyAttributes with Attributes := none } : Family) ≠ emptyAttributes := by
  decide

/-- A second way in which the round trip of C7 loses something: a family whose
code is the single byte `ff`, which is not valid UTF-8, is sent with the
escape `\ufffd` for its code and comes back with the three bytes of U+FFFD
as its code. -/
theorem round_trip_replaces_invalid_byte :
    Marshal invalidCode
        = "\x7b\"code\":\"\\ufffd\",\"attribute_as_label\":\"name\"\x7d" ∧
      (Get (answering (okBody (Marshal invalidCode))) (bytes "shoes")).ret
        = (some { invalidCode with Code := [0xef, 0xbf, 0xbd] }, none) ∧
      ({ invalidCode with Code := [0xef, 0xbf, 0xbd] } : Family) ≠ invalidCode := by
  decide

/-- C7, amended: the JSON document that `Create` and `Upsert` send for a family
`f`, decoded the way `Get` decodes a successful response, yields what the wire
makes of `f`: the code, label attribute and image attribute of `f` and the
elements of its `attributes`, with every byte that starts no valid UTF-8
encoding replaced by U+FFFD; the entries of its `attribute_requirements` and
`labels`, keys and values rewritten in the same way and stored one by one;
and nil for each of `attributes`, `attribute_requirements` and `labels` that
is empty, which `omitempty` leaves out of the document.  When the strings of
`f` are valid UTF-8 nothing is replaced and `f` comes back up to `omitempty`;
when moreover none of the three is empty without being nil, `f` itself comes
back. -/
theorem round_trip_up_to_omitempty {H : Type} (c : Client H) (f : Family) (code : GoString)
    (resp : Response) (hstatus : resp.StatusCode < 300)
    (hans : (Get c code).answers c = [.ok resp])
    (hbody : (Create c f).sent.map Request.body = [resp.Body]) :
    (Upsert c f).sent.map Request.body = [resp.Body] ∧
      (Get c code).ret = (some f.wire, none) ∧
      f.wire.Code = replaceInvalid f.Code ∧
      f.wire.AttributeAsLabel = replaceInvalid f.AttributeAsLabel ∧
      f.wire.AttributeAsImage = replaceInvalid f.AttributeAsImage ∧
      f.wire.Attributes.getD [] = (f.Attributes.getD []).map replaceInvalid ∧
      (f.wire.AttributeRequirements.map GoMap.entries).getD []
        = ((f.AttributeRequirements.map GoMap.entries).getD []).foldl
            (fun acc kv =>
              setEntry (replaceInvalid kv.1) (kv.2.map (List.map replaceInvalid)) acc) [] ∧
      (f.wire.Labels.map GoMap.entries).getD []
        = ((f.Labels.map GoMap.entries).getD []).foldl
            (fun acc kv => setEntry (replaceInvalid kv.1) (replaceInvalid kv.2) acc) [] ∧
      (f.wire.Attributes = none ↔ sliceLen f.Attributes = 0) ∧
      (f.wire.AttributeRequirements = none ↔ mapLen f.AttributeRequirements = 0) ∧
      (f.wire.Labels = none ↔ mapLen f.Labels = 0) ∧
      (f.ValidUTF8 →
        (Get c code).ret = (some f.omitEmpty, none) ∧
        f.omitEmpty.Code = f.Code ∧
        f.omitEmpty.AttributeAsLabel = f.AttributeAsLabel ∧
        f.omitEmpty.AttributeAsImage = f.AttributeAsImage ∧
        f.omitEmpty.Attributes.getD [] = f.Attributes.getD [] ∧
        (f.omitEmpty.AttributeRequirements.map GoMap.entries).getD []
          = (f.AttributeRequirements.map GoMap.entries).getD [] ∧
        (f.omitEmpty.Labels.map GoMap.entries).getD []
          = (f.Labels.map GoMap.entries).getD [] ∧
        (f.Attributes ≠ some [] → f.AttributeRequirements ≠ some GoMap.empty →
          f.Labels ≠ some GoMap.empty →
          f.omitEmpty = f ∧ (Get c code).ret = (some f, none))) := by
  have hb : resp.Body = Marshal f := by
    have := (sent_bodies c f).1
    rw [this] at hbody
    exact (List.cons.inj hbody).1.symm
  have hs : ¬ resp.StatusCode ≥ 300 := not_le.mpr hstatus
  have hret : (Get c code).ret = (some f.wire, none) := by
    rw [Get_answer c code _ hans]
    simp only [hs, if_false, hb, Decode_Marshal]
  obtain ⟨code0, label, image, attrs, reqs, labels⟩ := f
  refine ⟨by rw [(sent_bodies c _).2, hb], hret, rfl, rfl, rfl, ?_, ?_, ?_, ?_, ?_, ?_, ?_⟩
  · cases attrs with
    | none => rfl
    | some l => cases l <;> simp [Family.wire, Family.omitEmpty, sliceLen]
  · cases reqs with
    | none => rfl
    | some m =>
      obtain ⟨es, hes⟩ := m
      cases es with
      | nil => simp [Family.wire, Family.omitEmpty, mapLen]
      | cons e es =>
        simp only [Family.wire, Family.omitEmpty, mapLen, List.length_cons, Nat.succ_ne_zero,
          if_false, Option.map_some', Option.getD_some, restore_entries]
  · cases labels with
    | none => rfl
    | some m =>
      obtain ⟨es, hes⟩ := m
      cases es with
      | nil => simp [Family.wire, Family.omitEmpty, mapLen]
      | cons e es =>
        simp only [Family.wire, Family.omitEmpty, mapLen, List.length_cons, Nat.succ_ne_zero,
          if_false, Option.map_some', Option.getD_some, restore_entries]
  · cases attrs with
    | none => simp [Family.wire, Family.omitEmpty, sliceLen]
    | some l => cases l <;> simp [Family.wire, Family.omitEmpty, sliceLen]
  · cases reqs with
    | none => simp [Family.wire, Family.omitEmpty, mapLen]
    | some m =>
      obtain ⟨es, hes⟩ := m
      cases es <;> simp [Family.wire, Family.omitEmpty, mapLen]
  · cases labels with
    | none => simp [Family.wire, Family.omitEmpty, mapLen]
    | some m =>
      obtain ⟨es, hes⟩ := m
      cases es <;> simp [Family.wire, Family.omitEmpty, mapLen]
  · intro hv
    have hw := wire_of_valid _ hv
    refine ⟨by rw [hret, hw], rfl, rfl, rfl, ?_, ?_, ?_, ?_⟩
    · cases attrs with
      | none => rfl
      | some l => cases l <;> simp [Family.omitEmpty, sliceLen]
    · cases reqs with
      | none => rfl
      | some m =>
        obtain ⟨es, hes⟩ := m
        cases es <;> simp [Family.omitEmpty, mapLen]
    · cases labels with
      | none => rfl
      | some m =>
        obtain ⟨es, hes⟩ := m
        cases es <;> simp [Family.omitEmpty, mapLen]
    · intro h1 h2 h3
      have e1 : (if sliceLen attrs = 0 then none else attrs) = attrs := by
        cases attrs with
        | none => simp
        | some l =>
          cases l with
          | nil => exact absurd rfl h1
          | cons a l => simp [sliceLen]
      have e2 : (if mapLen reqs = 0 then none else reqs) = reqs := by
        cases reqs with
        | none => simp
        | some m =>
          obtain ⟨es, hes⟩ := m
          cases es with
          | nil => exact absurd rfl h2
          | cons a l => simp [mapLen]
      have e3 : (if mapLen labels = 0 then none else labels) = labels := by
        cases labels with
        | none => simp
        | some m =>
          obtain ⟨es, hes⟩ := m
          cases es with
          | nil => exact absurd rfl h3
          | cons a l => simp [mapLen]
      have he : Family.omitEmpty ⟨code0, label, image, attrs, reqs, labels⟩
          = ⟨code0, label, image, attrs, reqs, labels⟩ := by
        simp only [Family.omitEmpty, e1, e2, e3]
      exact ⟨he, by rw [hret, hw, he]⟩

/-- The amended C7 on a family with every field set, all of them valid UTF-8:
it comes back as it is. -/
theorem round_trip_up_to_omitempty_scenario :
    (okBody (Marshal shoes)).StatusCode < 300 ∧ shoes.ValidUTF8 ∧
      (Get (answering (okBody (Marshal shoes))) (bytes "shoes")).ret = (some shoes, none) :=
  ⟨by decide, by decide,
    (((round_trip_up_to_omitempty (answering (okBody (Marshal shoes))) shoes (bytes "shoes")
      (okBody (Marshal shoes)) (by decide) (by simp [Call.answers, Get_sent, answering])
      (by simp [Create_sent, okBody])).2.2.2.2.2.2.2.2.2.2.2 (by decide)).2.2.2.2.2.2.2
      (by decide) (by decide) (by decide)).2⟩

/-! ## When `Get` and `GetAll` return neither a result nor an error -/

theorem decodePtr_cases {α : Type} (dec : Json → Except String α) (doc : Json) :
    (doc = .null ∧ decodePtr dec doc = .ok none) ∨
      (doc ≠ .null ∧ decodePtr dec doc =
        match dec doc with
        | .ok v => .ok (some v)
        | .error e => .error e) := by
  cases doc <;> simp [decodePtr]

/-- `Get` never returns a family together with an error; it returns neither
exactly when the status is below 300 and the first document of the body is
`null`. -/
theorem Get_result_and_error {H : Type} (c : Client H) (code : GoString) :
    ((Get c code).ret.1 ≠ none → (Get c code).ret.2 = none) ∧
      ((Get c code).ret = (none, none) ↔
        ∃ resp, (Get c code).answers c = [.ok resp] ∧ resp.StatusCode < 300 ∧
          readValue resp.Body = .ok .null) := by
  have hans := answers_singleton (Get c code) c _ (Get_sent c code)
  rw [Get_answer c code _ hans, hans]
  cases hout : c.DoRequest ⟨"GET", bytes "families/" ++ code, c.getHeadersForRequest, "", none⟩ with
  | error err => simp
  | ok resp =>
    have hresp : ∀ (P : Response → Prop),
        (∃ r, [Except.ok (ε := String) resp] = [.ok r] ∧ P r) ↔ P resp := by
      intro P
      constructor
      · rintro ⟨r, h1, h2⟩
        simp only [List.cons.injEq, Except.ok.injEq, and_true] at h1
        subst h1
        exact h2
      · intro h
        exact ⟨resp, rfl, h⟩
    rw [hresp (fun r => r.StatusCode < 300 ∧ readValue r.Body = .ok .null)]
    by_cases hs : resp.StatusCode ≥ 300
    · have hs2 : ¬ resp.StatusCode < 300 := not_lt.mpr hs
      simp [hs, hs2]
    · have hs2 : resp.StatusCode < 300 := not_le.mp hs
      simp only [hs, if_false, hs2, true_and]
      unfold Decode
      cases hr : readValue resp.Body with
      | error e => simp
      | ok doc =>
        simp only []
        rcases decodePtr_cases decodeFamily doc with ⟨h1, h2⟩ | ⟨h1, h2⟩
        · rw [h2]
          simp [h1]
        · rw [h2]
          cases hd : decodeFamily doc with
          | error e => simp [h1]
          | ok v => simp [h1]

/-- `GetAll` never returns a response together with an error; it returns
neither exactly when the status is below 300 and the first document of the
body is `null`. -/
theorem GetAll_result_and_error {H FR : Type} (c : Client H) (dec : Json → Except String FR)
    (opts : RequestOpts) :
    ((GetAll c dec opts).ret.1 ≠ none → (GetAll c dec opts).ret.2 = none) ∧
      ((GetAll c dec opts).ret = (none, none) ↔
        ∃ resp, (GetAll c dec opts).answers c = [.ok resp] ∧ resp.StatusCode < 300 ∧
          readValue resp.Body = .ok .null) := by
  have hans := answers_singleton (GetAll c dec opts) c _ (GetAll_sent c dec opts)
  rw [GetAll_answer c dec opts _ hans, hans]
  cases hout : c.DoRequest ⟨"GET", bytes "families", c.getHeadersForRequest, "",
      some (queryParams opts)⟩ with
  | error err => simp
  | ok resp =>
    have hresp : ∀ (P : Response → Prop),
        (∃ r, [Except.ok (ε := String) resp] = [.ok r] ∧ P r) ↔ P resp := by
      intro P
      constructor
      · rintro ⟨r, h1, h2⟩
        simp only [List.cons.injEq, Except.ok.injEq, and_true] at h1
        subst h1
        exact h2
      · intro h
        exact ⟨resp, rfl, h⟩
    rw [hresp (fun r => r.StatusCode < 300 ∧ readValue r.Body = .ok .null)]
    by_cases hs : resp.StatusCode ≥ 300
    · have hs2 : ¬ resp.StatusCode < 300 := not_lt.mpr hs
      simp [hs, hs2]
    · have hs2 : resp.StatusCode < 300 := not_le.mp hs
      simp only [hs, if_false, hs2, true_and]
      unfold Decode
      cases hr : readValue resp.Body with
      | error e => simp
      | ok doc =>
        simp only []
        rcases decodePtr_cases dec doc with ⟨h1, h2⟩ | ⟨h1, h2⟩
        · rw [h2]
          simp [h1]
        · rw [h2]
          cases hd : dec doc with
          | error e => simp [h1]
          | ok v => simp [h1]

/-! ## A decode failure that is not reported -/

theorem cutLine_fails {B : Type} (dec : Json → Except String B) :
    Decode dec cutLine = .error "unexpected EOF" := by
  have h : readValue cutLine = .error "unexpected EOF" := rfl
  unfold Decode
  rw [h]

/-- C8, at the failing input: a response with status 200 whose body is a line of
65536 bytes followed by the line `cutLine`, the start of an object.  The
second line is no JSON document: decoding it fails whatever the decoder of
`ResponseBody` is, and a response that holds this line alone gives the
message-only `ApiError` of C8.  Behind the long line it is never reached: the
scanner stops at the long line, its error is never read, and `BatchUpsert`
returns no result and no `ApiError` although the response fails to decode. -/
theorem undecodable_line_unreported {B : Type} (dec : Json → Except String B)
    (families : List Family) :
    rawLines (longLine ++ "\n" ++ cutLine) = [longLine.data, cutLine.data] ∧
      Decode dec cutLine = .error "unexpected EOF" ∧
      (BatchUpsert (answering (okBody cutLine)) dec families).ret
        = (none, some ⟨0, "", "unexpected EOF"⟩) ∧
      (BatchUpsert (answering (okBody (longLine ++ "\n" ++ cutLine))) dec families).ret
        = (none, none) := by
  refine ⟨?_, cutLine_fails dec, ?_, ?_⟩
  · have h : (longLine ++ "\n" ++ cutLine).data
        = ('\x7b' :: '\x7d' :: List.replicate 65534 ' ') ++ '\n' :: cutLine.data := by
      rw [String.data_append, String.data_append]
      show ('\x7b' :: '\x7d' :: List.replicate 65534 ' ') ++ ['\n'] ++ cutLine.data = _
      rw [List.append_assoc]
      rfl
    rw [rawLines, h, splitLines_line _ _ _ longLine_no_newline, List.nil_append]
    have h2 : splitLines [] cutLine.data = [cutLine.data] := by decide
    rw [h2]
    rfl
  · rw [BatchUpsert_answer (answering (okBody cutLine)) dec families (.ok (okBody cutLine))
      (by simp [Call.answers, BatchUpsert_sent, answering])]
    have hs : ¬ (okBody cutLine).StatusCode ≥ 300 := by decide
    have hl : scanLines (okBody cutLine).Body = [cutLine] := by decide
    simp only [hs, if_false]
    rw [hl]
    simp only [decodeLines, cutLine_fails]
  · rw [BatchUpsert_answer (answering (okBody (longLine ++ "\n" ++ cutLine))) dec families
      (.ok (okBody (longLine ++ "\n" ++ cutLine)))
      (by simp [Call.answers, BatchUpsert_sent, answering])]
    have hs : ¬ (okBody (longLine ++ "\n" ++ cutLine)).StatusCode ≥ 300 := by
      show ¬ (200 : Int) ≥ 300
      decide
    simp only [hs, if_false]
    have : scanLines (okBody (longLine ++ "\n" ++ cutLine)).Body = [] :=
      longLine_then_scan cutLine
    rw [this]
    rfl

end Akeneo
